import Mathlib

/-
Shallow embedding of the adaptive LRU cache of `util/cache.cc`
(LRUCache shard, ShardedLRUCache, AdaptiveCache with a ghost cache),
together with proofs about the claims of the specification.

Modelling conventions, stated once here:
* Keys (byte slices) are modelled as natural numbers; the external hash
  function over keys is a parameter `H : Key → Nat`, reduced modulo 2^32
  where the code manipulates a 32-bit hash.
* `void*` values are modelled as integers (`Val := Int`); the ghost cache
  stores the evicted entry's charge through `new int(old->charge)`, which
  becomes the integer value `(charge : Int)`.
* Heap-allocated `LRUHandle*` pointers are modelled as numeric ids drawn
  from a monotone counter `nextId`; the heap is an association list from
  id to entry.  `free` removes the id from the heap.
* The two intrusive circular lists (`lru_`, `in_use_`) are modelled as
  lists of ids, index 0 being `head.next` (oldest) and the last element
  being `head.prev` (newest); `LRU_Append` appends at the end and
  `LRU_Remove` erases the id from whichever list holds it.
* Three history ("ghost") fields are carried that the C++ state does not
  store explicitly but that its execution determines: `dels` records each
  deleter invocation `(id, key bytes, value)` in order, `born` records for
  each allocated id the insert-time `(key, value, charge)`, and
  `outstanding` records the handles currently held by clients (pushed by
  `Insert`/successful `Lookup`, popped by `Release`).  They are write-only
  from the point of view of the cache logic, except that `Release` of a
  handle not in `outstanding` is modelled as a no-op: releasing a foreign
  or already-released handle is undefined behaviour per the contract.
* `size_t` arithmetic on `capacity_` is taken modulo 2^64 where the code
  can underflow (`AdjustCapacity`); `int` division is C truncated division
  (`Int.div`); the `double` arithmetic of `AdaptiveCache::AdjustCapacity`
  is modelled exactly over `ℚ` with `static_cast<int>` as truncation
  toward zero, and the division by zero arising when the real cache has
  zero charge is modelled as the undefined result `none`.
-/

namespace LCache

abbrev Key := Nat

abbrev Val := Int

/-- An `LRUHandle` of cache.cc: key bytes, value pointer, charge,
reference count and the `in_cache` flag.  The list and chain links live
outside the entry in this model (in the shard's list fields). -/
structure Entry where
  key : Key
  value : Val
  charge : Nat
  refs : Nat
  inCache : Bool
deriving DecidableEq, Repr

/-- One `LRUCache` shard: capacity, usage, the hash table (the list of
ids currently in `table_`), the two lists, plus the heap of live entries
and the three history fields described in the header comment. -/
structure Shard where
  capacity : Nat
  usage : Nat
  nextId : Nat
  heap : List (Nat × Entry)
  table : List Nat
  lru : List Nat
  inUse : List Nat
  outstanding : List Nat
  dels : List (Nat × Key × Val)
  born : List (Nat × Key × Val × Nat)
deriving DecidableEq, Repr

/-- Read an entry from the heap by id (first binding wins). -/
def hget : List (Nat × Entry) → Nat → Option Entry
  | [], _ => none
  | (j, e) :: t, i => if i = j then some e else hget t i

/-- Drop an id from the heap (models `free`). -/
def hrem : List (Nat × Entry) → Nat → List (Nat × Entry)
  | [], _ => []
  | p :: t, i => if p.1 = i then hrem t i else p :: hrem t i

/-- Overwrite the entry stored under an id (models a field update through
the `LRUHandle*`). -/
def hupd (h : List (Nat × Entry)) (i : Nat) (e : Entry) : List (Nat × Entry) :=
  (i, e) :: hrem h i

/-- The ids of the live heap entries. -/
def heapIds (h : List (Nat × Entry)) : List Nat := h.map (·.1)

/-- The key bytes of the entry an id points at. -/
def keyAt (h : List (Nat × Entry)) (i : Nat) : Option Key := (hget h i).map (·.key)

/-- The charge of the entry an id points at (0 for a dangling id, which a
well-formed table never contains). -/
def chargeAt (h : List (Nat × Entry)) (i : Nat) : Nat :=
  ((hget h i).map (·.charge)).getD 0

/-- HandleTable::FindPointer / Lookup: walk the table for an id whose
entry has the given key.  Bucketing by `hash & (length-1)` only splits
the search; membership is decided by key equality, which is what the
model keeps. -/
def tFind (h : List (Nat × Entry)) (t : List Nat) (k : Key) : Option Nat :=
  t.find? (fun i => keyAt h i == some k)

/-- HandleTable::Lookup on a shard. -/
def tblFind (s : Shard) (k : Key) : Option Nat := tFind s.heap s.table k

/-- HandleTable::Insert: store the id under its key, displacing and
returning a previous id with the same key if there is one. -/
def tblInsert (s : Shard) (i : Nat) (k : Key) : Option Nat × List Nat :=
  match tblFind s k with
  | some old => (some old, i :: s.table.erase old)
  | none => (none, i :: s.table)

/-- HandleTable::Remove: unlink and return the id stored under a key. -/
def tblRemove (s : Shard) (k : Key) : Option Nat × List Nat :=
  match tblFind s k with
  | some i => (some i, s.table.erase i)
  | none => (none, s.table)

/-- LRU_Remove: unlink an entry from whichever of the two lists holds it
(erasing from a list that does not hold it is the identity). -/
def listsRemove (s : Shard) (i : Nat) : Shard :=
  { s with lru := s.lru.erase i, inUse := s.inUse.erase i }

/-- LRUCache::Ref: an entry on the lru list (refs == 1 and in_cache)
moves to the in-use list; the reference count is incremented. -/
def shardRef (s : Shard) (i : Nat) : Shard :=
  match hget s.heap i with
  | none => s
  | some e =>
    let s1 :=
      if e.refs = 1 ∧ e.inCache = true then
        let s0 := listsRemove s i
        { s0 with inUse := s0.inUse ++ [i] }
      else s
    { s1 with heap := hupd s1.heap i { e with refs := e.refs + 1 } }

/-- LRUCache::Unref: decrement the reference count; on reaching zero
invoke the deleter (recorded in `dels`) and free the entry; an in-cache
entry dropping to a single reference moves to the lru list. -/
def shardUnref (s : Shard) (i : Nat) : Shard :=
  match hget s.heap i with
  | none => s
  | some e =>
    if e.refs - 1 = 0 then
      { s with heap := hrem s.heap i, dels := s.dels ++ [(i, e.key, e.value)] }
    else if e.inCache = true ∧ e.refs - 1 = 1 then
      let s0 := listsRemove s i
      { s0 with lru := s0.lru ++ [i],
                heap := hupd s0.heap i { e with refs := e.refs - 1 } }
    else
      { s with heap := hupd s.heap i { e with refs := e.refs - 1 } }

/-- LRUCache::FinishErase: finish removing an entry already unlinked
from the hash table: unlink from its list, clear `in_cache`, subtract
its charge from `usage_`, drop the cache's reference. -/
def shardFinishErase (s : Shard) (o : Option Nat) : Shard :=
  match o with
  | none => s
  | some i =>
    match hget s.heap i with
    | none => s
    | some e =>
      let s0 := listsRemove s i
      shardUnref
        ({ s0 with heap := hupd s0.heap i { e with inCache := false },
                   usage := s0.usage - e.charge }) i

/-- LRUCache::Lookup: find by key; on a hit, `Ref` the entry and hand the
id to the client (recorded in `outstanding`). -/
def shardLookup (s : Shard) (k : Key) : Shard × Option Nat :=
  match tblFind s k with
  | none => (s, none)
  | some i =>
    let s1 := shardRef s i
    ({ s1 with outstanding := i :: s1.outstanding }, some i)

/-- LRUCache::Release: drop a client handle.  Releasing a handle the
client does not hold is undefined behaviour in the source and a no-op
here. -/
def shardRelease (s : Shard) (i : Nat) : Shard :=
  if i ∈ s.outstanding then
    shardUnref ({ s with outstanding := s.outstanding.erase i }) i
  else s

/-- LRUCache::Erase: remove from the hash table, then `FinishErase`. -/
def shardErase (s : Shard) (k : Key) : Shard :=
  let p := tblRemove s k
  shardFinishErase ({ s with table := p.2 }) p.1

/-- The part of LRUCache::Insert before the eviction loop: allocate the
entry with `refs = 1` for the returned handle; when the capacity is
positive, take the cache reference, mark in-cache, append to the in-use
list, add the charge to the usage and put the entry into the hash table,
finishing the erase of a displaced entry with the same key.  The handle
is handed to the client, so its id joins `outstanding`; `born` records
the allocation. -/
def insertCore (s : Shard) (k : Key) (v : Val) (c : Nat) : Shard × Nat :=
  let i := s.nextId
  let s0 := { s with nextId := i + 1,
                     born := s.born ++ [(i, k, v, c)],
                     outstanding := i :: s.outstanding }
  if 0 < s.capacity then
    let e1 : Entry := { key := k, value := v, charge := c, refs := 2, inCache := true }
    let s1 := { s0 with heap := hupd s0.heap i e1,
                        inUse := s0.inUse ++ [i],
                        usage := s0.usage + c }
    let p := tblInsert s1 i k
    (shardFinishErase ({ s1 with table := p.2 }) p.1, i)
  else
    let e0 : Entry := { key := k, value := v, charge := c, refs := 1, inCache := false }
    ({ s0 with heap := hupd s0.heap i e0 }, i)

/-- The eviction loop of LRUCache::Insert: while `usage_ > capacity_` and
the lru list is non-empty, remove the oldest lru entry from the table and
finish erasing it — the loop body is exactly the body of `Erase` applied
to the oldest key.  The fuel argument bounds the iterations by the length
of the lru list, which the loop shortens by one per iteration on every
well-formed state. -/
def evictPlain : Nat → Shard → Shard
  | 0, s => s
  | n + 1, s =>
    if s.capacity < s.usage then
      match s.lru with
      | [] => s
      | old :: _ =>
        match keyAt s.heap old with
        | none => s
        | some k => evictPlain n (shardErase s k)
    else s

/-- LRUCache::Insert (the plain variant without a ghost cache). -/
def shardInsert (s : Shard) (k : Key) (v : Val) (c : Nat) : Shard × Nat :=
  let p := insertCore s k v c
  (evictPlain p.1.lru.length p.1, p.2)

/-- LRUCache::Prune: evict every entry on the lru list. -/
def pruneLoop : Nat → Shard → Shard
  | 0, s => s
  | n + 1, s =>
    match s.lru with
    | [] => s
    | old :: _ =>
      match keyAt s.heap old with
      | none => s
      | some k => pruneLoop n (shardErase s k)

/-- LRUCache::Prune. -/
def shardPrune (s : Shard) : Shard := pruneLoop s.lru.length s

/-- LRUCache::AdjustCapacity: `capacity_ += delta` on a `size_t`, hence
modulo 2^64. -/
def shardAdjustCapacity (s : Shard) (d : Int) : Shard :=
  { s with capacity := (Int.emod ((s.capacity : Int) + d) (2 ^ 64)).toNat }

/-- A freshly constructed `LRUCache` shard with the given capacity
(`SetCapacity` after the constructor). -/
def initShard (cap : Nat) : Shard :=
  { capacity := cap, usage := 0, nextId := 0, heap := [], table := [],
    lru := [], inUse := [], outstanding := [], dels := [], born := [] }

/-- A client-visible operation on one shard.  `release` carries the
handle id being released. -/
inductive Op where
  | insert (k : Key) (v : Val) (c : Nat)
  | lookup (k : Key)
  | release (i : Nat)
  | erase (k : Key)
  | prune
  | adjust (d : Int)
deriving DecidableEq, Repr

/-- One operation applied to a shard. -/
def stepOp (s : Shard) : Op → Shard
  | .insert k v c => (shardInsert s k v c).1
  | .lookup k => (shardLookup s k).1
  | .release i => shardRelease s i
  | .erase k => shardErase s k
  | .prune => shardPrune s
  | .adjust d => shardAdjustCapacity s d

/-- A finite sequence of operations applied to a shard. -/
def runOps (s : Shard) (t : List Op) : Shard := t.foldl stepOp s

/-- The sum of the charges of the entries reachable from the hash
table. -/
def tableCharge (s : Shard) : Nat := (s.table.map (chargeAt s.heap)).sum

/-- kNumShards = 1 << kNumShardBits with kNumShardBits = 4. -/
def kNumShards : Nat := 16

/-- ShardedLRUCache: the 16 shards, the `NewId` counter and the tracked
total capacity. -/
structure Sharded where
  shards : List Shard
  lastId : Nat
  capacity : Nat
deriving DecidableEq, Repr

/-- ShardedLRUCache::Shard: the top 4 bits of the 32-bit hash of the
key.  `H` is the external hash function. -/
def shardIdx (H : Key → Nat) (k : Key) : Nat := (H k % 2 ^ 32) / 2 ^ 28

/-- Read one shard of the array (the index is below 16 whenever it comes
from `shardIdx`). -/
def getShard (sc : Sharded) (idx : Nat) : Shard := sc.shards.getD idx (initShard 0)

/-- Write one shard of the array. -/
def setShard (sc : Sharded) (idx : Nat) (s : Shard) : Sharded :=
  { sc with shards := sc.shards.set idx s }

/-- NewLRUCache: 16 shards, each with capacity
`(capacity + kNumShards - 1) / kNumShards`. -/
def newSharded (cap : Nat) : Sharded :=
  { shards := List.replicate kNumShards (initShard ((cap + (kNumShards - 1)) / kNumShards)),
    lastId := 0, capacity := cap }

/-- A cache handle as seen by a client of the sharded cache: the shard
index (which the code recomputes from the stored hash) and the entry
id. -/
abbrev Handle := Nat × Nat

/-- ShardedLRUCache::Insert. -/
def shardedInsert (H : Key → Nat) (sc : Sharded) (k : Key) (v : Val) (c : Nat) :
    Sharded × Handle :=
  let idx := shardIdx H k
  let p := shardInsert (getShard sc idx) k v c
  (setShard sc idx p.1, (idx, p.2))

/-- ShardedLRUCache::Lookup. -/
def shardedLookup (H : Key → Nat) (sc : Sharded) (k : Key) :
    Sharded × Option Handle :=
  let idx := shardIdx H k
  let p := shardLookup (getShard sc idx) k
  (setShard sc idx p.1, p.2.map (fun i => (idx, i)))

/-- ShardedLRUCache::Release (routes by the hash stored in the
handle). -/
def shardedRelease (sc : Sharded) (h : Handle) : Sharded :=
  setShard sc h.1 (shardRelease (getShard sc h.1) h.2)

/-- ShardedLRUCache::Value. -/
def shardedValue (sc : Sharded) (h : Handle) : Val :=
  ((hget (getShard sc h.1).heap h.2).map (·.value)).getD 0

/-- ShardedLRUCache::Erase. -/
def shardedErase (H : Key → Nat) (sc : Sharded) (k : Key) : Sharded :=
  let idx := shardIdx H k
  setShard sc idx (shardErase (getShard sc idx) k)

/-- ShardedLRUCache::Prune. -/
def shardedPrune (sc : Sharded) : Sharded :=
  { sc with shards := sc.shards.map shardPrune }

/-- ShardedLRUCache::TotalCharge. -/
def shardedTotalCharge (sc : Sharded) : Nat := (sc.shards.map (·.usage)).sum

/-- ShardedLRUCache::NewId. -/
def shardedNewId (sc : Sharded) : Sharded × Nat :=
  ({ sc with lastId := sc.lastId + 1 }, sc.lastId + 1)

/-- ShardedLRUCache::AdjustCapacity: negative adjustments are ignored
below the `8 << 18` floor; otherwise each shard receives the truncated
division `adjustment / kNumShards` and the tracked total is bumped (in
`size_t` arithmetic). -/
def shardedAdjustCapacity (sc : Sharded) (d : Int) : Sharded :=
  if d < 0 ∧ sc.capacity < 2097152 then sc
  else
    { shards := sc.shards.map (fun s => shardAdjustCapacity s (Int.tdiv d (kNumShards : Int))),
      lastId := sc.lastId,
      capacity := (Int.emod ((sc.capacity : Int) + d) (2 ^ 64)).toNat }

/-- The eviction loop of the ghost variant of LRUCache::Insert: before
each eviction, the evicted key is inserted into the ghost cache with
value `new int(old->charge)` and charge 1, and the ghost handle is
released immediately; then the entry is erased exactly as in the plain
loop. -/
def evictGhost (H : Key → Nat) : Nat → Shard → Sharded → Shard × Sharded
  | 0, s, g => (s, g)
  | n + 1, s, g =>
    if s.capacity < s.usage then
      match s.lru with
      | [] => (s, g)
      | old :: _ =>
        match hget s.heap old with
        | none => (s, g)
        | some e =>
          let p := shardedInsert H g e.key (e.charge : Int) 1
          let g2 := shardedRelease p.1 p.2
          evictGhost H n (shardErase s e.key) g2
    else (s, g)

/-- LRUCache::Insert, the variant taking a ghost cache. -/
def shardInsertGhost (H : Key → Nat) (s : Shard) (k : Key) (v : Val) (c : Nat)
    (g : Sharded) : Shard × Sharded × Nat :=
  let p := insertCore s k v c
  let q := evictGhost H p.1.lru.length p.1 g
  (q.1, q.2, p.2)

/-- ShardedLRUCache::InsertARC. -/
def shardedInsertGhost (H : Key → Nat) (sc : Sharded) (k : Key) (v : Val) (c : Nat)
    (g : Sharded) : Sharded × Sharded × Handle :=
  let idx := shardIdx H k
  let q := shardInsertGhost H (getShard sc idx) k v c g
  (setShard sc idx q.1, q.2.1, (idx, q.2.2))

/-- AdaptiveCache: the real sharded cache, the ghost sharded cache and
the accumulated capacity adjustment.  cache.cc drives the ghost through
the `Cache` interface (`Insert`/`Lookup`/`Value`/`Release`/
`TotalCharge`/`AdjustCapacity`), i.e. as a sharded LRU cache, which is
also how the specification describes it. -/
structure Adaptive where
  real : Sharded
  ghost : Sharded
  accum : Int
deriving DecidableEq, Repr

/-- An AdaptiveCache over a real cache of the given capacity.  The
constructor of the ghost cache is not part of cache.cc; its capacity is
kept as a parameter. -/
def newAdaptive (capReal capGhost : Nat) : Adaptive :=
  { real := newSharded capReal, ghost := newSharded capGhost, accum := 0 }

/-- AdaptiveCache::Insert: `real->InsertARC(key, value, charge, ghost,
deleter)`. -/
def adaptiveInsert (H : Key → Nat) (a : Adaptive) (k : Key) (v : Val) (c : Nat) :
    Adaptive × Handle :=
  let q := shardedInsertGhost H a.real k v c a.ghost
  ({ a with real := q.1, ghost := q.2.1 }, q.2.2)

/-- AdaptiveCache::Lookup(key, ghostHit): look up in `real`; on a miss
look up in `ghost`, and on a ghost hit copy the stored integer into
`ghostHit`, release the ghost handle and return null.  The result is
(returned handle, new state, final value of the `ghostHit` variable). -/
def adaptiveLookup (H : Key → Nat) (a : Adaptive) (k : Key) (ghostHit : Int) :
    Option Handle × Adaptive × Int :=
  let p := shardedLookup H a.real k
  match p.2 with
  | some hd => (some hd, { a with real := p.1 }, ghostHit)
  | none =>
    let q := shardedLookup H a.ghost k
    match q.2 with
    | some hd =>
      let v := shardedValue q.1 hd
      (none, { a with real := p.1, ghost := shardedRelease q.1 hd }, v)
    | none => (none, { a with real := p.1, ghost := q.1 }, ghostHit)

/-- AdaptiveCache::Release: delegates to `real`. -/
def adaptiveRelease (a : Adaptive) (h : Handle) : Adaptive :=
  { a with real := shardedRelease a.real h }

/-- static_cast<int> applied to the exact value of the double
computation: truncation toward zero. -/
def truncQ (q : ℚ) : Int := if 0 ≤ q then ⌊q⌋ else ⌈q⌉

/-- AdaptiveCache::AdjustCapacity: accumulate; past the ±4096 threshold,
reset the accumulator and split this call's `adjustment` between ghost
and real in proportion `rt = ghost_charge / real_charge`.  The double
arithmetic is modelled exactly over `ℚ`; when `real->TotalCharge()` is
zero the division by zero makes the subsequent casts undefined, which
the model returns as `none`. -/
def adaptiveAdjustCapacity (a : Adaptive) (d : Int) : Option Adaptive :=
  let acc := a.accum + d
  if 4096 < acc ∨ acc < -4096 then
    let r := shardedTotalCharge a.real
    let g := shardedTotalCharge a.ghost
    if r = 0 then none
    else
      let rt : ℚ := (g : ℚ) / (r : ℚ)
      some { real := shardedAdjustCapacity a.real (truncQ ((d : ℚ) / (rt + 1))),
             ghost := shardedAdjustCapacity a.ghost (truncQ ((d : ℚ) * rt / (rt + 1))),
             accum := 0 }
  else some { a with accum := acc }

/-- AdaptiveCache::TotalGhostCharge. -/
def adaptiveGhostCharge (a : Adaptive) : Nat := shardedTotalCharge a.ghost

/-- A client-visible operation on an AdaptiveCache.  `adjust` folds the
undefined division case into a no-op so that traces stay total; the
claims about `AdjustCapacity` use `adaptiveAdjustCapacity` directly. -/
inductive AOp where
  | insert (k : Key) (v : Val) (c : Nat)
  | lookup (k : Key)
  | release (h : Handle)
  | adjust (d : Int)
deriving DecidableEq, Repr

/-- One adaptive operation. -/
def stepAOp (H : Key → Nat) (a : Adaptive) : AOp → Adaptive
  | .insert k v c => (adaptiveInsert H a k v c).1
  | .lookup k => (adaptiveLookup H a k 0).2.1
  | .release h => adaptiveRelease a h
  | .adjust d => (adaptiveAdjustCapacity a d).getD a

/-- A finite sequence of adaptive operations. -/
def runAOps (H : Key → Nat) (a : Adaptive) (t : List AOp) : Adaptive :=
  t.foldl (stepAOp H) a

/-- A client-visible operation on the sharded cache. -/
inductive SOp where
  | insert (k : Key) (v : Val) (c : Nat)
  | lookup (k : Key)
  | release (h : Handle)
  | erase (k : Key)
  | prune
  | adjust (d : Int)
deriving DecidableEq, Repr

/-- One sharded operation. -/
def stepSOp (H : Key → Nat) (sc : Sharded) : SOp → Sharded
  | .insert k v c => (shardedInsert H sc k v c).1
  | .lookup k => (shardedLookup H sc k).1
  | .release h => shardedRelease sc h
  | .erase k => shardedErase H sc k
  | .prune => shardedPrune sc
  | .adjust d => shardedAdjustCapacity sc d

/-- A finite sequence of sharded operations. -/
def runSOps (H : Key → Nat) (sc : Sharded) (t : List SOp) : Sharded :=
  t.foldl (stepSOp H) sc

/-- The LRUCache destructor: every remaining lru entry has its
`in_cache` flag cleared and is unreferenced (the in-use list is required
to be empty). -/
def teardownStep (s : Shard) (i : Nat) : Shard :=
  match hget s.heap i with
  | none => s
  | some e => shardUnref ({ s with heap := hupd s.heap i { e with inCache := false } }) i

/-- The LRUCache destructor walks the lru list. -/
def teardown (s : Shard) : Shard := s.lru.foldl teardownStep s

/-- The charge of a list of table ids against a heap. -/
def listCharge (h : List (Nat × Entry)) (t : List Nat) : Nat := (t.map (chargeAt h)).sum

/-- The ids recorded in the deletion history. -/
def delsIds (s : Shard) : List Nat := s.dels.map (·.1)

/-- Look up the insert-time record of an id. -/
def bget : List (Nat × Key × Val × Nat) → Nat → Option (Key × Val × Nat)
  | [], _ => none
  | (j, r) :: t, i => if i = j then some r else bget t i

/-- The well-formedness invariant of a shard, i.e. the state properties
that every sequence of client operations maintains: the data-structure
invariants of §3 of the specification (hash table, lists, reference
counts, usage accounting) together with the bookkeeping of the history
fields. -/
structure WF (s : Shard) : Prop where
  hNodup : (heapIds s.heap).Nodup
  hBound : ∀ p ∈ s.heap, p.1 < s.nextId
  tNodup : s.table.Nodup
  tLive : ∀ i ∈ s.table, ∃ e, hget s.heap i = some e ∧ e.inCache = true
  tKeys : ∀ i ∈ s.table, ∀ j ∈ s.table, keyAt s.heap i = keyAt s.heap j → i = j
  cacheTbl : ∀ p ∈ s.heap, p.2.inCache = true → p.1 ∈ s.table
  listsTbl : ∀ i : Nat, (i ∈ s.lru ∨ i ∈ s.inUse) ↔ i ∈ s.table
  listsNodup : (s.lru ++ s.inUse).Nodup
  lruRefs : ∀ i ∈ s.lru, ∀ e, hget s.heap i = some e → e.refs = 1
  useRefs : ∀ i ∈ s.inUse, ∀ e, hget s.heap i = some e → 2 ≤ e.refs
  refsEq : ∀ p ∈ s.heap,
    p.2.refs = (if p.2.inCache = true then 1 else 0) + s.outstanding.count p.1
  outLive : ∀ i ∈ s.outstanding, i ∈ heapIds s.heap
  refsPos : ∀ p ∈ s.heap, 1 ≤ p.2.refs
  usageEq : s.usage = listCharge s.heap s.table
  dNodup : (delsIds s).Nodup
  dBound : ∀ d ∈ s.dels, d.1 < s.nextId
  dDisj : ∀ d ∈ s.dels, d.1 ∉ heapIds s.heap
  allocSplit : ∀ i : Nat, i < s.nextId → i ∈ heapIds s.heap ∨ i ∈ delsIds s
  bBound : ∀ b ∈ s.born, b.1 < s.nextId
  bHeap : ∀ p ∈ s.heap, bget s.born p.1 = some (p.2.key, p.2.value, p.2.charge)
  bDels : ∀ d ∈ s.dels, ∃ c, bget s.born d.1 = some (d.2.1, d.2.2, c)

/-- Well-formedness of every shard of a sharded cache. -/
def ShardedWF (sc : Sharded) : Prop := ∀ s ∈ sc.shards, WF s

/-- Every entry of one shard carries charge 1. -/
def ChargeOne (s : Shard) : Prop := ∀ p ∈ s.heap, p.2.charge = 1

/-- Every entry of every shard carries charge 1 (the invariant of the
ghost cache, whose insertions all use charge 1). -/
def AllChargeOne (sc : Sharded) : Prop := ∀ s ∈ sc.shards, ChargeOne s

/-- The number of keys currently resident in a sharded cache (the sizes
of the hash tables). -/
def residentKeys (sc : Sharded) : Nat := (sc.shards.map (·.table.length)).sum

/-- Whether a key is in the real cache of an AdaptiveCache (membership
of the hash table of its shard). -/
def realHas (H : Key → Nat) (a : Adaptive) (k : Key) : Bool :=
  (tblFind (getShard a.real (shardIdx H k)) k).isSome

/-- The handle a real-cache hit returns. -/
def realHandleOf (H : Key → Nat) (a : Adaptive) (k : Key) : Handle :=
  (shardIdx H k, (tblFind (getShard a.real (shardIdx H k)) k).getD 0)

/-- Whether a key is in the ghost cache of an AdaptiveCache. -/
def ghostHas (H : Key → Nat) (a : Adaptive) (k : Key) : Bool :=
  (tblFind (getShard a.ghost (shardIdx H k)) k).isSome

/-- The integer value stored in the ghost entry of a key (the charge the
key had when it was evicted from the real cache). -/
def ghostStored (H : Key → Nat) (a : Adaptive) (k : Key) : Int :=
  (((tblFind (getShard a.ghost (shardIdx H k)) k).bind
      (fun i => hget (getShard a.ghost (shardIdx H k)).heap i)).map (·.value)).getD 0

/-- The post-state facts claim C5 asserts about `Insert` on a shard:
the new entry has two references, is in cache, is the newest element of
the in-use list and is recorded in the hash table; the usage grows by
the charge when nothing is displaced or evicted; a displaced same-key
entry is detached from table and lists, and when clients still hold it,
it survives in the heap with `in_cache` cleared and the cache reference
dropped. -/
def InsertSpec (s : Shard) (k : Key) (v : Val) (c : Nat) : Prop :=
  (shardInsert s k v c).2 = s.nextId ∧
  (∃ e, hget (shardInsert s k v c).1.heap s.nextId = some e ∧
     e.refs = 2 ∧ e.inCache = true ∧ e.key = k ∧ e.value = v ∧ e.charge = c) ∧
  (shardInsert s k v c).1.inUse.getLast? = some s.nextId ∧
  tblFind (shardInsert s k v c).1 k = some s.nextId ∧
  (tblFind s k = none → s.usage + c ≤ s.capacity →
     (shardInsert s k v c).1.usage = s.usage + c) ∧
  (∀ j, tblFind s k = some j →
     j ∉ (shardInsert s k v c).1.table ∧
     j ∉ (shardInsert s k v c).1.lru ∧ j ∉ (shardInsert s k v c).1.inUse ∧
     (∀ e', hget s.heap j = some e' → 2 ≤ e'.refs →
        hget (shardInsert s k v c).1.heap j =
          some { e' with refs := e'.refs - 1, inCache := false }) ∧
     (s.usage + c ≤ s.capacity + chargeAt s.heap j →
        (shardInsert s k v c).1.usage = s.usage + c - chargeAt s.heap j))

/-- The hash function used by the concrete scenarios: every key hashes
to 0, so every key lands in shard 0 (the hash function itself is an
external collaborator of the cache). -/
def H0 : Key → Nat := fun _ => 0

/-- Concrete NewLRUCache(3) cache after inserting four distinct keys of
charge 1 while holding all four returned handles (no lookups and no
releases between the inserts). -/
def c7state : Sharded :=
  (shardedInsert H0 (shardedInsert H0 (shardedInsert H0 (shardedInsert H0
    (newSharded 3) 1 10 1).1 2 20 1).1 3 30 1).1 4 40 1).1

/-- Concrete AdaptiveCache scenario: real capacity 2, ghost capacity
100; insert key 1 with charge 5, release its handle, then insert key 2
with charge 1, which evicts key 1 into the ghost cache. -/
def c1state : Adaptive :=
  (adaptiveInsert H0
    (adaptiveRelease (adaptiveInsert H0 (newAdaptive 2 100) 1 0 5).1 (0, 0))
    2 0 1).1

/-- Concrete AdaptiveCache whose real cache holds charge 10 (key 1
inserted and released) with tracked real capacity 100 and ghost
capacity 50. -/
def c3state : Adaptive :=
  adaptiveRelease (adaptiveInsert H0 (newAdaptive 100 50) 1 0 10).1 (0, 0)

/-- Concrete scenario S1 at shard level: capacity 3, unit charges, four
distinct keys inserted, each returned handle released immediately. -/
def c7ops : List Op :=
  [.insert 1 10 1, .release 0, .insert 2 20 1, .release 1,
   .insert 3 30 1, .release 2, .insert 4 40 1, .release 3]

/-- A shard of capacity 100 whose capacity is adjusted by −5000. -/
def c8shard : Shard := shardAdjustCapacity (initShard 100) (-5000)

/-- Two large inserts (with releases) against the adjusted shard. -/
def c8ops : List Op :=
  [.insert 1 0 5000, .release 0, .insert 2 0 5000, .release 1]

/-- Concrete trace for the deleter lifecycle: a capacity-1 shard, two
inserts of unit charge with both handles released, the second insert
evicting the first entry. -/
def c6ops : List Op :=
  [.insert 1 5 1, .release 0, .insert 2 6 1, .release 1]

/-! Helper lemmas about the heap representation. -/

theorem hrem_sublist (h : List (Nat × Entry)) (i : Nat) : (hrem h i).Sublist h := by
  induction h with
  | nil => simp [hrem]
  | cons p t ih =>
    by_cases hpi : p.1 = i
    · simpa [hrem, hpi] using ih.cons p
    · simpa [hrem, hpi] using ih.cons₂ p

theorem hget_hrem (h : List (Nat × Entry)) (i j : Nat) :
    hget (hrem h i) j = if j = i then none else hget h j := by
  induction h with
  | nil => simp [hrem, hget]
  | cons p t ih =>
    obtain ⟨a, pe⟩ := p
    by_cases hai : a = i
    · subst hai
      by_cases hja : j = a
      · subst hja; simp [hrem, hget, ih]
      · simp [hrem, hget, hja, ih]
    · by_cases hja : j = a
      · subst hja
        simp [hrem, hget, hai]
      · by_cases hji : j = i
        · subst hji; simp [hrem, hget, hai, hja, ih]
        · simp [hrem, hget, hai, hja, hji, ih]

theorem hget_hupd (h : List (Nat × Entry)) (i j : Nat) (e : Entry) :
    hget (hupd h i e) j = if j = i then some e else hget h j := by
  by_cases hji : j = i <;> simp [hupd, hget, hji, hget_hrem]

theorem mem_heapIds (h : List (Nat × Entry)) (i : Nat) :
    i ∈ heapIds h ↔ hget h i ≠ none := by
  induction h with
  | nil => simp [heapIds, hget]
  | cons p t ih =>
    by_cases hip : i = p.1
    · simp [heapIds, hget, hip]
    · simp only [heapIds, List.map_cons, List.mem_cons, hget] at ih ⊢
      simp [hip, Ne.symm hip, ih, heapIds]

theorem mem_heapIds_hrem (h : List (Nat × Entry)) (i j : Nat) :
    j ∈ heapIds (hrem h i) ↔ j ≠ i ∧ j ∈ heapIds h := by
  rw [mem_heapIds, hget_hrem, mem_heapIds]
  by_cases hji : j = i <;> simp [hji]

theorem mem_heapIds_hupd (h : List (Nat × Entry)) (i j : Nat) (e : Entry) :
    j ∈ heapIds (hupd h i e) ↔ j = i ∨ j ∈ heapIds h := by
  rw [mem_heapIds, hget_hupd, mem_heapIds]
  by_cases hji : j = i <;> simp [hji]

theorem nodup_heapIds_hrem (h : List (Nat × Entry)) (i : Nat)
    (hn : (heapIds h).Nodup) : (heapIds (hrem h i)).Nodup := by
  unfold heapIds at hn ⊢
  exact (List.Sublist.map (fun p => p.1) (hrem_sublist h i)).nodup hn

theorem nodup_heapIds_hupd (h : List (Nat × Entry)) (i : Nat) (e : Entry)
    (hn : (heapIds h).Nodup) : (heapIds (hupd h i e)).Nodup := by
  have : heapIds (hupd h i e) = i :: heapIds (hrem h i) := by simp [hupd, heapIds]
  rw [this]
  refine List.Nodup.cons ?_ (nodup_heapIds_hrem h i hn)
  intro hmem
  exact ((mem_heapIds_hrem h i i).mp hmem).1 rfl

theorem mem_of_mem_hrem (h : List (Nat × Entry)) (i : Nat) (p : Nat × Entry)
    (hp : p ∈ hrem h i) : p ∈ h := (hrem_sublist h i).mem hp

theorem mem_of_mem_hupd (h : List (Nat × Entry)) (i : Nat) (e : Entry)
    (p : Nat × Entry) (hp : p ∈ hupd h i e) : p = (i, e) ∨ p ∈ h := by
  rw [hupd, List.mem_cons] at hp
  rcases hp with hp | hp
  · exact Or.inl hp
  · exact Or.inr (mem_of_mem_hrem h i p hp)

theorem hget_mem (h : List (Nat × Entry)) (i : Nat) (e : Entry)
    (he : hget h i = some e) : (i, e) ∈ h := by
  induction h with
  | nil => simp [hget] at he
  | cons p t ih =>
    obtain ⟨a, pe⟩ := p
    by_cases hia : i = a
    · subst hia
      simp only [hget, if_pos rfl] at he
      have hpe := Option.some.inj he
      subst hpe
      exact List.mem_cons_self _ _
    · simp only [hget, if_neg hia] at he
      exact List.mem_cons_of_mem _ (ih he)

theorem chargeAt_hupd (h : List (Nat × Entry)) (i j : Nat) (e : Entry) :
    chargeAt (hupd h i e) j = if j = i then e.charge else chargeAt h j := by
  by_cases hji : j = i <;> simp [chargeAt, hget_hupd, hji]

theorem chargeAt_hrem (h : List (Nat × Entry)) (i j : Nat) (hji : j ≠ i) :
    chargeAt (hrem h i) j = chargeAt h j := by
  simp [chargeAt, hget_hrem, hji]

theorem keyAt_hupd (h : List (Nat × Entry)) (i j : Nat) (e : Entry) :
    keyAt (hupd h i e) j = if j = i then some e.key else keyAt h j := by
  by_cases hji : j = i <;> simp [keyAt, hget_hupd, hji]

theorem keyAt_hrem (h : List (Nat × Entry)) (i j : Nat) (hji : j ≠ i) :
    keyAt (hrem h i) j = keyAt h j := by
  simp [keyAt, hget_hrem, hji]

/-! Helper lemmas about list charges and table search. -/

theorem listCharge_congr (h h' : List (Nat × Entry)) (t : List Nat)
    (hc : ∀ i ∈ t, chargeAt h' i = chargeAt h i) :
    listCharge h' t = listCharge h t := by
  unfold listCharge
  exact congrArg List.sum (List.map_congr_left hc)

theorem listCharge_cons (h : List (Nat × Entry)) (i : Nat) (t : List Nat) :
    listCharge h (i :: t) = chargeAt h i + listCharge h t := by
  simp [listCharge]

theorem listCharge_erase (h : List (Nat × Entry)) (t : List Nat) (i : Nat)
    (hi : i ∈ t) : listCharge h t = chargeAt h i + listCharge h (t.erase i) := by
  have hperm : t.Perm (i :: t.erase i) := List.perm_cons_erase hi
  have := (hperm.map (chargeAt h)).sum_eq
  simpa [listCharge] using this

theorem tFind_eq_some (h : List (Nat × Entry)) (t : List Nat) (k : Key) (i : Nat)
    (hf : tFind h t k = some i) : i ∈ t ∧ keyAt h i = some k := by
  refine ⟨List.mem_of_find?_eq_some hf, ?_⟩
  have := List.find?_some hf
  simpa using this

theorem tFind_eq_none (h : List (Nat × Entry)) (t : List Nat) (k : Key)
    (hf : tFind h t k = none) : ∀ i ∈ t, keyAt h i ≠ some k := by
  intro i hi
  have := List.find?_eq_none.mp hf i hi
  simpa using this

theorem hrem_hrem (h : List (Nat × Entry)) (i : Nat) :
    hrem (hrem h i) i = hrem h i := by
  induction h with
  | nil => simp [hrem]
  | cons p t ih =>
    by_cases hpi : p.1 = i <;> simp [hrem, hpi, ih]

theorem hrem_hupd (h : List (Nat × Entry)) (i : Nat) (e : Entry) :
    hrem (hupd h i e) i = hrem h i := by
  simp [hupd, hrem, hrem_hrem]

theorem hupd_hupd (h : List (Nat × Entry)) (i : Nat) (a b : Entry) :
    hupd (hupd h i a) i b = hupd h i b := by
  simp [hupd, hrem, hrem_hrem]

/-- `Erase` of an absent key is the identity (no list, table, usage,
refcount or deleter activity). -/
theorem shardErase_miss (s : Shard) (k : Key) (hf : tblFind s k = none) :
    shardErase s k = s := by
  simp [shardErase, tblRemove, hf, shardFinishErase]

/-- Explicit form of `Erase` of a present key: the entry leaves the
table and its list and loses the cache reference; with no client
references left it is deleted, otherwise it survives un-cached. -/
theorem shardErase_hit (s : Shard) (k : Key) (j : Nat) (e : Entry)
    (hf : tblFind s k = some j) (he : hget s.heap j = some e) :
    shardErase s k =
      if e.refs - 1 = 0 then
        { s with heap := hrem s.heap j, usage := s.usage - e.charge,
                 table := s.table.erase j, lru := s.lru.erase j,
                 inUse := s.inUse.erase j,
                 dels := s.dels ++ [(j, e.key, e.value)] }
      else
        { s with
          heap := hupd s.heap j (Entry.mk e.key e.value e.charge (e.refs - 1) false),
          usage := s.usage - e.charge, table := s.table.erase j,
          lru := s.lru.erase j, inUse := s.inUse.erase j } := by
  simp only [shardErase, tblRemove, hf, shardFinishErase, listsRemove]
  simp only [he, hget_hupd, if_pos rfl, shardUnref]
  by_cases hr : e.refs - 1 = 0
  · simp [hr, hrem_hupd]
  · simp [hr, hupd_hupd]

theorem mem_hrem (h : List (Nat × Entry)) (i : Nat) (p : Nat × Entry)
    (hp : p ∈ hrem h i) : p ∈ h ∧ p.1 ≠ i := by
  induction h with
  | nil => simp [hrem] at hp
  | cons q t ih =>
    by_cases hqi : q.1 = i
    · rw [hrem, if_pos hqi] at hp
      have := ih hp
      exact ⟨List.mem_cons_of_mem _ this.1, this.2⟩
    · rw [hrem, if_neg hqi] at hp
      rcases List.mem_cons.mp hp with hp | hp
      · subst hp; exact ⟨List.mem_cons_self _ _, hqi⟩
      · have := ih hp
        exact ⟨List.mem_cons_of_mem _ this.1, this.2⟩

theorem mem_hupd_cases (h : List (Nat × Entry)) (i : Nat) (e : Entry)
    (p : Nat × Entry) (hp : p ∈ hupd h i e) : p = (i, e) ∨ (p ∈ h ∧ p.1 ≠ i) := by
  rw [hupd, List.mem_cons] at hp
  rcases hp with hp | hp
  · exact Or.inl hp
  · exact Or.inr (mem_hrem h i p hp)

theorem fst_mem_heapIds (h : List (Nat × Entry)) (p : Nat × Entry) (hp : p ∈ h) :
    p.1 ∈ heapIds h := List.mem_map_of_mem (fun q => q.1) hp

theorem WF.find_entry {s : Shard} {k : Key} {j : Nat} (w : WF s)
    (hf : tblFind s k = some j) :
    ∃ e, hget s.heap j = some e ∧ e.inCache = true ∧ e.key = k ∧ j ∈ s.table := by
  obtain ⟨hjt, hkey⟩ := tFind_eq_some _ _ _ _ hf
  obtain ⟨e', he', hin'⟩ := w.tLive j hjt
  refine ⟨e', he', hin', ?_, hjt⟩
  simp only [keyAt, he', Option.map_some'] at hkey
  exact Option.some.inj hkey

/-- `Erase` preserves the well-formedness invariant. -/
theorem WF_shardErase (s : Shard) (k : Key) (w : WF s) : WF (shardErase s k) := by
  cases hf : tblFind s k with
  | none => rw [shardErase_miss s k hf]; exact w
  | some j =>
    obtain ⟨e, he, hin, hek, hjt⟩ := w.find_entry hf
    have hje : (j, e) ∈ s.heap := hget_mem _ _ _ he
    have hjheap : j ∈ heapIds s.heap := fst_mem_heapIds _ _ hje
    have hrefs : e.refs = 1 + s.outstanding.count j := by
      have := w.refsEq (j, e) hje
      simpa [hin] using this
    have hjnotdels : j ∉ delsIds s := by
      intro hmem
      obtain ⟨d, hd, hd1⟩ := List.mem_map.mp hmem
      exact w.dDisj d hd (hd1 ▸ hjheap)
    have lruNodup : s.lru.Nodup := (List.nodup_append.mp w.listsNodup).1
    have useNodup : s.inUse.Nodup := (List.nodup_append.mp w.listsNodup).2.1
    have husage : s.usage = e.charge + listCharge s.heap (s.table.erase j) := by
      have h1 := listCharge_erase s.heap s.table j hjt
      have h2 : chargeAt s.heap j = e.charge := by simp [chargeAt, he]
      rw [w.usageEq, h1, h2]
    have hLC : ∀ hp : List (Nat × Entry),
        (∀ i ∈ s.table.erase j, chargeAt hp i = chargeAt s.heap i) →
        listCharge hp (s.table.erase j) = listCharge s.heap (s.table.erase j) :=
      fun hp hc => listCharge_congr s.heap hp (s.table.erase j) hc
    have hmemErase : ∀ i, i ∈ s.table.erase j ↔ i ≠ j ∧ i ∈ s.table :=
      fun i => w.tNodup.mem_erase_iff
    rw [shardErase_hit s k j e hf he]
    by_cases hr : e.refs - 1 = 0
    · -- the entry had no client references: it is deleted
      have hcount : s.outstanding.count j = 0 := by omega
      have hjout : j ∉ s.outstanding := List.count_eq_zero.mp hcount
      rw [if_pos hr]
      refine
        { hNodup := ?_, hBound := ?_, tNodup := ?_, tLive := ?_, tKeys := ?_,
          cacheTbl := ?_, listsTbl := ?_, listsNodup := ?_, lruRefs := ?_,
          useRefs := ?_, refsEq := ?_, outLive := ?_, refsPos := ?_,
          usageEq := ?_, dNodup := ?_, dBound := ?_, dDisj := ?_,
          allocSplit := ?_, bBound := ?_, bHeap := ?_, bDels := ?_ }
      · exact nodup_heapIds_hrem _ _ w.hNodup
      · intro p hp; exact w.hBound p (mem_of_mem_hrem _ _ _ hp)
      · exact w.tNodup.erase j
      · intro i hi
        obtain ⟨hij, hit⟩ := (hmemErase i).mp hi
        obtain ⟨ei, hei, heim⟩ := w.tLive i hit
        exact ⟨ei, by rw [hget_hrem, if_neg hij]; exact hei, heim⟩
      · intro i hi i' hi'
        obtain ⟨hij, hit⟩ := (hmemErase i).mp hi
        obtain ⟨hij', hit'⟩ := (hmemErase i').mp hi'
        rw [keyAt_hrem _ _ _ hij, keyAt_hrem _ _ _ hij']
        exact w.tKeys i hit i' hit'
      · intro p hp hpc
        obtain ⟨hph, hpj⟩ := mem_hrem _ _ _ hp
        exact (hmemErase p.1).mpr ⟨hpj, w.cacheTbl p hph hpc⟩
      · intro i
        rw [lruNodup.mem_erase_iff, useNodup.mem_erase_iff, hmemErase i,
            ← w.listsTbl i]
        tauto
      · exact ((s.lru.erase_sublist j).append (s.inUse.erase_sublist j)).nodup
          w.listsNodup
      · intro i hi ei hei
        have hij := (lruNodup.mem_erase_iff.mp hi).1
        rw [hget_hrem, if_neg hij] at hei
        exact w.lruRefs i (List.mem_of_mem_erase hi) ei hei
      · intro i hi ei hei
        have hij := (useNodup.mem_erase_iff.mp hi).1
        rw [hget_hrem, if_neg hij] at hei
        exact w.useRefs i (List.mem_of_mem_erase hi) ei hei
      · intro p hp
        obtain ⟨hph, _⟩ := mem_hrem _ _ _ hp
        exact w.refsEq p hph
      · intro i hi
        have hij : i ≠ j := fun hij => hjout (hij ▸ hi)
        exact (mem_heapIds_hrem _ _ _).mpr ⟨hij, w.outLive i hi⟩
      · intro p hp; exact w.refsPos p (mem_of_mem_hrem _ _ _ hp)
      · show s.usage - e.charge = listCharge (hrem s.heap j) (s.table.erase j)
        rw [hLC (hrem s.heap j) (fun i hi =>
          chargeAt_hrem _ _ _ ((hmemErase i).mp hi).1)]
        omega
      · show ((s.dels ++ [(j, e.key, e.value)]).map (·.1)).Nodup
        rw [List.map_append]
        refine List.nodup_append.mpr ⟨w.dNodup, by simp, ?_⟩
        intro a ha hb
        simp only [List.map_cons, List.map_nil, List.mem_singleton] at hb
        exact hjnotdels (hb ▸ ha)
      · intro d hd
        rcases List.mem_append.mp hd with hd | hd
        · exact w.dBound d hd
        · simp only [List.mem_singleton] at hd
          subst hd
          exact w.hBound (j, e) hje
      · intro d hd
        rcases List.mem_append.mp hd with hd | hd
        · intro hmem
          exact w.dDisj d hd ((mem_heapIds_hrem _ _ _).mp hmem).2
        · simp only [List.mem_singleton] at hd
          subst hd
          intro hmem
          exact ((mem_heapIds_hrem _ _ _).mp hmem).1 rfl
      · intro i hi
        rcases w.allocSplit i hi with hmem | hmem
        · by_cases hij : i = j
          · subst hij
            right
            show i ∈ (s.dels ++ [(i, e.key, e.value)]).map (·.1)
            simp
          · exact Or.inl ((mem_heapIds_hrem _ _ _).mpr ⟨hij, hmem⟩)
        · right
          show i ∈ (s.dels ++ [(j, e.key, e.value)]).map (·.1)
          rw [List.map_append]
          exact List.mem_append_left _ hmem
      · exact w.bBound
      · intro p hp; exact w.bHeap p (mem_of_mem_hrem _ _ _ hp)
      · intro d hd
        rcases List.mem_append.mp hd with hd | hd
        · exact w.bDels d hd
        · simp only [List.mem_singleton] at hd
          subst hd
          exact ⟨e.charge, w.bHeap (j, e) hje⟩
    · -- clients still hold the entry: it survives detached
      have hge2 : 2 ≤ e.refs := by omega
      rw [if_neg hr]
      set e2 : Entry := Entry.mk e.key e.value e.charge (e.refs - 1) false with he2
      refine
        { hNodup := ?_, hBound := ?_, tNodup := ?_, tLive := ?_, tKeys := ?_,
          cacheTbl := ?_, listsTbl := ?_, listsNodup := ?_, lruRefs := ?_,
          useRefs := ?_, refsEq := ?_, outLive := ?_, refsPos := ?_,
          usageEq := ?_, dNodup := ?_, dBound := ?_, dDisj := ?_,
          allocSplit := ?_, bBound := ?_, bHeap := ?_, bDels := ?_ }
      · exact nodup_heapIds_hupd _ _ _ w.hNodup
      · intro p hp
        rcases mem_hupd_cases _ _ _ _ hp with hp | hp
        · subst hp; exact w.hBound (j, e) hje
        · exact w.hBound p hp.1
      · exact w.tNodup.erase j
      · intro i hi
        obtain ⟨hij, hit⟩ := (hmemErase i).mp hi
        obtain ⟨ei, hei, heim⟩ := w.tLive i hit
        exact ⟨ei, by rw [hget_hupd, if_neg hij]; exact hei, heim⟩
      · intro i hi i' hi'
        obtain ⟨hij, hit⟩ := (hmemErase i).mp hi
        obtain ⟨hij', hit'⟩ := (hmemErase i').mp hi'
        rw [keyAt_hupd, if_neg hij, keyAt_hupd, if_neg hij']
        exact w.tKeys i hit i' hit'
      · intro p hp hpc
        rcases mem_hupd_cases _ _ _ _ hp with hp | hp
        · subst hp; simp [he2] at hpc
        · exact (hmemErase p.1).mpr ⟨hp.2, w.cacheTbl p hp.1 hpc⟩
      · intro i
        rw [lruNodup.mem_erase_iff, useNodup.mem_erase_iff, hmemErase i,
            ← w.listsTbl i]
        tauto
      · exact ((s.lru.erase_sublist j).append (s.inUse.erase_sublist j)).nodup
          w.listsNodup
      · intro i hi ei hei
        have hij := (lruNodup.mem_erase_iff.mp hi).1
        rw [hget_hupd, if_neg hij] at hei
        exact w.lruRefs i (List.mem_of_mem_erase hi) ei hei
      · intro i hi ei hei
        have hij := (useNodup.mem_erase_iff.mp hi).1
        rw [hget_hupd, if_neg hij] at hei
        exact w.useRefs i (List.mem_of_mem_erase hi) ei hei
      · intro p hp
        rcases mem_hupd_cases _ _ _ _ hp with hp | hp
        · subst hp
          show e2.refs = (if e2.inCache = true then 1 else 0) + s.outstanding.count j
          have hchk : (if e2.inCache = true then 1 else 0) = 0 := by simp [he2]
          have hr2 : e2.refs = e.refs - 1 := by simp [he2]
          rw [hchk, hr2]
          omega
        · exact w.refsEq p hp.1
      · intro i hi
        exact (mem_heapIds_hupd _ _ _ _).mpr (Or.inr (w.outLive i hi))
      · intro p hp
        rcases mem_hupd_cases _ _ _ _ hp with hp | hp
        · subst hp
          show 1 ≤ e2.refs
          have hr2 : e2.refs = e.refs - 1 := by simp [he2]
          rw [hr2]
          omega
        · exact w.refsPos p hp.1
      · show s.usage - e.charge = listCharge (hupd s.heap j e2) (s.table.erase j)
        rw [hLC (hupd s.heap j e2) (fun i hi => by
          rw [chargeAt_hupd, if_neg ((hmemErase i).mp hi).1])]
        omega
      · exact w.dNodup
      · exact w.dBound
      · intro d hd hmem
        rcases (mem_heapIds_hupd _ _ _ _).mp hmem with hm | hm
        · exact w.dDisj d hd (hm ▸ hjheap)
        · exact w.dDisj d hd hm
      · intro i hi
        rcases w.allocSplit i hi with hmem | hmem
        · exact Or.inl ((mem_heapIds_hupd _ _ _ _).mpr (Or.inr hmem))
        · exact Or.inr hmem
      · exact w.bBound
      · intro p hp
        rcases mem_hupd_cases _ _ _ _ hp with hp | hp
        · subst hp
          show bget s.born j = some (e2.key, e2.value, e2.charge)
          simpa [he2] using w.bHeap (j, e) hje
        · exact w.bHeap p hp.1
      · exact w.bDels

theorem hrem_of_not_mem (h : List (Nat × Entry)) (i : Nat)
    (hi : i ∉ heapIds h) : hrem h i = h := by
  induction h with
  | nil => simp [hrem]
  | cons p t ih =>
    simp only [heapIds, List.map_cons, List.mem_cons, not_or] at hi
    rw [hrem, if_neg (fun hc => hi.1 hc.symm), ih (by simpa [heapIds] using hi.2)]

theorem hrem_comm (h : List (Nat × Entry)) (a b : Nat) :
    hrem (hrem h a) b = hrem (hrem h b) a := by
  by_cases hab : a = b
  · subst hab; rfl
  · induction h with
    | nil => simp [hrem]
    | cons p t ih =>
      by_cases hpa : p.1 = a
      · have hpb : ¬ p.1 = b := by rw [hpa]; exact hab
        simp [hrem, hpa, hpb, ih, hab, Ne.symm hab]
      · by_cases hpb : p.1 = b
        · simp [hrem, hpa, hpb, ih, hab, Ne.symm hab]
        · simp [hrem, hpa, hpb, ih]

theorem erase_append_singleton (l : List Nat) (a i : Nat) (hne : a ≠ i) :
    (l ++ [i]).erase a = l.erase a ++ [i] := by
  by_cases hm : a ∈ l
  · rw [List.erase_append_left _ hm]
  · rw [List.erase_append_right _ hm, List.erase_of_not_mem hm]
    simp [List.erase_cons, Ne.symm hne, hne]

theorem tFind_congr (h h' : List (Nat × Entry)) (t : List Nat) (k : Key)
    (hc : ∀ j ∈ t, keyAt h' j = keyAt h j) : tFind h' t k = tFind h t k := by
  induction t with
  | nil => simp [tFind]
  | cons a t ih =>
    have ha := hc a (List.mem_cons_self _ _)
    simp only [tFind, List.find?_cons, ha]
    cases hb : (keyAt h a == some k) with
    | true => rfl
    | false => exact ih (fun j hj => hc j (List.mem_cons_of_mem _ hj))

theorem bget_append (b1 b2 : List (Nat × Key × Val × Nat)) (i : Nat) :
    bget (b1 ++ b2) i =
      match bget b1 i with
      | some r => some r
      | none => bget b2 i := by
  induction b1 with
  | nil => simp [bget]
  | cons p t ih =>
    obtain ⟨a, r⟩ := p
    by_cases hia : i = a <;> simp [bget, hia, ih]

theorem bget_none_of_bound (b : List (Nat × Key × Val × Nat)) (n i : Nat)
    (hb : ∀ p ∈ b, p.1 < n) (hi : n ≤ i) : bget b i = none := by
  induction b with
  | nil => simp [bget]
  | cons p t ih =>
    obtain ⟨a, r⟩ := p
    have ha := hb (a, r) (List.mem_cons_self _ _)
    rw [bget, if_neg (by simp at ha ⊢; omega)]
    exact ih (fun q hq => hb q (List.mem_cons_of_mem _ hq))

/-- Entries allocated by `Insert` when the capacity is positive. -/
def freshEntry (k : Key) (v : Val) (c : Nat) : Entry :=
  Entry.mk k v c 2 true

/-- Explicit form of the pre-eviction part of `Insert` at capacity 0:
the entry exists only for the caller, with a single reference, and
nothing else changes. -/
theorem insertCore_cap0 (s : Shard) (k : Key) (v : Val) (c : Nat)
    (hc : ¬ 0 < s.capacity) :
    insertCore s k v c =
      ({ s with nextId := s.nextId + 1,
                born := s.born ++ [(s.nextId, k, v, c)],
                outstanding := s.nextId :: s.outstanding,
                heap := hupd s.heap s.nextId (Entry.mk k v c 1 false) },
       s.nextId) := by
  simp [insertCore, hc]

/-- Explicit form of the pre-eviction part of `Insert` with positive
capacity when no prior entry with the same key exists. -/
theorem insertCore_miss (s : Shard) (k : Key) (v : Val) (c : Nat)
    (hc : 0 < s.capacity) (hni : ∀ j ∈ s.table, j ≠ s.nextId)
    (hf : tblFind s k = none) :
    insertCore s k v c =
      ({ s with nextId := s.nextId + 1,
                born := s.born ++ [(s.nextId, k, v, c)],
                outstanding := s.nextId :: s.outstanding,
                heap := hupd s.heap s.nextId (freshEntry k v c),
                inUse := s.inUse ++ [s.nextId],
                usage := s.usage + c,
                table := s.nextId :: s.table },
       s.nextId) := by
  have hfind1 : tFind (hupd s.heap s.nextId (freshEntry k v c)) s.table k
      = tblFind s k := by
    refine tFind_congr _ _ _ _ (fun j hj => ?_)
    rw [keyAt_hupd, if_neg (hni j hj)]
  simp only [insertCore, if_pos hc, tblInsert, tblFind]
  simp only [freshEntry] at hfind1
  simp only [hfind1]
  rw [hf]
  simp [shardFinishErase, freshEntry]

/-- Explicit form of the pre-eviction part of `Insert` with positive
capacity when a prior entry with the same key is displaced: the new
entry replaces it in the table, and the prior entry is finish-erased
(deleted when refs was 1, detached otherwise). -/
theorem insertCore_hit (s : Shard) (k : Key) (v : Val) (c : Nat) (old : Nat)
    (eo : Entry) (hc : 0 < s.capacity) (hni : ∀ j ∈ s.table, j ≠ s.nextId)
    (hf : tblFind s k = some old) (heo : hget s.heap old = some eo) :
    insertCore s k v c =
      (if eo.refs - 1 = 0 then
        { s with nextId := s.nextId + 1,
                 born := s.born ++ [(s.nextId, k, v, c)],
                 outstanding := s.nextId :: s.outstanding,
                 heap := hrem (hupd s.heap s.nextId (freshEntry k v c)) old,
                 inUse := s.inUse.erase old ++ [s.nextId],
                 lru := s.lru.erase old,
                 usage := s.usage + c - eo.charge,
                 table := s.nextId :: s.table.erase old,
                 dels := s.dels ++ [(old, eo.key, eo.value)] }
      else
        { s with nextId := s.nextId + 1,
                 born := s.born ++ [(s.nextId, k, v, c)],
                 outstanding := s.nextId :: s.outstanding,
                 heap := hupd (hupd s.heap s.nextId (freshEntry k v c)) old
                   (Entry.mk eo.key eo.value eo.charge (eo.refs - 1) false),
                 inUse := s.inUse.erase old ++ [s.nextId],
                 lru := s.lru.erase old,
                 usage := s.usage + c - eo.charge,
                 table := s.nextId :: s.table.erase old },
       s.nextId) := by
  have hoi : old ≠ s.nextId := hni old (tFind_eq_some _ _ _ _ hf).1
  have hfind1 : tFind (hupd s.heap s.nextId (freshEntry k v c)) s.table k
      = tblFind s k := by
    refine tFind_congr _ _ _ _ (fun j hj => ?_)
    rw [keyAt_hupd, if_neg (hni j hj)]
  have hgo : hget (hupd s.heap s.nextId (freshEntry k v c)) old = some eo := by
    rw [hget_hupd, if_neg hoi]; exact heo
  simp only [insertCore, if_pos hc, tblInsert, tblFind]
  simp only [freshEntry] at hfind1 hgo
  simp only [hfind1]
  rw [hf]
  simp only [shardFinishErase, listsRemove, hgo, shardUnref, hget_hupd,
    if_pos rfl]
  by_cases hr : eo.refs - 1 = 0
  · simp only [if_pos hr, hrem_hupd]
    simp [freshEntry, erase_append_singleton s.inUse old s.nextId hoi, hr]
  · have hnc : ¬ ({ eo with inCache := false }.inCache = true ∧
        { eo with inCache := false }.refs - 1 = 1) := by simp
    simp only [if_neg hr, hupd_hupd]
    simp [freshEntry, erase_append_singleton s.inUse old s.nextId hoi, hr]

theorem WF.idsLt {s : Shard} (w : WF s) : ∀ i ∈ heapIds s.heap, i < s.nextId := by
  intro i hi
  obtain ⟨p, hp, hpi⟩ := List.mem_map.mp hi
  exact hpi ▸ w.hBound p hp

theorem WF.freshHeap {s : Shard} (w : WF s) : s.nextId ∉ heapIds s.heap :=
  fun hmem => absurd (w.idsLt _ hmem) (by omega)

theorem WF.tableSubHeap {s : Shard} (w : WF s) : ∀ j ∈ s.table, j ∈ heapIds s.heap := by
  intro j hj
  obtain ⟨e, he, _⟩ := w.tLive j hj
  exact fst_mem_heapIds _ (j, e) (hget_mem _ _ _ he)

theorem WF.freshTable {s : Shard} (w : WF s) : ∀ j ∈ s.table, j ≠ s.nextId :=
  fun j hj hc => w.freshHeap (hc ▸ w.tableSubHeap j hj)

theorem WF.freshLru {s : Shard} (w : WF s) : s.nextId ∉ s.lru :=
  fun hmem => w.freshTable _ ((w.listsTbl _).mp (Or.inl hmem)) rfl

theorem WF.freshUse {s : Shard} (w : WF s) : s.nextId ∉ s.inUse :=
  fun hmem => w.freshTable _ ((w.listsTbl _).mp (Or.inr hmem)) rfl

theorem WF.freshOut {s : Shard} (w : WF s) : s.nextId ∉ s.outstanding :=
  fun hmem => w.freshHeap (w.outLive _ hmem)

theorem WF.freshDels {s : Shard} (w : WF s) : s.nextId ∉ delsIds s := by
  intro hmem
  obtain ⟨d, hd, hd1⟩ := List.mem_map.mp hmem
  have := w.dBound d hd
  omega

theorem WF.freshBorn {s : Shard} (w : WF s) : bget s.born s.nextId = none :=
  bget_none_of_bound _ _ _ w.bBound (le_refl _)

theorem WF.notDels_of_heap {s : Shard} (w : WF s) {i : Nat}
    (hi : i ∈ heapIds s.heap) : i ∉ delsIds s := by
  intro hmem
  obtain ⟨d, hd, hd1⟩ := List.mem_map.mp hmem
  exact w.dDisj d hd (hd1 ▸ hi)

/-- The allocation part of `Insert` preserves well-formedness when the
capacity is zero. -/
theorem WF_insertCore_cap0 (s : Shard) (k : Key) (v : Val) (c : Nat)
    (w : WF s) (hc : ¬ 0 < s.capacity) : WF (insertCore s k v c).1 := by
  rw [insertCore_cap0 s k v c hc]
  dsimp only
  refine
    { hNodup := ?_, hBound := ?_, tNodup := w.tNodup, tLive := ?_, tKeys := ?_,
      cacheTbl := ?_, listsTbl := w.listsTbl, listsNodup := w.listsNodup,
      lruRefs := ?_, useRefs := ?_, refsEq := ?_, outLive := ?_, refsPos := ?_,
      usageEq := ?_, dNodup := w.dNodup, dBound := ?_, dDisj := ?_,
      allocSplit := ?_, bBound := ?_, bHeap := ?_, bDels := ?_ }
  · exact nodup_heapIds_hupd _ _ _ w.hNodup
  · intro p hp
    dsimp only
    rcases mem_hupd_cases _ _ _ _ hp with hp | hp
    · subst hp; dsimp only; omega
    · have := w.hBound p hp.1; omega
  · intro j hj
    obtain ⟨e, he, hein⟩ := w.tLive j hj
    exact ⟨e, by rw [hget_hupd, if_neg (w.freshTable j hj)]; exact he, hein⟩
  · intro j hj j' hj'
    rw [keyAt_hupd, if_neg (w.freshTable j hj),
        keyAt_hupd, if_neg (w.freshTable j' hj')]
    exact w.tKeys j hj j' hj'
  · intro p hp hpc
    rcases mem_hupd_cases _ _ _ _ hp with hp | hp
    · subst hp; simp at hpc
    · exact w.cacheTbl p hp.1 hpc
  · intro j hj e he
    have hji : j ≠ s.nextId := fun hji => w.freshLru (hji ▸ hj)
    rw [hget_hupd, if_neg hji] at he
    exact w.lruRefs j hj e he
  · intro j hj e he
    have hji : j ≠ s.nextId := fun hji => w.freshUse (hji ▸ hj)
    rw [hget_hupd, if_neg hji] at he
    exact w.useRefs j hj e he
  · intro p hp
    dsimp only
    rcases mem_hupd_cases _ _ _ _ hp with hp | hp
    · subst hp
      dsimp only
      have h2 : s.outstanding.count s.nextId = 0 := List.count_eq_zero.mpr w.freshOut
      simp [List.count_cons, h2]
    · have hne : p.1 ≠ s.nextId :=
        fun hne => w.freshHeap (hne ▸ fst_mem_heapIds _ _ hp.1)
      have hcnt : (s.nextId :: s.outstanding).count p.1 = s.outstanding.count p.1 := by
        simp [List.count_cons, hne]
      rw [hcnt]
      exact w.refsEq p hp.1
  · intro j hj
    rcases List.mem_cons.mp hj with hj | hj
    · subst hj; exact (mem_heapIds_hupd _ _ _ _).mpr (Or.inl rfl)
    · exact (mem_heapIds_hupd _ _ _ _).mpr (Or.inr (w.outLive j hj))
  · intro p hp
    rcases mem_hupd_cases _ _ _ _ hp with hp | hp
    · subst hp; simp
    · exact w.refsPos p hp.1
  · show s.usage = listCharge (hupd s.heap s.nextId (Entry.mk k v c 1 false)) s.table
    rw [listCharge_congr s.heap _ s.table (fun j hj => by
      rw [chargeAt_hupd, if_neg (w.freshTable j hj)])]
    exact w.usageEq
  · intro d hd; dsimp only; have := w.dBound d hd; omega
  · intro d hd hmem
    rcases (mem_heapIds_hupd _ _ _ _).mp hmem with hm | hm
    · exact w.freshDels (hm ▸ List.mem_map_of_mem (·.1) hd)
    · exact w.dDisj d hd hm
  · intro j hj
    dsimp only at hj
    by_cases hji : j = s.nextId
    · subst hji
      exact Or.inl ((mem_heapIds_hupd _ _ _ _).mpr (Or.inl rfl))
    · have hj' : j < s.nextId := by omega
      rcases w.allocSplit j hj' with hm | hm
      · exact Or.inl ((mem_heapIds_hupd _ _ _ _).mpr (Or.inr hm))
      · exact Or.inr hm
  · intro b hb
    dsimp only
    rcases List.mem_append.mp hb with hb | hb
    · have := w.bBound b hb; omega
    · simp only [List.mem_singleton] at hb; subst hb; dsimp only; omega
  · intro p hp
    rw [bget_append]
    rcases mem_hupd_cases _ _ _ _ hp with hp | hp
    · subst hp
      rw [w.freshBorn]
      simp [bget]
    · rw [w.bHeap p hp.1]
  · intro d hd
    obtain ⟨cd, hcd⟩ := w.bDels d hd
    exact ⟨cd, by rw [bget_append, hcd]⟩

/-- The allocation part of `Insert` preserves well-formedness when no
prior entry with the same key exists. -/
theorem WF_insertCore_miss (s : Shard) (k : Key) (v : Val) (c : Nat)
    (w : WF s) (hc : 0 < s.capacity) (hf : tblFind s k = none) :
    WF (insertCore s k v c).1 := by
  rw [insertCore_miss s k v c hc w.freshTable hf]
  dsimp only
  have hkmiss := tFind_eq_none _ _ k hf
  refine
    { hNodup := ?_, hBound := ?_, tNodup := ?_, tLive := ?_, tKeys := ?_,
      cacheTbl := ?_, listsTbl := ?_, listsNodup := ?_,
      lruRefs := ?_, useRefs := ?_, refsEq := ?_, outLive := ?_, refsPos := ?_,
      usageEq := ?_, dNodup := w.dNodup, dBound := ?_, dDisj := ?_,
      allocSplit := ?_, bBound := ?_, bHeap := ?_, bDels := ?_ }
  · exact nodup_heapIds_hupd _ _ _ w.hNodup
  · intro p hp
    dsimp only
    rcases mem_hupd_cases _ _ _ _ hp with hp | hp
    · subst hp; dsimp only; omega
    · have := w.hBound p hp.1; omega
  · exact List.Nodup.cons (fun hmem => w.freshTable _ hmem rfl) w.tNodup
  · intro j hj
    rcases List.mem_cons.mp hj with hj | hj
    · subst hj
      exact ⟨freshEntry k v c, by rw [hget_hupd, if_pos rfl], rfl⟩
    · obtain ⟨e, he, hein⟩ := w.tLive j hj
      exact ⟨e, by rw [hget_hupd, if_neg (w.freshTable j hj)]; exact he, hein⟩
  · intro j hj j' hj'
    rcases List.mem_cons.mp hj with hj | hj <;>
      rcases List.mem_cons.mp hj' with hj' | hj'
    · intro _; rw [hj, hj']
    · subst hj
      rw [keyAt_hupd, if_pos rfl, keyAt_hupd, if_neg (w.freshTable j' hj')]
      intro hkk
      exact absurd (by simpa [freshEntry] using hkk.symm) (hkmiss j' hj')
    · subst hj'
      rw [keyAt_hupd, if_neg (w.freshTable j hj), keyAt_hupd, if_pos rfl]
      intro hkk
      exact absurd (by simpa [freshEntry] using hkk) (hkmiss j hj)
    · rw [keyAt_hupd, if_neg (w.freshTable j hj),
          keyAt_hupd, if_neg (w.freshTable j' hj')]
      exact w.tKeys j hj j' hj'
  · intro p hp _
    rcases mem_hupd_cases _ _ _ _ hp with hp | hp
    · subst hp; exact List.mem_cons_self _ _
    · exact List.mem_cons_of_mem _ (w.cacheTbl p hp.1 (by
        rcases hp with ⟨hp1, _⟩
        · exact (by assumption)))
  · intro j
    dsimp only
    by_cases hji : j = s.nextId
    · subst hji
      simp
    · rw [List.mem_cons]
      constructor
      · rintro (hj | hj)
        · exact Or.inr ((w.listsTbl j).mp (Or.inl hj))
        · rcases List.mem_append.mp hj with hj | hj
          · exact Or.inr ((w.listsTbl j).mp (Or.inr hj))
          · simp at hj; exact absurd hj hji
      · rintro (hj | hj)
        · exact absurd hj hji
        · rcases (w.listsTbl j).mpr hj with hm | hm
          · exact Or.inl hm
          · exact Or.inr (List.mem_append_left _ hm)
  · have hperm : ((s.lru ++ s.inUse) ++ [s.nextId]).Perm
        (s.nextId :: (s.lru ++ s.inUse)) := List.perm_append_singleton _ _
    have hnodup : (s.nextId :: (s.lru ++ s.inUse)).Nodup := by
      refine List.Nodup.cons (fun hmem => ?_) w.listsNodup
      rcases List.mem_append.mp hmem with hm | hm
      · exact w.freshLru hm
      · exact w.freshUse hm
    have := hperm.symm.nodup hnodup
    simpa [List.append_assoc] using this
  · intro j hj e he
    have hji : j ≠ s.nextId := fun hji => w.freshLru (hji ▸ hj)
    rw [hget_hupd, if_neg hji] at he
    exact w.lruRefs j hj e he
  · intro j hj e he
    rcases List.mem_append.mp hj with hj | hj
    · have hji : j ≠ s.nextId := fun hji => w.freshUse (hji ▸ hj)
      rw [hget_hupd, if_neg hji] at he
      exact w.useRefs j hj e he
    · simp only [List.mem_singleton] at hj
      subst hj
      rw [hget_hupd, if_pos rfl] at he
      cases Option.some.inj he
      simp [freshEntry]
  · intro p hp
    dsimp only
    rcases mem_hupd_cases _ _ _ _ hp with hp | hp
    · subst hp
      dsimp only
      have h2 : s.outstanding.count s.nextId = 0 := List.count_eq_zero.mpr w.freshOut
      simp [freshEntry, List.count_cons, h2]
    · have hne : p.1 ≠ s.nextId :=
        fun hne => w.freshHeap (hne ▸ fst_mem_heapIds _ _ hp.1)
      have hcnt : (s.nextId :: s.outstanding).count p.1 = s.outstanding.count p.1 := by
        simp [List.count_cons, hne]
      rw [hcnt]
      exact w.refsEq p hp.1
  · intro j hj
    rcases List.mem_cons.mp hj with hj | hj
    · subst hj; exact (mem_heapIds_hupd _ _ _ _).mpr (Or.inl rfl)
    · exact (mem_heapIds_hupd _ _ _ _).mpr (Or.inr (w.outLive j hj))
  · intro p hp
    rcases mem_hupd_cases _ _ _ _ hp with hp | hp
    · subst hp; simp [freshEntry]
    · exact w.refsPos p hp.1
  · show s.usage + c =
      listCharge (hupd s.heap s.nextId (freshEntry k v c)) (s.nextId :: s.table)
    rw [listCharge_cons, chargeAt_hupd, if_pos rfl,
        listCharge_congr s.heap _ s.table (fun j hj => by
          rw [chargeAt_hupd, if_neg (w.freshTable j hj)]), ← w.usageEq]
    simp [freshEntry]
    omega
  · intro d hd; dsimp only; have := w.dBound d hd; omega
  · intro d hd hmem
    rcases (mem_heapIds_hupd _ _ _ _).mp hmem with hm | hm
    · exact w.freshDels (hm ▸ List.mem_map_of_mem (·.1) hd)
    · exact w.dDisj d hd hm
  · intro j hj
    dsimp only at hj
    by_cases hji : j = s.nextId
    · subst hji
      exact Or.inl ((mem_heapIds_hupd _ _ _ _).mpr (Or.inl rfl))
    · have hj' : j < s.nextId := by omega
      rcases w.allocSplit j hj' with hm | hm
      · exact Or.inl ((mem_heapIds_hupd _ _ _ _).mpr (Or.inr hm))
      · exact Or.inr hm
  · intro b hb
    dsimp only
    rcases List.mem_append.mp hb with hb | hb
    · have := w.bBound b hb; omega
    · simp only [List.mem_singleton] at hb; subst hb; dsimp only; omega
  · intro p hp
    rw [bget_append]
    rcases mem_hupd_cases _ _ _ _ hp with hp | hp
    · subst hp
      rw [w.freshBorn]
      simp [bget, freshEntry]
    · rw [w.bHeap p hp.1]
  · intro d hd
    obtain ⟨cd, hcd⟩ := w.bDels d hd
    exact ⟨cd, by rw [bget_append, hcd]⟩

/-- The allocation part of `Insert` preserves well-formedness when a
prior entry with the same key is displaced. -/
theorem WF_insertCore_hit (s : Shard) (k : Key) (v : Val) (c : Nat) (old : Nat)
    (w : WF s) (hc : 0 < s.capacity) (hf : tblFind s k = some old) :
    WF (insertCore s k v c).1 := by
  obtain ⟨eo, heo, hin, hek, hot⟩ := w.find_entry hf
  have hoe : (old, eo) ∈ s.heap := hget_mem _ _ _ heo
  have holt : old < s.nextId := w.hBound (old, eo) hoe
  have hoi : old ≠ s.nextId := by omega
  have hrefs : eo.refs = 1 + s.outstanding.count old := by
    have := w.refsEq (old, eo) hoe
    simpa [hin] using this
  have hoheap : old ∈ heapIds s.heap := fst_mem_heapIds _ _ hoe
  have lruNodup : s.lru.Nodup := (List.nodup_append.mp w.listsNodup).1
  have useNodup : s.inUse.Nodup := (List.nodup_append.mp w.listsNodup).2.1
  have husage : s.usage = eo.charge + listCharge s.heap (s.table.erase old) := by
    have h1 := listCharge_erase s.heap s.table old hot
    have h2 : chargeAt s.heap old = eo.charge := by simp [chargeAt, heo]
    rw [w.usageEq, h1, h2]
  have hmemErase : ∀ i, i ∈ s.table.erase old ↔ i ≠ old ∧ i ∈ s.table :=
    fun i => w.tNodup.mem_erase_iff
  have hfreshL : s.nextId ∉ s.lru.erase old :=
    fun hmem => w.freshLru (List.mem_of_mem_erase hmem)
  have hfreshU : s.nextId ∉ s.inUse.erase old :=
    fun hmem => w.freshUse (List.mem_of_mem_erase hmem)
  rw [insertCore_hit s k v c old eo hc w.freshTable hf heo]
  by_cases hr : eo.refs - 1 = 0
  · -- the displaced entry had no client references and is deleted
    have hcnt0 : s.outstanding.count old = 0 := by omega
    have hoout : old ∉ s.outstanding := List.count_eq_zero.mp hcnt0
    rw [if_pos hr]
    have hgetF : ∀ x, hget (hrem (hupd s.heap s.nextId (freshEntry k v c)) old) x =
        if x = old then none
        else if x = s.nextId then some (freshEntry k v c) else hget s.heap x := by
      intro x
      rw [hget_hrem, hget_hupd]
    have hmemF : ∀ p, p ∈ hrem (hupd s.heap s.nextId (freshEntry k v c)) old →
        (p = (s.nextId, freshEntry k v c) ∨ (p ∈ s.heap ∧ p.1 ≠ s.nextId)) ∧
          p.1 ≠ old := by
      intro p hp
      obtain ⟨hp1, hp2⟩ := mem_hrem _ _ _ hp
      exact ⟨mem_hupd_cases _ _ _ _ hp1, hp2⟩
    refine
      { hNodup := ?_, hBound := ?_, tNodup := ?_, tLive := ?_, tKeys := ?_,
        cacheTbl := ?_, listsTbl := ?_, listsNodup := ?_,
        lruRefs := ?_, useRefs := ?_, refsEq := ?_, outLive := ?_, refsPos := ?_,
        usageEq := ?_, dNodup := ?_, dBound := ?_, dDisj := ?_,
        allocSplit := ?_, bBound := ?_, bHeap := ?_, bDels := ?_ }
    · exact nodup_heapIds_hrem _ _ (nodup_heapIds_hupd _ _ _ w.hNodup)
    · intro p hp
      dsimp only
      obtain ⟨hp1, _⟩ := hmemF p hp
      rcases hp1 with hp1 | hp1
      · subst hp1; dsimp only; omega
      · have := w.hBound p hp1.1; omega
    · refine List.Nodup.cons ?_ (w.tNodup.erase old)
      intro hmem
      exact w.freshTable _ (List.mem_of_mem_erase hmem) rfl
    · intro j hj
      rcases List.mem_cons.mp hj with hj | hj
      · subst hj
        exact ⟨freshEntry k v c, by rw [hgetF, if_neg (Ne.symm hoi), if_pos rfl], rfl⟩
      · obtain ⟨hjo, hjt⟩ := (hmemErase j).mp hj
        obtain ⟨e, he, hein⟩ := w.tLive j hjt
        exact ⟨e, by
          rw [hgetF, if_neg hjo, if_neg (w.freshTable j hjt)]; exact he, hein⟩
    · intro j hj j' hj'
      have hkey : ∀ x, x ∈ s.table.erase old →
          keyAt (hrem (hupd s.heap s.nextId (freshEntry k v c)) old) x =
            keyAt s.heap x := by
        intro x hx
        obtain ⟨hxo, hxt⟩ := (hmemErase x).mp hx
        unfold keyAt
        rw [hgetF, if_neg hxo, if_neg (w.freshTable x hxt)]
      have hkeyN : keyAt (hrem (hupd s.heap s.nextId (freshEntry k v c)) old)
          s.nextId = some k := by
        unfold keyAt
        rw [hgetF, if_neg (Ne.symm hoi), if_pos rfl]
        simp [freshEntry]
      rcases List.mem_cons.mp hj with hj | hj <;>
        rcases List.mem_cons.mp hj' with hj' | hj'
      · intro _; rw [hj, hj']
      · subst hj
        rw [hkeyN, hkey j' hj']
        intro hkk
        obtain ⟨hjo', hjt'⟩ := (hmemErase j').mp hj'
        have hko : keyAt s.heap old = some k := by simp [keyAt, heo, hek]
        exact absurd (w.tKeys j' hjt' old hot (by rw [hkk.symm, hko])) hjo'
      · subst hj'
        rw [hkeyN, hkey j hj]
        intro hkk
        obtain ⟨hjo, hjt⟩ := (hmemErase j).mp hj
        have hko : keyAt s.heap old = some k := by simp [keyAt, heo, hek]
        exact absurd (w.tKeys j hjt old hot (by rw [hkk, hko])) hjo
      · rw [hkey j hj, hkey j' hj']
        obtain ⟨_, hjt⟩ := (hmemErase j).mp hj
        obtain ⟨_, hjt'⟩ := (hmemErase j').mp hj'
        exact w.tKeys j hjt j' hjt'
    · intro p hp hpc
      obtain ⟨hp1, hpo⟩ := hmemF p hp
      rcases hp1 with hp1 | hp1
      · subst hp1; exact List.mem_cons_self _ _
      · exact List.mem_cons_of_mem _
          ((hmemErase p.1).mpr ⟨hpo, w.cacheTbl p hp1.1 hpc⟩)
    · intro j
      dsimp only
      by_cases hji : j = s.nextId
      · subst hji
        simp
      · by_cases hjo : j = old
        · subst hjo
          have hL : j ∉ s.lru.erase j := lruNodup.not_mem_erase
          have hU : j ∉ s.inUse.erase j := useNodup.not_mem_erase
          have hT : j ∉ s.table.erase j := w.tNodup.not_mem_erase
          rw [List.mem_cons]
          constructor
          · rintro (hm | hm)
            · exact absurd hm hL
            · rcases List.mem_append.mp hm with hm | hm
              · exact absurd hm hU
              · simp at hm; exact absurd hm hji
          · rintro (hm | hm)
            · exact absurd hm hji
            · exact absurd hm hT
        · rw [List.mem_cons]
          constructor
          · rintro (hm | hm)
            · exact Or.inr ((hmemErase j).mpr
                ⟨hjo, (w.listsTbl j).mp (Or.inl (List.mem_of_mem_erase hm))⟩)
            · rcases List.mem_append.mp hm with hm | hm
              · exact Or.inr ((hmemErase j).mpr
                  ⟨hjo, (w.listsTbl j).mp (Or.inr (List.mem_of_mem_erase hm))⟩)
              · simp at hm; exact absurd hm hji
          · rintro (hm | hm)
            · exact absurd hm hji
            · obtain ⟨hmo, hmt⟩ := (hmemErase j).mp hm
              rcases (w.listsTbl j).mpr hmt with hmm | hmm
              · exact Or.inl (lruNodup.mem_erase_iff.mpr ⟨hjo, hmm⟩)
              · exact Or.inr (List.mem_append_left _
                  (useNodup.mem_erase_iff.mpr ⟨hjo, hmm⟩))
    · have hsub : (s.lru.erase old ++ s.inUse.erase old).Sublist (s.lru ++ s.inUse) :=
        (s.lru.erase_sublist old).append (s.inUse.erase_sublist old)
      have hn : (s.lru.erase old ++ s.inUse.erase old).Nodup := hsub.nodup w.listsNodup
      have hnotin : s.nextId ∉ s.lru.erase old ++ s.inUse.erase old := by
        intro hmem
        rcases List.mem_append.mp hmem with hm | hm
        · exact hfreshL hm
        · exact hfreshU hm
      have hperm : ((s.lru.erase old ++ s.inUse.erase old) ++ [s.nextId]).Perm
          (s.nextId :: (s.lru.erase old ++ s.inUse.erase old)) :=
        List.perm_append_singleton _ _
      have := hperm.symm.nodup (List.Nodup.cons hnotin hn)
      simpa [List.append_assoc] using this
    · intro j hj e he
      have hjo := (lruNodup.mem_erase_iff.mp hj).1
      have hjl := List.mem_of_mem_erase hj
      have hji : j ≠ s.nextId := fun hji => w.freshLru (hji ▸ hjl)
      rw [hgetF, if_neg hjo, if_neg hji] at he
      exact w.lruRefs j hjl e he
    · intro j hj e he
      rcases List.mem_append.mp hj with hj | hj
      · have hjo := (useNodup.mem_erase_iff.mp hj).1
        have hjl := List.mem_of_mem_erase hj
        have hji : j ≠ s.nextId := fun hji => w.freshUse (hji ▸ hjl)
        rw [hgetF, if_neg hjo, if_neg hji] at he
        exact w.useRefs j hjl e he
      · simp only [List.mem_singleton] at hj
        subst hj
        rw [hgetF, if_neg (Ne.symm hoi), if_pos rfl] at he
        cases Option.some.inj he
        simp [freshEntry]
    · intro p hp
      dsimp only
      obtain ⟨hp1, hpo⟩ := hmemF p hp
      rcases hp1 with hp1 | hp1
      · subst hp1
        dsimp only
        have h2 : s.outstanding.count s.nextId = 0 := List.count_eq_zero.mpr w.freshOut
        simp [freshEntry, List.count_cons, h2]
      · have hne : p.1 ≠ s.nextId :=
          fun hne => w.freshHeap (hne ▸ fst_mem_heapIds _ _ hp1.1)
        have hcnt : (s.nextId :: s.outstanding).count p.1 = s.outstanding.count p.1 := by
          simp [List.count_cons, hne]
        rw [hcnt]
        exact w.refsEq p hp1.1
    · intro j hj
      rcases List.mem_cons.mp hj with hj | hj
      · subst hj
        rw [mem_heapIds, hgetF, if_neg (Ne.symm hoi), if_pos rfl]
        simp
      · have hjo : j ≠ old := fun hjo => hoout (hjo ▸ hj)
        have hjh := w.outLive j hj
        have hji : j ≠ s.nextId := fun hji => w.freshHeap (hji ▸ hjh)
        rw [mem_heapIds, hgetF, if_neg hjo, if_neg hji]
        exact (mem_heapIds _ _).mp hjh
    · intro p hp
      obtain ⟨hp1, _⟩ := hmemF p hp
      rcases hp1 with hp1 | hp1
      · subst hp1; simp [freshEntry]
      · exact w.refsPos p hp1.1
    · show s.usage + c - eo.charge =
        listCharge (hrem (hupd s.heap s.nextId (freshEntry k v c)) old)
          (s.nextId :: s.table.erase old)
      rw [listCharge_cons]
      have hcN : chargeAt (hrem (hupd s.heap s.nextId (freshEntry k v c)) old)
          s.nextId = c := by
        unfold chargeAt
        rw [hgetF, if_neg (Ne.symm hoi), if_pos rfl]
        simp [freshEntry]
      rw [hcN, listCharge_congr s.heap _ (s.table.erase old) (fun x hx => by
        obtain ⟨hxo, hxt⟩ := (hmemErase x).mp hx
        unfold chargeAt
        rw [hgetF, if_neg hxo, if_neg (w.freshTable x hxt)])]
      omega
    · show ((s.dels ++ [(old, eo.key, eo.value)]).map (·.1)).Nodup
      rw [List.map_append]
      refine List.nodup_append.mpr ⟨w.dNodup, by simp, ?_⟩
      intro a ha hb
      simp only [List.map_cons, List.map_nil, List.mem_singleton] at hb
      exact w.notDels_of_heap hoheap (hb ▸ ha)
    · intro d hd
      dsimp only
      rcases List.mem_append.mp hd with hd | hd
      · have := w.dBound d hd; omega
      · simp only [List.mem_singleton] at hd; subst hd; dsimp only; omega
    · intro d hd hmem
      rcases List.mem_append.mp hd with hd | hd
      · have hdh := w.dDisj d hd
        rcases (mem_heapIds_hrem _ _ _).mp hmem with ⟨_, hm⟩
        rcases (mem_heapIds_hupd _ _ _ _).mp hm with hm | hm
        · exact w.freshDels (hm ▸ List.mem_map_of_mem (·.1) hd)
        · exact hdh hm
      · simp only [List.mem_singleton] at hd
        subst hd
        exact ((mem_heapIds_hrem _ _ _).mp hmem).1 rfl
    · intro j hj
      dsimp only at hj
      by_cases hji : j = s.nextId
      · subst hji
        refine Or.inl ?_
        rw [mem_heapIds, hgetF, if_neg (Ne.symm hoi), if_pos rfl]
        simp
      · have hj' : j < s.nextId := by omega
        by_cases hjo : j = old
        · subst hjo
          refine Or.inr ?_
          show j ∈ (s.dels ++ [(j, eo.key, eo.value)]).map (·.1)
          simp
        · rcases w.allocSplit j hj' with hm | hm
          · refine Or.inl ?_
            rw [mem_heapIds, hgetF, if_neg hjo, if_neg hji]
            exact (mem_heapIds _ _).mp hm
          · refine Or.inr ?_
            show j ∈ (s.dels ++ [(old, eo.key, eo.value)]).map (·.1)
            rw [List.map_append]
            exact List.mem_append_left _ hm
    · intro b hb
      dsimp only
      rcases List.mem_append.mp hb with hb | hb
      · have := w.bBound b hb; omega
      · simp only [List.mem_singleton] at hb; subst hb; dsimp only; omega
    · intro p hp
      rw [bget_append]
      obtain ⟨hp1, _⟩ := hmemF p hp
      rcases hp1 with hp1 | hp1
      · subst hp1
        rw [w.freshBorn]
        simp [bget, freshEntry]
      · rw [w.bHeap p hp1.1]
    · intro d hd
      rcases List.mem_append.mp hd with hd | hd
      · obtain ⟨cd, hcd⟩ := w.bDels d hd
        exact ⟨cd, by rw [bget_append, hcd]⟩
      · simp only [List.mem_singleton] at hd
        subst hd
        exact ⟨eo.charge, by rw [bget_append, w.bHeap (old, eo) hoe]⟩
  · -- clients still hold the displaced entry: it survives detached
    have hge2 : 2 ≤ eo.refs := by omega
    rw [if_neg hr]
    set eo2 : Entry := Entry.mk eo.key eo.value eo.charge (eo.refs - 1) false
      with heo2
    have hgetF : ∀ x, hget (hupd (hupd s.heap s.nextId (freshEntry k v c)) old eo2) x =
        if x = old then some eo2
        else if x = s.nextId then some (freshEntry k v c) else hget s.heap x := by
      intro x
      rw [hget_hupd, hget_hupd]
    have hmemF : ∀ p, p ∈ hupd (hupd s.heap s.nextId (freshEntry k v c)) old eo2 →
        p = (old, eo2) ∨
        ((p = (s.nextId, freshEntry k v c) ∨ (p ∈ s.heap ∧ p.1 ≠ s.nextId)) ∧
          p.1 ≠ old) := by
      intro p hp
      rcases mem_hupd_cases _ _ _ _ hp with hp | hp
      · exact Or.inl hp
      · exact Or.inr ⟨mem_hupd_cases _ _ _ _ hp.1, hp.2⟩
    refine
      { hNodup := ?_, hBound := ?_, tNodup := ?_, tLive := ?_, tKeys := ?_,
        cacheTbl := ?_, listsTbl := ?_, listsNodup := ?_,
        lruRefs := ?_, useRefs := ?_, refsEq := ?_, outLive := ?_, refsPos := ?_,
        usageEq := ?_, dNodup := w.dNodup, dBound := ?_, dDisj := ?_,
        allocSplit := ?_, bBound := ?_, bHeap := ?_, bDels := ?_ }
    · exact nodup_heapIds_hupd _ _ _ (nodup_heapIds_hupd _ _ _ w.hNodup)
    · intro p hp
      dsimp only
      rcases hmemF p hp with hp1 | ⟨hp1, _⟩
      · subst hp1; dsimp only; omega
      · rcases hp1 with hp1 | hp1
        · subst hp1; dsimp only; omega
        · have := w.hBound p hp1.1; omega
    · refine List.Nodup.cons ?_ (w.tNodup.erase old)
      intro hmem
      exact w.freshTable _ (List.mem_of_mem_erase hmem) rfl
    · intro j hj
      rcases List.mem_cons.mp hj with hj | hj
      · subst hj
        exact ⟨freshEntry k v c, by rw [hgetF, if_neg (Ne.symm hoi), if_pos rfl], rfl⟩
      · obtain ⟨hjo, hjt⟩ := (hmemErase j).mp hj
        obtain ⟨e, he, hein⟩ := w.tLive j hjt
        exact ⟨e, by
          rw [hgetF, if_neg hjo, if_neg (w.freshTable j hjt)]; exact he, hein⟩
    · intro j hj j' hj'
      have hkey : ∀ x, x ∈ s.table.erase old →
          keyAt (hupd (hupd s.heap s.nextId (freshEntry k v c)) old eo2) x =
            keyAt s.heap x := by
        intro x hx
        obtain ⟨hxo, hxt⟩ := (hmemErase x).mp hx
        unfold keyAt
        rw [hgetF, if_neg hxo, if_neg (w.freshTable x hxt)]
      have hkeyN : keyAt (hupd (hupd s.heap s.nextId (freshEntry k v c)) old eo2)
          s.nextId = some k := by
        unfold keyAt
        rw [hgetF, if_neg (Ne.symm hoi), if_pos rfl]
        simp [freshEntry]
      rcases List.mem_cons.mp hj with hj | hj <;>
        rcases List.mem_cons.mp hj' with hj' | hj'
      · intro _; rw [hj, hj']
      · subst hj
        rw [hkeyN, hkey j' hj']
        intro hkk
        obtain ⟨hjo', hjt'⟩ := (hmemErase j').mp hj'
        have hko : keyAt s.heap old = some k := by simp [keyAt, heo, hek]
        exact absurd (w.tKeys j' hjt' old hot (by rw [hkk.symm, hko])) hjo'
      · subst hj'
        rw [hkeyN, hkey j hj]
        intro hkk
        obtain ⟨hjo, hjt⟩ := (hmemErase j).mp hj
        have hko : keyAt s.heap old = some k := by simp [keyAt, heo, hek]
        exact absurd (w.tKeys j hjt old hot (by rw [hkk, hko])) hjo
      · rw [hkey j hj, hkey j' hj']
        obtain ⟨_, hjt⟩ := (hmemErase j).mp hj
        obtain ⟨_, hjt'⟩ := (hmemErase j').mp hj'
        exact w.tKeys j hjt j' hjt'
    · intro p hp hpc
      rcases hmemF p hp with hp1 | ⟨hp1, hpo⟩
      · subst hp1; simp [heo2] at hpc
      · rcases hp1 with hp1 | hp1
        · subst hp1; exact List.mem_cons_self _ _
        · exact List.mem_cons_of_mem _
            ((hmemErase p.1).mpr ⟨hpo, w.cacheTbl p hp1.1 hpc⟩)
    · intro j
      dsimp only
      by_cases hji : j = s.nextId
      · subst hji
        simp
      · by_cases hjo : j = old
        · subst hjo
          have hL : j ∉ s.lru.erase j := lruNodup.not_mem_erase
          have hU : j ∉ s.inUse.erase j := useNodup.not_mem_erase
          have hT : j ∉ s.table.erase j := w.tNodup.not_mem_erase
          rw [List.mem_cons]
          constructor
          · rintro (hm | hm)
            · exact absurd hm hL
            · rcases List.mem_append.mp hm with hm | hm
              · exact absurd hm hU
              · simp at hm; exact absurd hm hji
          · rintro (hm | hm)
            · exact absurd hm hji
            · exact absurd hm hT
        · rw [List.mem_cons]
          constructor
          · rintro (hm | hm)
            · exact Or.inr ((hmemErase j).mpr
                ⟨hjo, (w.listsTbl j).mp (Or.inl (List.mem_of_mem_erase hm))⟩)
            · rcases List.mem_append.mp hm with hm | hm
              · exact Or.inr ((hmemErase j).mpr
                  ⟨hjo, (w.listsTbl j).mp (Or.inr (List.mem_of_mem_erase hm))⟩)
              · simp at hm; exact absurd hm hji
          · rintro (hm | hm)
            · exact absurd hm hji
            · obtain ⟨hmo, hmt⟩ := (hmemErase j).mp hm
              rcases (w.listsTbl j).mpr hmt with hmm | hmm
              · exact Or.inl (lruNodup.mem_erase_iff.mpr ⟨hjo, hmm⟩)
              · exact Or.inr (List.mem_append_left _
                  (useNodup.mem_erase_iff.mpr ⟨hjo, hmm⟩))
    · have hsub : (s.lru.erase old ++ s.inUse.erase old).Sublist (s.lru ++ s.inUse) :=
        (s.lru.erase_sublist old).append (s.inUse.erase_sublist old)
      have hn : (s.lru.erase old ++ s.inUse.erase old).Nodup := hsub.nodup w.listsNodup
      have hnotin : s.nextId ∉ s.lru.erase old ++ s.inUse.erase old := by
        intro hmem
        rcases List.mem_append.mp hmem with hm | hm
        · exact hfreshL hm
        · exact hfreshU hm
      have hperm : ((s.lru.erase old ++ s.inUse.erase old) ++ [s.nextId]).Perm
          (s.nextId :: (s.lru.erase old ++ s.inUse.erase old)) :=
        List.perm_append_singleton _ _
      have := hperm.symm.nodup (List.Nodup.cons hnotin hn)
      simpa [List.append_assoc] using this
    · intro j hj e he
      have hjo := (lruNodup.mem_erase_iff.mp hj).1
      have hjl := List.mem_of_mem_erase hj
      have hji : j ≠ s.nextId := fun hji => w.freshLru (hji ▸ hjl)
      rw [hgetF, if_neg hjo, if_neg hji] at he
      exact w.lruRefs j hjl e he
    · intro j hj e he
      rcases List.mem_append.mp hj with hj | hj
      · have hjo := (useNodup.mem_erase_iff.mp hj).1
        have hjl := List.mem_of_mem_erase hj
        have hji : j ≠ s.nextId := fun hji => w.freshUse (hji ▸ hjl)
        rw [hgetF, if_neg hjo, if_neg hji] at he
        exact w.useRefs j hjl e he
      · simp only [List.mem_singleton] at hj
        subst hj
        rw [hgetF, if_neg (Ne.symm hoi), if_pos rfl] at he
        cases Option.some.inj he
        simp [freshEntry]
    · intro p hp
      dsimp only
      rcases hmemF p hp with hp1 | ⟨hp1, hpo⟩
      · subst hp1
        dsimp only
        have hcnt : (s.nextId :: s.outstanding).count old = s.outstanding.count old := by
          simp [List.count_cons, Ne.symm hoi, hoi]
        rw [hcnt]
        have hic : (if eo2.inCache = true then 1 else 0) = 0 := by simp [heo2]
        rw [hic]
        have hr2 : eo2.refs = eo.refs - 1 := rfl
        omega
      · rcases hp1 with hp1 | hp1
        · subst hp1
          dsimp only
          have h2 : s.outstanding.count s.nextId = 0 := List.count_eq_zero.mpr w.freshOut
          simp [freshEntry, List.count_cons, h2]
        · have hne : p.1 ≠ s.nextId :=
            fun hne => w.freshHeap (hne ▸ fst_mem_heapIds _ _ hp1.1)
          have hcnt : (s.nextId :: s.outstanding).count p.1 = s.outstanding.count p.1 := by
            simp [List.count_cons, hne]
          rw [hcnt]
          exact w.refsEq p hp1.1
    · intro j hj
      rcases List.mem_cons.mp hj with hj | hj
      · subst hj
        rw [mem_heapIds, hgetF, if_neg (Ne.symm hoi), if_pos rfl]
        simp
      · have hjh := w.outLive j hj
        have hji : j ≠ s.nextId := fun hji => w.freshHeap (hji ▸ hjh)
        rw [mem_heapIds, hgetF]
        by_cases hjo : j = old
        · rw [if_pos hjo]; simp
        · rw [if_neg hjo, if_neg hji]
          exact (mem_heapIds _ _).mp hjh
    · intro p hp
      rcases hmemF p hp with hp1 | ⟨hp1, _⟩
      · subst hp1
        show 1 ≤ eo2.refs
        have hr2 : eo2.refs = eo.refs - 1 := by simp [heo2]
        omega
      · rcases hp1 with hp1 | hp1
        · subst hp1; simp [freshEntry]
        · exact w.refsPos p hp1.1
    · show s.usage + c - eo.charge =
        listCharge (hupd (hupd s.heap s.nextId (freshEntry k v c)) old eo2)
          (s.nextId :: s.table.erase old)
      rw [listCharge_cons]
      have hcN : chargeAt (hupd (hupd s.heap s.nextId (freshEntry k v c)) old eo2)
          s.nextId = c := by
        unfold chargeAt
        rw [hgetF, if_neg (Ne.symm hoi), if_pos rfl]
        simp [freshEntry]
      rw [hcN, listCharge_congr s.heap _ (s.table.erase old) (fun x hx => by
        obtain ⟨hxo, hxt⟩ := (hmemErase x).mp hx
        unfold chargeAt
        rw [hgetF, if_neg hxo, if_neg (w.freshTable x hxt)])]
      omega
    · intro d hd; dsimp only; have := w.dBound d hd; omega
    · intro d hd hmem
      have hdh := w.dDisj d hd
      have hdo : d.1 ≠ old := fun hdo => hdh (hdo ▸ hoheap)
      rcases (mem_heapIds_hupd _ _ _ _).mp hmem with hm | hm
      · exact hdo hm
      · rcases (mem_heapIds_hupd _ _ _ _).mp hm with hm | hm
        · exact w.freshDels (hm ▸ List.mem_map_of_mem (·.1) hd)
        · exact hdh hm
    · intro j hj
      dsimp only at hj
      by_cases hji : j = s.nextId
      · subst hji
        refine Or.inl ?_
        rw [mem_heapIds, hgetF, if_neg (Ne.symm hoi), if_pos rfl]
        simp
      · have hj' : j < s.nextId := by omega
        by_cases hjo : j = old
        · subst hjo
          refine Or.inl ?_
          rw [mem_heapIds, hgetF, if_pos rfl]
          simp
        · rcases w.allocSplit j hj' with hm | hm
          · refine Or.inl ?_
            rw [mem_heapIds, hgetF, if_neg hjo, if_neg hji]
            exact (mem_heapIds _ _).mp hm
          · exact Or.inr hm
    · intro b hb
      dsimp only
      rcases List.mem_append.mp hb with hb | hb
      · have := w.bBound b hb; omega
      · simp only [List.mem_singleton] at hb; subst hb; dsimp only; omega
    · intro p hp
      rw [bget_append]
      rcases hmemF p hp with hp1 | ⟨hp1, _⟩
      · subst hp1
        show (match bget s.born old with
          | some r => some r
          | none => bget [(s.nextId, k, v, c)] old) = some (eo2.key, eo2.value, eo2.charge)
        rw [w.bHeap (old, eo) hoe]
      · rcases hp1 with hp1 | hp1
        · subst hp1
          rw [w.freshBorn]
          simp [bget, freshEntry]
        · rw [w.bHeap p hp1.1]
    · intro d hd
      obtain ⟨cd, hcd⟩ := w.bDels d hd
      exact ⟨cd, by rw [bget_append, hcd]⟩

/-- The allocation part of `Insert` preserves well-formedness. -/
theorem WF_insertCore (s : Shard) (k : Key) (v : Val) (c : Nat) (w : WF s) :
    WF (insertCore s k v c).1 := by
  by_cases hc : 0 < s.capacity
  · cases hf : tblFind s k with
    | none => exact WF_insertCore_miss s k v c w hc hf
    | some old => exact WF_insertCore_hit s k v c old w hc hf
  · exact WF_insertCore_cap0 s k v c w hc

theorem keyAt_hupd_keep (h : List (Nat × Entry)) (i : Nat) (e e' : Entry)
    (he : hget h i = some e) (hk : e'.key = e.key) :
    ∀ x, keyAt (hupd h i e') x = keyAt h x := by
  intro x
  by_cases hx : x = i
  · subst hx; simp [keyAt, hget_hupd, he, hk]
  · simp [keyAt, hget_hupd, hx]

theorem chargeAt_hupd_keep (h : List (Nat × Entry)) (i : Nat) (e e' : Entry)
    (he : hget h i = some e) (hcg : e'.charge = e.charge) :
    ∀ x, chargeAt (hupd h i e') x = chargeAt h x := by
  intro x
  by_cases hx : x = i
  · subst hx; simp [chargeAt, hget_hupd, he, hcg]
  · simp [chargeAt, hget_hupd, hx]

/-- Explicit form of `Lookup` on a hit: the entry is `Ref`ed (an lru
entry with a single reference moves to the in-use list, the reference
count goes up by one) and the handle goes to the client. -/
theorem shardLookup_hit (s : Shard) (k : Key) (j : Nat) (e : Entry)
    (hf : tblFind s k = some j) (he : hget s.heap j = some e) :
    shardLookup s k =
      (if e.refs = 1 ∧ e.inCache = true then
        { s with lru := s.lru.erase j, inUse := s.inUse.erase j ++ [j],
                 heap := hupd s.heap j (Entry.mk e.key e.value e.charge (e.refs + 1) e.inCache),
                 outstanding := j :: s.outstanding }
      else
        { s with heap := hupd s.heap j (Entry.mk e.key e.value e.charge (e.refs + 1) e.inCache),
                 outstanding := j :: s.outstanding }, some j) := by
  simp only [shardLookup, hf, shardRef, he, listsRemove]
  by_cases hcond : e.refs = 1 ∧ e.inCache = true
  · simp [hcond]
  · simp [hcond]

/-- `Lookup` preserves the well-formedness invariant. -/
theorem WF_shardLookup (s : Shard) (k : Key) (w : WF s) :
    WF (shardLookup s k).1 := by
  cases hf : tblFind s k with
  | none =>
    have hid : (shardLookup s k).1 = s := by simp [shardLookup, hf]
    rw [hid]; exact w
  | some j =>
    obtain ⟨e, he, hin, hek, hjt⟩ := w.find_entry hf
    have hje : (j, e) ∈ s.heap := hget_mem _ _ _ he
    have hjheap : j ∈ heapIds s.heap := fst_mem_heapIds _ _ hje
    have hjlt : j < s.nextId := w.hBound (j, e) hje
    have hrefs : e.refs = 1 + s.outstanding.count j := by
      have := w.refsEq (j, e) hje
      simpa [hin] using this
    have lruNodup : s.lru.Nodup := (List.nodup_append.mp w.listsNodup).1
    have useNodup : s.inUse.Nodup := (List.nodup_append.mp w.listsNodup).2.1
    have hdisj : s.lru.Disjoint s.inUse := (List.nodup_append.mp w.listsNodup).2.2
    have hkeep := keyAt_hupd_keep s.heap j e
      (Entry.mk e.key e.value e.charge (e.refs + 1) e.inCache) he rfl
    have hckeep := chargeAt_hupd_keep s.heap j e
      (Entry.mk e.key e.value e.charge (e.refs + 1) e.inCache) he rfl
    rw [shardLookup_hit s k j e hf he]
    by_cases hcond : e.refs = 1 ∧ e.inCache = true
    · -- the entry was on the lru list and moves to the in-use list
      have hcnt0 : s.outstanding.count j = 0 := by omega
      have hjout : j ∉ s.outstanding := List.count_eq_zero.mp hcnt0
      have hjlru : j ∈ s.lru := by
        rcases (w.listsTbl j).mpr hjt with hm | hm
        · exact hm
        · have := w.useRefs j hm e he; omega
      have hjuse : j ∉ s.inUse := hdisj hjlru
      rw [if_pos hcond]
      refine
        { hNodup := ?_, hBound := ?_, tNodup := w.tNodup, tLive := ?_, tKeys := ?_,
          cacheTbl := ?_, listsTbl := ?_, listsNodup := ?_,
          lruRefs := ?_, useRefs := ?_, refsEq := ?_, outLive := ?_, refsPos := ?_,
          usageEq := ?_, dNodup := w.dNodup, dBound := w.dBound, dDisj := ?_,
          allocSplit := ?_, bBound := w.bBound, bHeap := ?_, bDels := w.bDels }
      · exact nodup_heapIds_hupd _ _ _ w.hNodup
      · intro p hp
        rcases mem_hupd_cases _ _ _ _ hp with hp | hp
        · subst hp; exact hjlt
        · exact w.hBound p hp.1
      · intro x hx
        by_cases hxj : x = j
        · subst hxj
          refine ⟨Entry.mk e.key e.value e.charge (e.refs + 1) e.inCache,
            by rw [hget_hupd, if_pos rfl], ?_⟩
          show e.inCache = true
          exact hin
        · obtain ⟨ex, hex, hexin⟩ := w.tLive x hx
          exact ⟨ex, by rw [hget_hupd, if_neg hxj]; exact hex, hexin⟩
      · intro x hx x' hx'
        rw [hkeep x, hkeep x']
        exact w.tKeys x hx x' hx'
      · intro p hp hpc
        rcases mem_hupd_cases _ _ _ _ hp with hp | hp
        · subst hp; exact hjt
        · exact w.cacheTbl p hp.1 hpc
      · intro x
        by_cases hxj : x = j
        · subst hxj
          constructor
          · intro _; exact hjt
          · intro _
            exact Or.inr (List.mem_append_right _ (List.mem_singleton_self _))
        · constructor
          · rintro (hm | hm)
            · exact (w.listsTbl x).mp (Or.inl (List.mem_of_mem_erase hm))
            · rcases List.mem_append.mp hm with hm | hm
              · exact (w.listsTbl x).mp (Or.inr (List.mem_of_mem_erase hm))
              · simp at hm; exact absurd hm hxj
          · intro hm
            rcases (w.listsTbl x).mpr hm with hmm | hmm
            · exact Or.inl (lruNodup.mem_erase_iff.mpr ⟨hxj, hmm⟩)
            · exact Or.inr (List.mem_append_left _
                (useNodup.mem_erase_iff.mpr ⟨hxj, hmm⟩))
      · have hsub : (s.lru.erase j ++ s.inUse.erase j).Sublist (s.lru ++ s.inUse) :=
          (s.lru.erase_sublist j).append (s.inUse.erase_sublist j)
        have hn := hsub.nodup w.listsNodup
        have hnotin : j ∉ s.lru.erase j ++ s.inUse.erase j := by
          intro hmem
          rcases List.mem_append.mp hmem with hm | hm
          · exact lruNodup.not_mem_erase hm
          · exact hjuse (List.mem_of_mem_erase hm)
        have hperm : ((s.lru.erase j ++ s.inUse.erase j) ++ [j]).Perm
            (j :: (s.lru.erase j ++ s.inUse.erase j)) :=
          List.perm_append_singleton _ _
        have := hperm.symm.nodup (List.Nodup.cons hnotin hn)
        simpa [List.append_assoc] using this
      · intro x hx ex hex
        have hxj := (lruNodup.mem_erase_iff.mp hx).1
        rw [hget_hupd, if_neg hxj] at hex
        exact w.lruRefs x (List.mem_of_mem_erase hx) ex hex
      · intro x hx ex hex
        rcases List.mem_append.mp hx with hx | hx
        · have hxj := (useNodup.mem_erase_iff.mp hx).1
          rw [hget_hupd, if_neg hxj] at hex
          exact w.useRefs x (List.mem_of_mem_erase hx) ex hex
        · simp only [List.mem_singleton] at hx
          subst hx
          rw [hget_hupd, if_pos rfl] at hex
          cases Option.some.inj hex
          show 2 ≤ e.refs + 1
          omega
      · intro p hp
        dsimp only
        rcases mem_hupd_cases _ _ _ _ hp with hp | hp
        · subst hp
          show e.refs + 1 =
            (if e.inCache = true then 1 else 0) + (j :: s.outstanding).count j
          have hcnt : (j :: s.outstanding).count j = s.outstanding.count j + 1 := by
            simp [List.count_cons]
          rw [hcnt, hin, if_pos rfl]
          omega
        · have hne := hp.2
          have hcnt : (j :: s.outstanding).count p.1 = s.outstanding.count p.1 := by
            simp [List.count_cons, hne]
          rw [hcnt]
          exact w.refsEq p hp.1
      · intro x hx
        rcases List.mem_cons.mp hx with hx | hx
        · subst hx; exact (mem_heapIds_hupd _ _ _ _).mpr (Or.inl rfl)
        · exact (mem_heapIds_hupd _ _ _ _).mpr (Or.inr (w.outLive x hx))
      · intro p hp
        rcases mem_hupd_cases _ _ _ _ hp with hp | hp
        · subst hp
          show 1 ≤ e.refs + 1
          omega
        · exact w.refsPos p hp.1
      · show s.usage = listCharge (hupd s.heap j
          (Entry.mk e.key e.value e.charge (e.refs + 1) e.inCache)) s.table
        rw [listCharge_congr s.heap _ s.table (fun x _ => hckeep x)]
        exact w.usageEq
      · intro d hd hmem
        rcases (mem_heapIds_hupd _ _ _ _).mp hmem with hm | hm
        · exact w.dDisj d hd (hm ▸ hjheap)
        · exact w.dDisj d hd hm
      · intro x hx
        rcases w.allocSplit x hx with hm | hm
        · exact Or.inl ((mem_heapIds_hupd _ _ _ _).mpr (Or.inr hm))
        · exact Or.inr hm
      · intro p hp
        rcases mem_hupd_cases _ _ _ _ hp with hp | hp
        · subst hp
          show bget s.born j = some (e.key, e.value, e.charge)
          exact w.bHeap (j, e) hje
        · exact w.bHeap p hp.1
    · -- the entry already had clients: only the reference count changes
      have hge2 : 2 ≤ e.refs := by
        rcases Nat.lt_or_ge e.refs 2 with hlt | hge
        · exfalso
          have h1 := w.refsPos (j, e) hje
          have h2 : e.refs = 1 := by omega
          exact hcond ⟨h2, hin⟩
        · exact hge
      have hjuse : j ∈ s.inUse := by
        rcases (w.listsTbl j).mpr hjt with hm | hm
        · have := w.lruRefs j hm e he; omega
        · exact hm
      have hjlru : j ∉ s.lru := fun hm => absurd (w.lruRefs j hm e he) (by omega)
      rw [if_neg hcond]
      refine
        { hNodup := ?_, hBound := ?_, tNodup := w.tNodup, tLive := ?_, tKeys := ?_,
          cacheTbl := ?_, listsTbl := w.listsTbl, listsNodup := w.listsNodup,
          lruRefs := ?_, useRefs := ?_, refsEq := ?_, outLive := ?_, refsPos := ?_,
          usageEq := ?_, dNodup := w.dNodup, dBound := w.dBound, dDisj := ?_,
          allocSplit := ?_, bBound := w.bBound, bHeap := ?_, bDels := w.bDels }
      · exact nodup_heapIds_hupd _ _ _ w.hNodup
      · intro p hp
        rcases mem_hupd_cases _ _ _ _ hp with hp | hp
        · subst hp; exact hjlt
        · exact w.hBound p hp.1
      · intro x hx
        by_cases hxj : x = j
        · subst hxj
          refine ⟨Entry.mk e.key e.value e.charge (e.refs + 1) e.inCache,
            by rw [hget_hupd, if_pos rfl], ?_⟩
          show e.inCache = true
          exact hin
        · obtain ⟨ex, hex, hexin⟩ := w.tLive x hx
          exact ⟨ex, by rw [hget_hupd, if_neg hxj]; exact hex, hexin⟩
      · intro x hx x' hx'
        rw [hkeep x, hkeep x']
        exact w.tKeys x hx x' hx'
      · intro p hp hpc
        rcases mem_hupd_cases _ _ _ _ hp with hp | hp
        · subst hp; exact hjt
        · exact w.cacheTbl p hp.1 hpc
      · intro x hx ex hex
        have hxj : x ≠ j := fun hxj => hjlru (hxj ▸ hx)
        rw [hget_hupd, if_neg hxj] at hex
        exact w.lruRefs x hx ex hex
      · intro x hx ex hex
        by_cases hxj : x = j
        · subst hxj
          rw [hget_hupd, if_pos rfl] at hex
          cases Option.some.inj hex
          show 2 ≤ e.refs + 1
          omega
        · rw [hget_hupd, if_neg hxj] at hex
          exact w.useRefs x hx ex hex
      · intro p hp
        dsimp only
        rcases mem_hupd_cases _ _ _ _ hp with hp | hp
        · subst hp
          show e.refs + 1 =
            (if e.inCache = true then 1 else 0) + (j :: s.outstanding).count j
          have hcnt : (j :: s.outstanding).count j = s.outstanding.count j + 1 := by
            simp [List.count_cons]
          rw [hcnt, hin, if_pos rfl]
          omega
        · have hne := hp.2
          have hcnt : (j :: s.outstanding).count p.1 = s.outstanding.count p.1 := by
            simp [List.count_cons, hne]
          rw [hcnt]
          exact w.refsEq p hp.1
      · intro x hx
        rcases List.mem_cons.mp hx with hx | hx
        · subst hx; exact (mem_heapIds_hupd _ _ _ _).mpr (Or.inl rfl)
        · exact (mem_heapIds_hupd _ _ _ _).mpr (Or.inr (w.outLive x hx))
      · intro p hp
        rcases mem_hupd_cases _ _ _ _ hp with hp | hp
        · subst hp
          show 1 ≤ e.refs + 1
          omega
        · exact w.refsPos p hp.1
      · show s.usage = listCharge (hupd s.heap j
          (Entry.mk e.key e.value e.charge (e.refs + 1) e.inCache)) s.table
        rw [listCharge_congr s.heap _ s.table (fun x _ => hckeep x)]
        exact w.usageEq
      · intro d hd hmem
        rcases (mem_heapIds_hupd _ _ _ _).mp hmem with hm | hm
        · exact w.dDisj d hd (hm ▸ hjheap)
        · exact w.dDisj d hd hm
      · intro x hx
        rcases w.allocSplit x hx with hm | hm
        · exact Or.inl ((mem_heapIds_hupd _ _ _ _).mpr (Or.inr hm))
        · exact Or.inr hm
      · intro p hp
        rcases mem_hupd_cases _ _ _ _ hp with hp | hp
        · subst hp
          show bget s.born j = some (e.key, e.value, e.charge)
          exact w.bHeap (j, e) hje
        · exact w.bHeap p hp.1

/-- Explicit form of `Release` of a held handle: the count drops; at
zero the entry is deleted, an in-cache entry reaching a single
reference moves to the lru list as newest. -/
theorem shardRelease_held (s : Shard) (i : Nat) (e : Entry)
    (hmem : i ∈ s.outstanding) (he : hget s.heap i = some e) :
    shardRelease s i =
      if e.refs - 1 = 0 then
        { s with heap := hrem s.heap i, outstanding := s.outstanding.erase i,
                 dels := s.dels ++ [(i, e.key, e.value)] }
      else if e.inCache = true ∧ e.refs - 1 = 1 then
        { s with lru := s.lru.erase i ++ [i], inUse := s.inUse.erase i,
                 heap := hupd s.heap i (Entry.mk e.key e.value e.charge (e.refs - 1) e.inCache),
                 outstanding := s.outstanding.erase i }
      else
        { s with heap := hupd s.heap i (Entry.mk e.key e.value e.charge (e.refs - 1) e.inCache),
                 outstanding := s.outstanding.erase i } := by
  simp only [shardRelease, if_pos hmem, shardUnref, he, listsRemove]

/-- `Release` preserves the well-formedness invariant. -/
theorem WF_shardRelease (s : Shard) (i : Nat) (w : WF s) :
    WF (shardRelease s i) := by
  by_cases hmem : i ∈ s.outstanding
  · have hih : i ∈ heapIds s.heap := w.outLive i hmem
    obtain ⟨e, he⟩ : ∃ e, hget s.heap i = some e := by
      rcases hh : hget s.heap i with _ | e
      · exact absurd ((mem_heapIds _ _).mp hih) (by simp [hh])
      · exact ⟨e, rfl⟩
    have hie : (i, e) ∈ s.heap := hget_mem _ _ _ he
    have hilt : i < s.nextId := w.hBound (i, e) hie
    have hrefs : e.refs =
        (if e.inCache = true then 1 else 0) + s.outstanding.count i :=
      w.refsEq (i, e) hie
    have hcntpos : 1 ≤ s.outstanding.count i := by
      rcases Nat.eq_zero_or_pos (s.outstanding.count i) with h0 | h1
      · exact absurd hmem (List.count_eq_zero.mp h0)
      · exact h1
    have lruNodup : s.lru.Nodup := (List.nodup_append.mp w.listsNodup).1
    have useNodup : s.inUse.Nodup := (List.nodup_append.mp w.listsNodup).2.1
    have hdisj : s.lru.Disjoint s.inUse := (List.nodup_append.mp w.listsNodup).2.2
    have hkeep := keyAt_hupd_keep s.heap i e
      (Entry.mk e.key e.value e.charge (e.refs - 1) e.inCache) he rfl
    have hckeep := chargeAt_hupd_keep s.heap i e
      (Entry.mk e.key e.value e.charge (e.refs - 1) e.inCache) he rfl
    have hcerase : (s.outstanding.erase i).count i = s.outstanding.count i - 1 :=
      List.count_erase_self i s.outstanding
    have hcerane : ∀ x, x ≠ i →
        (s.outstanding.erase i).count x = s.outstanding.count x := by
      intro x hx
      exact List.count_erase_of_ne hx s.outstanding
    rw [shardRelease_held s i e hmem he]
    by_cases hr : e.refs - 1 = 0
    · -- last reference: the entry is deleted
      have hr1 : e.refs = 1 := by
        have := w.refsPos (i, e) hie
        omega
      have hnc : e.inCache = false := by
        rcases hb : e.inCache with _ | _
        · rfl
        · rw [hb] at hrefs; simp at hrefs; omega
      have hiT : i ∉ s.table := by
        intro hit
        obtain ⟨e', he', hin'⟩ := w.tLive i hit
        rw [he] at he'
        cases Option.some.inj he'
        rw [hnc] at hin'
        exact Bool.false_ne_true hin'
      have hiL : i ∉ s.lru := fun hm => hiT ((w.listsTbl i).mp (Or.inl hm))
      have hiU : i ∉ s.inUse := fun hm => hiT ((w.listsTbl i).mp (Or.inr hm))
      have hc1 : s.outstanding.count i = 1 := by
        rw [hnc] at hrefs; simp at hrefs; omega
      have hierase : i ∉ s.outstanding.erase i := by
        apply List.count_eq_zero.mp
        omega
      rw [if_pos hr]
      refine
        { hNodup := nodup_heapIds_hrem _ _ w.hNodup, hBound := ?_,
          tNodup := w.tNodup, tLive := ?_, tKeys := ?_,
          cacheTbl := ?_, listsTbl := w.listsTbl, listsNodup := w.listsNodup,
          lruRefs := ?_, useRefs := ?_, refsEq := ?_, outLive := ?_, refsPos := ?_,
          usageEq := ?_, dNodup := ?_, dBound := ?_, dDisj := ?_,
          allocSplit := ?_, bBound := w.bBound, bHeap := ?_, bDels := ?_ }
      · intro p hp; exact w.hBound p (mem_of_mem_hrem _ _ _ hp)
      · intro x hx
        have hxi : x ≠ i := fun hxi => hiT (hxi ▸ hx)
        obtain ⟨ex, hex, hexin⟩ := w.tLive x hx
        exact ⟨ex, by rw [hget_hrem, if_neg hxi]; exact hex, hexin⟩
      · intro x hx x' hx'
        have hxi : x ≠ i := fun hxi => hiT (hxi ▸ hx)
        have hxi' : x' ≠ i := fun hxi => hiT (hxi ▸ hx')
        rw [keyAt_hrem _ _ _ hxi, keyAt_hrem _ _ _ hxi']
        exact w.tKeys x hx x' hx'
      · intro p hp hpc
        exact w.cacheTbl p (mem_of_mem_hrem _ _ _ hp) hpc
      · intro x hx ex hex
        have hxi : x ≠ i := fun hxi => hiL (hxi ▸ hx)
        rw [hget_hrem, if_neg hxi] at hex
        exact w.lruRefs x hx ex hex
      · intro x hx ex hex
        have hxi : x ≠ i := fun hxi => hiU (hxi ▸ hx)
        rw [hget_hrem, if_neg hxi] at hex
        exact w.useRefs x hx ex hex
      · intro p hp
        obtain ⟨hph, hpi⟩ := mem_hrem _ _ _ hp
        rw [hcerane p.1 hpi]
        exact w.refsEq p hph
      · intro x hx
        have hxi : x ≠ i := fun hxi => hierase (hxi ▸ hx)
        exact (mem_heapIds_hrem _ _ _).mpr
          ⟨hxi, w.outLive x (List.mem_of_mem_erase hx)⟩
      · intro p hp; exact w.refsPos p (mem_of_mem_hrem _ _ _ hp)
      · show s.usage = listCharge (hrem s.heap i) s.table
        rw [listCharge_congr s.heap _ s.table (fun x hx =>
          chargeAt_hrem s.heap i x (fun hxi => hiT (hxi ▸ hx)))]
        exact w.usageEq
      · show ((s.dels ++ [(i, e.key, e.value)]).map (·.1)).Nodup
        rw [List.map_append]
        refine List.nodup_append.mpr ⟨w.dNodup, by simp, ?_⟩
        intro a ha hb
        simp only [List.map_cons, List.map_nil, List.mem_singleton] at hb
        exact w.notDels_of_heap hih (hb ▸ ha)
      · intro d hd
        rcases List.mem_append.mp hd with hd | hd
        · exact w.dBound d hd
        · simp only [List.mem_singleton] at hd; subst hd; exact hilt
      · intro d hd
        rcases List.mem_append.mp hd with hd | hd
        · intro hm
          exact w.dDisj d hd ((mem_heapIds_hrem _ _ _).mp hm).2
        · simp only [List.mem_singleton] at hd
          subst hd
          intro hm
          exact ((mem_heapIds_hrem _ _ _).mp hm).1 rfl
      · intro x hx
        rcases w.allocSplit x hx with hm | hm
        · by_cases hxi : x = i
          · subst hxi
            right
            show x ∈ (s.dels ++ [(x, e.key, e.value)]).map (·.1)
            simp
          · exact Or.inl ((mem_heapIds_hrem _ _ _).mpr ⟨hxi, hm⟩)
        · right
          show x ∈ (s.dels ++ [(i, e.key, e.value)]).map (·.1)
          rw [List.map_append]
          exact List.mem_append_left _ hm
      · intro p hp; exact w.bHeap p (mem_of_mem_hrem _ _ _ hp)
      · intro d hd
        rcases List.mem_append.mp hd with hd | hd
        · exact w.bDels d hd
        · simp only [List.mem_singleton] at hd
          subst hd
          exact ⟨e.charge, w.bHeap (i, e) hie⟩
    · rw [if_neg hr]
      by_cases hc : e.inCache = true ∧ e.refs - 1 = 1
      · -- losing its only external reference: move to the lru list
        have hin := hc.1
        have hiT : i ∈ s.table := w.cacheTbl (i, e) hie hin
        have hiU : i ∈ s.inUse := by
          rcases (w.listsTbl i).mpr hiT with hm | hm
          · have := w.lruRefs i hm e he; omega
          · exact hm
        have hiL : i ∉ s.lru := fun hm => hdisj hm hiU
        have hc1 : s.outstanding.count i = 1 := by
          rw [hin] at hrefs; simp at hrefs; omega
        rw [if_pos hc]
        refine
          { hNodup := nodup_heapIds_hupd _ _ _ w.hNodup, hBound := ?_,
            tNodup := w.tNodup, tLive := ?_, tKeys := ?_,
            cacheTbl := ?_, listsTbl := ?_, listsNodup := ?_,
            lruRefs := ?_, useRefs := ?_, refsEq := ?_, outLive := ?_,
            refsPos := ?_, usageEq := ?_, dNodup := w.dNodup,
            dBound := w.dBound, dDisj := ?_,
            allocSplit := ?_, bBound := w.bBound, bHeap := ?_, bDels := w.bDels }
        · intro p hp
          rcases mem_hupd_cases _ _ _ _ hp with hp | hp
          · subst hp; exact hilt
          · exact w.hBound p hp.1
        · intro x hx
          by_cases hxi : x = i
          · subst hxi
            refine ⟨Entry.mk e.key e.value e.charge (e.refs - 1) e.inCache,
              by rw [hget_hupd, if_pos rfl], ?_⟩
            show e.inCache = true
            exact hin
          · obtain ⟨ex, hex, hexin⟩ := w.tLive x hx
            exact ⟨ex, by rw [hget_hupd, if_neg hxi]; exact hex, hexin⟩
        · intro x hx x' hx'
          rw [hkeep x, hkeep x']
          exact w.tKeys x hx x' hx'
        · intro p hp hpc
          rcases mem_hupd_cases _ _ _ _ hp with hp | hp
          · subst hp; exact hiT
          · exact w.cacheTbl p hp.1 hpc
        · intro x
          by_cases hxi : x = i
          · subst hxi
            constructor
            · intro _; exact hiT
            · intro _
              exact Or.inl (List.mem_append_right _ (List.mem_singleton_self _))
          · constructor
            · rintro (hm | hm)
              · rcases List.mem_append.mp hm with hm | hm
                · exact (w.listsTbl x).mp (Or.inl (List.mem_of_mem_erase hm))
                · simp at hm; exact absurd hm hxi
              · exact (w.listsTbl x).mp (Or.inr (List.mem_of_mem_erase hm))
            · intro hm
              rcases (w.listsTbl x).mpr hm with hmm | hmm
              · exact Or.inl (List.mem_append_left _
                  (lruNodup.mem_erase_iff.mpr ⟨hxi, hmm⟩))
              · exact Or.inr (useNodup.mem_erase_iff.mpr ⟨hxi, hmm⟩)
        · have hsub : (s.lru.erase i ++ s.inUse.erase i).Sublist (s.lru ++ s.inUse) :=
            (s.lru.erase_sublist i).append (s.inUse.erase_sublist i)
          have hn := hsub.nodup w.listsNodup
          have hnotin : i ∉ s.lru.erase i ++ s.inUse.erase i := by
            intro hmm
            rcases List.mem_append.mp hmm with hm | hm
            · exact hiL (List.mem_of_mem_erase hm)
            · exact useNodup.not_mem_erase hm
          have hperm : (s.lru.erase i ++ i :: s.inUse.erase i).Perm
              (i :: (s.lru.erase i ++ s.inUse.erase i)) := List.perm_middle
          have hgoal := hperm.symm.nodup (List.Nodup.cons hnotin hn)
          show ((s.lru.erase i ++ [i]) ++ s.inUse.erase i).Nodup
          rw [List.append_assoc]
          exact hgoal
        · intro x hx ex hex
          rcases List.mem_append.mp hx with hx | hx
          · have hxi := (lruNodup.mem_erase_iff.mp hx).1
            rw [hget_hupd, if_neg hxi] at hex
            exact w.lruRefs x (List.mem_of_mem_erase hx) ex hex
          · simp only [List.mem_singleton] at hx
            subst hx
            rw [hget_hupd, if_pos rfl] at hex
            cases Option.some.inj hex
            show e.refs - 1 = 1
            exact hc.2
        · intro x hx ex hex
          have hxi := (useNodup.mem_erase_iff.mp hx).1
          rw [hget_hupd, if_neg hxi] at hex
          exact w.useRefs x (List.mem_of_mem_erase hx) ex hex
        · intro p hp
          rcases mem_hupd_cases _ _ _ _ hp with hp | hp
          · subst hp
            show e.refs - 1 =
              (if e.inCache = true then 1 else 0) + (s.outstanding.erase i).count i
            rw [hin, if_pos rfl, hcerase]
            omega
          · rw [hcerane p.1 hp.2]
            exact w.refsEq p hp.1
        · intro x hx
          exact (mem_heapIds_hupd _ _ _ _).mpr
            (Or.inr (w.outLive x (List.mem_of_mem_erase hx)))
        · intro p hp
          rcases mem_hupd_cases _ _ _ _ hp with hp | hp
          · subst hp
            show 1 ≤ e.refs - 1
            omega
          · exact w.refsPos p hp.1
        · show s.usage = listCharge (hupd s.heap i
            (Entry.mk e.key e.value e.charge (e.refs - 1) e.inCache)) s.table
          rw [listCharge_congr s.heap _ s.table (fun x _ => hckeep x)]
          exact w.usageEq
        · intro d hd hmm
          rcases (mem_heapIds_hupd _ _ _ _).mp hmm with hm | hm
          · exact w.dDisj d hd (hm ▸ hih)
          · exact w.dDisj d hd hm
        · intro x hx
          rcases w.allocSplit x hx with hm | hm
          · exact Or.inl ((mem_heapIds_hupd _ _ _ _).mpr (Or.inr hm))
          · exact Or.inr hm
        · intro p hp
          rcases mem_hupd_cases _ _ _ _ hp with hp | hp
          · subst hp
            show bget s.born i = some (e.key, e.value, e.charge)
            exact w.bHeap (i, e) hie
          · exact w.bHeap p hp.1
      · -- the entry keeps further references: plain decrement
        rw [if_neg hc]
        refine
          { hNodup := nodup_heapIds_hupd _ _ _ w.hNodup, hBound := ?_,
            tNodup := w.tNodup, tLive := ?_, tKeys := ?_,
            cacheTbl := ?_, listsTbl := w.listsTbl, listsNodup := w.listsNodup,
            lruRefs := ?_, useRefs := ?_, refsEq := ?_, outLive := ?_,
            refsPos := ?_, usageEq := ?_, dNodup := w.dNodup,
            dBound := w.dBound, dDisj := ?_,
            allocSplit := ?_, bBound := w.bBound, bHeap := ?_, bDels := w.bDels }
        · intro p hp
          rcases mem_hupd_cases _ _ _ _ hp with hp | hp
          · subst hp; exact hilt
          · exact w.hBound p hp.1
        · intro x hx
          by_cases hxi : x = i
          · subst hxi
            obtain ⟨e', he', hin'⟩ := w.tLive x hx
            rw [he] at he'
            cases Option.some.inj he'
            refine ⟨Entry.mk e.key e.value e.charge (e.refs - 1) e.inCache,
              by rw [hget_hupd, if_pos rfl], ?_⟩
            show e.inCache = true
            exact hin'
          · obtain ⟨ex, hex, hexin⟩ := w.tLive x hx
            exact ⟨ex, by rw [hget_hupd, if_neg hxi]; exact hex, hexin⟩
        · intro x hx x' hx'
          rw [hkeep x, hkeep x']
          exact w.tKeys x hx x' hx'
        · intro p hp hpc
          rcases mem_hupd_cases _ _ _ _ hp with hp | hp
          · subst hp
            refine w.cacheTbl (i, e) hie ?_
            exact hpc
          · exact w.cacheTbl p hp.1 hpc
        · intro x hx ex hex
          by_cases hxi : x = i
          · subst hxi
            exfalso
            have := w.lruRefs x hx e he
            omega
          · rw [hget_hupd, if_neg hxi] at hex
            exact w.lruRefs x hx ex hex
        · intro x hx ex hex
          by_cases hxi : x = i
          · subst hxi
            rw [hget_hupd, if_pos rfl] at hex
            cases Option.some.inj hex
            show 2 ≤ e.refs - 1
            have hinx : e.inCache = true := by
              obtain ⟨e', he', hin'⟩ := w.tLive x ((w.listsTbl x).mp (Or.inr hx))
              rw [he] at he'
              cases Option.some.inj he'
              exact hin'
            have hne1 : ¬ e.refs - 1 = 1 := fun h1 => hc ⟨hinx, h1⟩
            omega
          · rw [hget_hupd, if_neg hxi] at hex
            exact w.useRefs x hx ex hex
        · intro p hp
          rcases mem_hupd_cases _ _ _ _ hp with hp | hp
          · subst hp
            show e.refs - 1 =
              (if e.inCache = true then 1 else 0) + (s.outstanding.erase i).count i
            rw [hcerase]
            omega
          · rw [hcerane p.1 hp.2]
            exact w.refsEq p hp.1
        · intro x hx
          exact (mem_heapIds_hupd _ _ _ _).mpr
            (Or.inr (w.outLive x (List.mem_of_mem_erase hx)))
        · intro p hp
          rcases mem_hupd_cases _ _ _ _ hp with hp | hp
          · subst hp
            show 1 ≤ e.refs - 1
            omega
          · exact w.refsPos p hp.1
        · show s.usage = listCharge (hupd s.heap i
            (Entry.mk e.key e.value e.charge (e.refs - 1) e.inCache)) s.table
          rw [listCharge_congr s.heap _ s.table (fun x _ => hckeep x)]
          exact w.usageEq
        · intro d hd hmm
          rcases (mem_heapIds_hupd _ _ _ _).mp hmm with hm | hm
          · exact w.dDisj d hd (hm ▸ hih)
          · exact w.dDisj d hd hm
        · intro x hx
          rcases w.allocSplit x hx with hm | hm
          · exact Or.inl ((mem_heapIds_hupd _ _ _ _).mpr (Or.inr hm))
          · exact Or.inr hm
        · intro p hp
          rcases mem_hupd_cases _ _ _ _ hp with hp | hp
          · subst hp
            show bget s.born i = some (e.key, e.value, e.charge)
            exact w.bHeap (i, e) hie
          · exact w.bHeap p hp.1
  · rw [shardRelease, if_neg hmem]
    exact w

/-- Each step of the eviction loop is an `Erase` of the oldest key, so
the loop preserves well-formedness. -/
theorem WF_evictPlain (n : Nat) : ∀ s : Shard, WF s → WF (evictPlain n s) := by
  induction n with
  | zero => intro s w; exact w
  | succ n ih =>
    intro s w
    rw [evictPlain]
    by_cases hcu : s.capacity < s.usage
    · rw [if_pos hcu]
      cases hl : s.lru with
      | nil => exact w
      | cons old rest =>
        show WF (match keyAt s.heap old with
          | none => s
          | some k => evictPlain n (shardErase s k))
        cases hk : keyAt s.heap old with
        | none => exact w
        | some k => exact ih _ (WF_shardErase s k w)
    · rw [if_neg hcu]
      exact w

/-- `Insert` preserves the well-formedness invariant. -/
theorem WF_shardInsert (s : Shard) (k : Key) (v : Val) (c : Nat) (w : WF s) :
    WF (shardInsert s k v c).1 := by
  show WF (evictPlain (insertCore s k v c).1.lru.length (insertCore s k v c).1)
  exact WF_evictPlain _ _ (WF_insertCore s k v c w)

/-- The prune loop preserves well-formedness. -/
theorem WF_pruneLoop (n : Nat) : ∀ s : Shard, WF s → WF (pruneLoop n s) := by
  induction n with
  | zero => intro s w; exact w
  | succ n ih =>
    intro s w
    rw [pruneLoop]
    cases hl : s.lru with
    | nil => exact w
    | cons old rest =>
      show WF (match keyAt s.heap old with
        | none => s
        | some k => pruneLoop n (shardErase s k))
      cases hk : keyAt s.heap old with
      | none => exact w
      | some k => exact ih _ (WF_shardErase s k w)

/-- `Prune` preserves the well-formedness invariant. -/
theorem WF_shardPrune (s : Shard) (w : WF s) : WF (shardPrune s) :=
  WF_pruneLoop _ _ w

/-- `AdjustCapacity` touches only the capacity and preserves the
invariant. -/
theorem WF_shardAdjustCapacity (s : Shard) (d : Int) (w : WF s) :
    WF (shardAdjustCapacity s d) :=
  { hNodup := w.hNodup, hBound := w.hBound, tNodup := w.tNodup,
    tLive := w.tLive, tKeys := w.tKeys, cacheTbl := w.cacheTbl,
    listsTbl := w.listsTbl, listsNodup := w.listsNodup, lruRefs := w.lruRefs,
    useRefs := w.useRefs, refsEq := w.refsEq, outLive := w.outLive,
    refsPos := w.refsPos, usageEq := w.usageEq, dNodup := w.dNodup,
    dBound := w.dBound, dDisj := w.dDisj, allocSplit := w.allocSplit,
    bBound := w.bBound, bHeap := w.bHeap, bDels := w.bDels }

/-- A freshly constructed shard is well-formed. -/
theorem WF_initShard (cap : Nat) : WF (initShard cap) := by
  constructor <;> simp [initShard, heapIds, delsIds, listCharge]

/-- Every single client operation preserves well-formedness. -/
theorem WF_stepOp (s : Shard) (op : Op) (w : WF s) : WF (stepOp s op) := by
  cases op with
  | insert k v c => exact WF_shardInsert s k v c w
  | lookup k => exact WF_shardLookup s k w
  | release i => exact WF_shardRelease s i w
  | erase k => exact WF_shardErase s k w
  | prune => exact WF_shardPrune s w
  | adjust d => exact WF_shardAdjustCapacity s d w

/-- Every finite sequence of client operations preserves
well-formedness. -/
theorem WF_runOps_of (t : List Op) : ∀ s : Shard, WF s → WF (runOps s t) := by
  induction t with
  | nil => intro s w; exact w
  | cons op t ih => intro s w; exact ih _ (WF_stepOp s op w)

/-- Every state reachable from a fresh shard is well-formed. -/
theorem WF_runOps (cap : Nat) (t : List Op) : WF (runOps (initShard cap) t) :=
  WF_runOps_of t _ (WF_initShard cap)

/-- A fresh sharded cache has well-formed shards. -/
theorem ShardedWF_newSharded (cap : Nat) : ShardedWF (newSharded cap) := by
  intro s hs
  rw [List.eq_of_mem_replicate hs]
  exact WF_initShard _

/-- Reading any shard of a cache with well-formed shards yields a
well-formed shard. -/
theorem WF_getShard (sc : Sharded) (idx : Nat) (hw : ShardedWF sc) :
    WF (getShard sc idx) := by
  unfold getShard
  by_cases h : idx < sc.shards.length
  · rw [List.getD_eq_getElem _ _ h]
    exact hw _ (List.getElem_mem h)
  · rw [List.getD_eq_default _ _ (Nat.le_of_not_lt h)]
    exact WF_initShard 0

/-- Writing a well-formed shard keeps all shards well-formed. -/
theorem ShardedWF_setShard (sc : Sharded) (idx : Nat) (s : Shard)
    (hw : ShardedWF sc) (ws : WF s) : ShardedWF (setShard sc idx s) := by
  intro s' hs'
  rcases List.mem_or_eq_of_mem_set hs' with hm | hm
  · exact hw s' hm
  · exact hm ▸ ws

/-- Every sharded operation preserves well-formedness of all shards. -/
theorem ShardedWF_stepSOp (H : Key → Nat) (sc : Sharded) (op : SOp)
    (hw : ShardedWF sc) : ShardedWF (stepSOp H sc op) := by
  cases op with
  | insert k v c =>
    exact ShardedWF_setShard _ _ _ hw
      (WF_shardInsert _ k v c (WF_getShard _ _ hw))
  | lookup k =>
    exact ShardedWF_setShard _ _ _ hw
      (WF_shardLookup _ k (WF_getShard _ _ hw))
  | release h =>
    exact ShardedWF_setShard _ _ _ hw
      (WF_shardRelease _ h.2 (WF_getShard _ _ hw))
  | erase k =>
    exact ShardedWF_setShard _ _ _ hw
      (WF_shardErase _ k (WF_getShard _ _ hw))
  | prune =>
    intro s' hs'
    obtain ⟨s, hs, rfl⟩ := List.mem_map.mp hs'
    exact WF_shardPrune s (hw s hs)
  | adjust d =>
    show ShardedWF (shardedAdjustCapacity sc d)
    unfold shardedAdjustCapacity
    by_cases hguard : d < 0 ∧ sc.capacity < 2097152
    · rw [if_pos hguard]; exact hw
    · rw [if_neg hguard]
      intro s' hs'
      obtain ⟨s, hs, rfl⟩ := List.mem_map.mp hs'
      exact WF_shardAdjustCapacity s _ (hw s hs)

/-- Every finite sequence of sharded operations preserves
well-formedness of all shards. -/
theorem ShardedWF_runSOps (H : Key → Nat) (t : List SOp) :
    ∀ sc : Sharded, ShardedWF sc → ShardedWF (runSOps H sc t) := by
  induction t with
  | nil => intro sc hw; exact hw
  | cons op t ih => intro sc hw; exact ih _ (ShardedWF_stepSOp H sc op hw)

/-- C2: after every finite sequence of Insert, Lookup, Release, Erase,
Prune (and AdjustCapacity) operations on a shard, the shard's usage
equals the sum of the charges of the entries reachable from its hash
table; consequently, for a cache built by NewLRUCache, TotalCharge
after any operation sequence equals the sum over all shards of the
charges reachable from their hash tables. -/
theorem C2_charge_conservation :
    (∀ (cap : Nat) (t : List Op),
       (runOps (initShard cap) t).usage = tableCharge (runOps (initShard cap) t)) ∧
    (∀ (H : Key → Nat) (cap : Nat) (t : List SOp),
       shardedTotalCharge (runSOps H (newSharded cap) t) =
         ((runSOps H (newSharded cap) t).shards.map tableCharge).sum) := by
  constructor
  · intro cap t
    exact (WF_runOps cap t).usageEq
  · intro H cap t
    have hw : ShardedWF (runSOps H (newSharded cap) t) :=
      ShardedWF_runSOps H t _ (ShardedWF_newSharded cap)
    unfold shardedTotalCharge
    refine congrArg List.sum (List.map_congr_left ?_)
    intro s hs
    exact (hw s hs).usageEq

/-- C10: `Erase` of a key absent from the shard's hash table leaves the
whole shard state unchanged — usage, capacity, hash table, both lists,
outstanding handles and every entry — and invokes no deleter (the
deleter history is part of the state). -/
theorem C10_erase_missing_key (s : Shard) (k : Key)
    (h : tblFind s k = none) : shardErase s k = s :=
  shardErase_miss s k h

/-- Witness for C10 at a concrete shard and key. -/
theorem C10_erase_missing_key_witness :
    tblFind (initShard 5) 3 = none ∧ shardErase (initShard 5) 3 = initShard 5 :=
  ⟨by decide, C10_erase_missing_key (initShard 5) 3 (by decide)⟩

/-- C7 counterexample: a NewLRUCache(3) cache (16 shards of capacity
`⌈3/16⌉ = 1` each), four distinct unit-charge keys inserted with no
lookups and no releases between them (all four handles still held, as
the claim demands).  Every inserted entry sits on the in-use list, the
lru list stays empty, so the eviction loop never runs: the subsequent
lookup of the first key is a hit, not null, and nothing was evicted
although the total charge 4 exceeds the capacity 3. -/
theorem C7_counterexample :
    (shardedLookup H0 c7state 1).2 = some (0, 0) ∧
    shardedTotalCharge c7state = 4 ∧
    (c7state.shards.map (fun s => s.dels)).flatten = [] := by decide

/-- C7 amended: with each insert's handle released immediately after
the insert (so entries reach the lru list) and at the granularity of
one shard of capacity 3 — NewLRUCache splits its capacity over 16
shards, so a whole cache of capacity 3 gives each shard capacity 1 —
inserting A,B,C,D with unit charges evicts exactly the first key, in
insertion order: lookup of A misses while B, C, D hit. -/
theorem C7_eviction_order :
    (shardLookup (runOps (initShard 3) c7ops) 1).2 = none ∧
    (shardLookup (runOps (initShard 3) c7ops) 2).2 = some 1 ∧
    (shardLookup (runOps (initShard 3) c7ops) 3).2 = some 2 ∧
    (shardLookup (runOps (initShard 3) c7ops) 4).2 = some 3 ∧
    delsIds (runOps (initShard 3) c7ops) = [0] := by decide

theorem tFind_unique (h : List (Nat × Entry)) (t : List Nat) (k : Key) (i : Nat)
    (huniq : ∀ j ∈ t, keyAt h j = some k → j = i) (hit : i ∈ t)
    (hik : keyAt h i = some k) : tFind h t k = some i := by
  induction t with
  | nil => cases hit
  | cons a t ih =>
    by_cases ha : keyAt h a = some k
    · have hai : a = i := huniq a (List.mem_cons_self _ _) ha
      subst hai
      simp [tFind, List.find?_cons, ha]
    · have hne : (keyAt h a == some k) = false := by
        simp [ha]
      have hai : a ≠ i := fun hai => ha (hai ▸ hik)
      have hit' : i ∈ t := by
        rcases List.mem_cons.mp hit with hm | hm
        · exact absurd hm.symm hai
        · exact hm
      simp only [tFind, List.find?_cons, hne]
      exact ih (fun j hj hjk => huniq j (List.mem_cons_of_mem _ hj) hjk) hit'

/-- The eviction loop does nothing once usage is within capacity. -/
theorem evictPlain_noop (n : Nat) (s : Shard) (h : ¬ s.capacity < s.usage) :
    evictPlain n s = s := by
  cases n with
  | zero => rfl
  | succ n => rw [evictPlain, if_neg h]

/-- One eviction step (erasing the key of an lru entry) leaves the
in-use list, the allocation counter and every other entry intact. -/
theorem erase_head_facts (s : Shard) (w : WF s) (old : Nat) (k : Key)
    (holdl : old ∈ s.lru) (hk : keyAt s.heap old = some k) :
    (shardErase s k).inUse = s.inUse ∧
    (shardErase s k).nextId = s.nextId ∧
    (∀ i, i ≠ old → hget (shardErase s k).heap i = hget s.heap i) ∧
    (∀ i, i ∈ s.table → i ≠ old → i ∈ (shardErase s k).table) ∧
    (∀ i, i ∉ s.table → i ∉ (shardErase s k).table) ∧
    (∀ i, i ∉ s.lru → i ∉ (shardErase s k).lru) := by
  have hot : old ∈ s.table := (w.listsTbl old).mp (Or.inl holdl)
  obtain ⟨eo, heo⟩ : ∃ eo, hget s.heap old = some eo := by
    rcases hh : hget s.heap old with _ | eo
    · simp [keyAt, hh] at hk
    · exact ⟨eo, rfl⟩
  have hfind : tblFind s k = some old := by
    refine tFind_unique s.heap s.table k old (fun j hj hjk => ?_) hot hk
    exact w.tKeys j hj old hot (by rw [hjk, hk])
  have hiU : old ∉ s.inUse := (List.nodup_append.mp w.listsNodup).2.2 holdl
  have hUe : s.inUse.erase old = s.inUse := List.erase_of_not_mem hiU
  rw [shardErase_hit s k old eo hfind heo]
  by_cases hr : eo.refs - 1 = 0
  · rw [if_pos hr]
    refine ⟨hUe, rfl, ?_, ?_, ?_, ?_⟩
    · intro i hi
      rw [hget_hrem, if_neg hi]
    · intro i hi hio
      exact ((w.tNodup.mem_erase_iff).mpr ⟨hio, hi⟩)
    · intro i hi hm
      exact hi (List.mem_of_mem_erase hm)
    · intro i hi hm
      exact hi (List.mem_of_mem_erase hm)
  · rw [if_neg hr]
    refine ⟨hUe, rfl, ?_, ?_, ?_, ?_⟩
    · intro i hi
      rw [hget_hupd, if_neg hi]
    · intro i hi hio
      exact ((w.tNodup.mem_erase_iff).mpr ⟨hio, hi⟩)
    · intro i hi hm
      exact hi (List.mem_of_mem_erase hm)
    · intro i hi hm
      exact hi (List.mem_of_mem_erase hm)

/-- The eviction loop leaves the in-use list, the allocation counter,
entries off the lru list and their table membership intact. -/
theorem evictPlain_facts (n : Nat) : ∀ s : Shard, WF s →
    (evictPlain n s).inUse = s.inUse ∧
    (evictPlain n s).nextId = s.nextId ∧
    (∀ i, i ∉ s.lru → hget (evictPlain n s).heap i = hget s.heap i) ∧
    (∀ i, i ∈ s.table → i ∉ s.lru → i ∈ (evictPlain n s).table) ∧
    (∀ i, i ∉ s.table → i ∉ (evictPlain n s).table) ∧
    (∀ i, i ∉ s.lru → i ∉ (evictPlain n s).lru) := by
  induction n with
  | zero =>
    intro s w
    exact ⟨rfl, rfl, fun _ _ => rfl, fun i hi _ => hi, fun _ hi => hi,
      fun _ hi => hi⟩
  | succ n ih =>
    intro s w
    by_cases hcu : s.capacity < s.usage
    · cases hl : s.lru with
      | nil =>
        have hid : evictPlain (n + 1) s = s := by
          rw [evictPlain, if_pos hcu, hl]
        rw [hid]
        exact ⟨rfl, rfl, fun _ _ => rfl, fun i hi _ => hi, fun _ hi => hi,
          fun i hi => by rw [hl]; exact hi⟩
      | cons old rest =>
        cases hk : keyAt s.heap old with
        | none =>
          have hid : evictPlain (n + 1) s = s := by
            rw [evictPlain, if_pos hcu, hl]
            show (match keyAt s.heap old with
              | none => s
              | some k => evictPlain n (shardErase s k)) = s
            rw [hk]
          rw [hid]
          exact ⟨rfl, rfl, fun _ _ => rfl, fun i hi _ => hi, fun _ hi => hi,
            fun i hi => by rw [hl]; exact hi⟩
        | some k =>
          have hid : evictPlain (n + 1) s = evictPlain n (shardErase s k) := by
            rw [evictPlain, if_pos hcu, hl]
            show (match keyAt s.heap old with
              | none => s
              | some k => evictPlain n (shardErase s k)) =
              evictPlain n (shardErase s k)
            rw [hk]
          rw [hid]
          have holdl : old ∈ s.lru := by rw [hl]; exact List.mem_cons_self _ _
          have hf := erase_head_facts s w old k holdl hk
          have w' := WF_shardErase s k w
          have ihf := ih (shardErase s k) w'
          refine ⟨?_, ?_, ?_, ?_, ?_, ?_⟩
          · rw [ihf.1, hf.1]
          · rw [ihf.2.1, hf.2.1]
          · intro i hi
            rw [← hl] at hi
            have hiold : i ≠ old := fun h => hi (h ▸ holdl)
            have hi' : i ∉ (shardErase s k).lru := hf.2.2.2.2.2 i hi
            rw [ihf.2.2.1 i hi', hf.2.2.1 i hiold]
          · intro i hit hi
            rw [← hl] at hi
            have hiold : i ≠ old := fun h => hi (h ▸ holdl)
            have hi' : i ∉ (shardErase s k).lru := hf.2.2.2.2.2 i hi
            exact ihf.2.2.2.1 i (hf.2.2.2.1 i hit hiold) hi'
          · intro i hit
            exact ihf.2.2.2.2.1 i (hf.2.2.2.2.1 i hit)
          · intro i hi
            rw [← hl] at hi
            exact ihf.2.2.2.2.2 i (hf.2.2.2.2.2 i hi)
    · rw [evictPlain_noop (n + 1) s hcu]
      exact ⟨rfl, rfl, fun _ _ => rfl, fun i hi _ => hi, fun _ hi => hi,
        fun _ hi => hi⟩

/-- C5 counterexample: on a shard with capacity 0 (as produced by
`NewLRUCache(0)`), `Insert` does not behave as the claim says: the new
entry is created with a single reference, `in_cache == false`, it is not
recorded in the hash table nor appended to the in-use list, and usage
does not increase. -/
theorem C5_counterexample :
    (shardInsert (initShard 0) 1 5 2).2 = 0 ∧
    hget (shardInsert (initShard 0) 1 5 2).1.heap 0
      = some (Entry.mk 1 5 2 1 false) ∧
    (shardInsert (initShard 0) 1 5 2).1.table = [] ∧
    (shardInsert (initShard 0) 1 5 2).1.inUse = [] ∧
    (shardInsert (initShard 0) 1 5 2).1.usage = 0 :=
  ⟨rfl, rfl, rfl, rfl, rfl⟩

/-- C5 (amended with positive capacity): on every well-formed shard with
`capacity_ > 0`, `Insert(key, value, charge)` returns a handle to a new
entry with `refs == 2` and `in_cache == true` holding the given key,
value and charge; the new entry is appended to the in-use list and is
the one the hash table maps the key to; if no prior entry with the key
existed and no eviction is needed, usage grows by exactly `charge`; and
a prior entry with the same key is detached from the cache — removed
from the table and from both lists, its cache reference dropped with
`in_cache` cleared while outstanding client handles keep it alive, and
its charge subtracted from usage. -/
theorem C5_insert_spec (s : Shard) (k : Key) (v : Val) (c : Nat)
    (w : WF s) (hc : 0 < s.capacity) : InsertSpec s k v c := by
  have hni : ∀ j ∈ s.table, j ≠ s.nextId := w.freshTable
  have hsi : shardInsert s k v c =
      (evictPlain (insertCore s k v c).1.lru.length (insertCore s k v c).1,
       (insertCore s k v c).2) := rfl
  have wcore : WF (insertCore s k v c).1 := WF_insertCore s k v c w
  have hfacts := evictPlain_facts (insertCore s k v c).1.lru.length
    (insertCore s k v c).1 wcore
  have wEv : WF (shardInsert s k v c).1 := by
    rw [hsi]; exact WF_evictPlain _ _ wcore
  cases hf : tblFind s k with
  | none =>
    have hcore := insertCore_miss s k v c hc hni hf
    have hsnd : (insertCore s k v c).2 = s.nextId := by rw [hcore]
    have hlru : (insertCore s k v c).1.lru = s.lru := by rw [hcore]
    have hiU : (insertCore s k v c).1.inUse = s.inUse ++ [s.nextId] := by
      rw [hcore]
    have htb : (insertCore s k v c).1.table = s.nextId :: s.table := by
      rw [hcore]
    have hus : (insertCore s k v c).1.usage = s.usage + c := by rw [hcore]
    have hcap : (insertCore s k v c).1.capacity = s.capacity := by rw [hcore]
    have hhp : hget (insertCore s k v c).1.heap s.nextId
        = some (freshEntry k v c) := by
      rw [hcore]
      show hget (hupd s.heap s.nextId (freshEntry k v c)) s.nextId
        = some (freshEntry k v c)
      rw [hget_hupd, if_pos rfl]
    have hnl : s.nextId ∉ (insertCore s k v c).1.lru := by
      rw [hlru]; exact w.freshLru
    have h1 : (shardInsert s k v c).2 = s.nextId := by
      rw [hsi]; exact hsnd
    have hgetE : hget (shardInsert s k v c).1.heap s.nextId
        = some (freshEntry k v c) := by
      rw [hsi]
      show hget (evictPlain _ _).heap s.nextId = _
      rw [hfacts.2.2.1 s.nextId hnl, hhp]
    have h3 : (shardInsert s k v c).1.inUse.getLast? = some s.nextId := by
      rw [hsi]
      show (evictPlain _ _).inUse.getLast? = _
      rw [hfacts.1, hiU]
      exact List.getLast?_concat _
    have hmemT : s.nextId ∈ (shardInsert s k v c).1.table := by
      rw [hsi]
      exact hfacts.2.2.2.1 s.nextId
        (by rw [htb]; exact List.mem_cons_self _ _) hnl
    have hkey : keyAt (shardInsert s k v c).1.heap s.nextId = some k := by
      simp [keyAt, hgetE, freshEntry]
    have h4 : tblFind (shardInsert s k v c).1 k = some s.nextId := by
      show tFind (shardInsert s k v c).1.heap (shardInsert s k v c).1.table k
        = some s.nextId
      refine tFind_unique _ _ _ _ (fun j hj hjk => ?_) hmemT hkey
      exact wEv.tKeys j hj s.nextId hmemT (by rw [hjk, hkey])
    have h5 : tblFind s k = none → s.usage + c ≤ s.capacity →
        (shardInsert s k v c).1.usage = s.usage + c := by
      intro _ hle
      have hnoev : ¬ (insertCore s k v c).1.capacity
          < (insertCore s k v c).1.usage := by
        rw [hcap, hus]; omega
      rw [hsi]
      show (evictPlain _ _).usage = _
      rw [evictPlain_noop _ _ hnoev, hus]
    refine ⟨h1, ⟨freshEntry k v c, hgetE, rfl, rfl, rfl, rfl, rfl⟩, h3, h4, h5,
      fun j hj => ?_⟩
    rw [hf] at hj
    exact absurd hj (by simp)
  | some old =>
    obtain ⟨eo, heo, heoin, heok, holdt⟩ := w.find_entry hf
    have hcore := insertCore_hit s k v c old eo hc hni hf heo
    have hoi : old ≠ s.nextId := hni old holdt
    have lruNodup : s.lru.Nodup := (List.nodup_append.mp w.listsNodup).1
    have useNodup : s.inUse.Nodup := (List.nodup_append.mp w.listsNodup).2.1
    have hsnd : (insertCore s k v c).2 = s.nextId := by
      by_cases hr : eo.refs - 1 = 0
      · rw [hcore, if_pos hr]
      · rw [hcore, if_neg hr]
    have hlru : (insertCore s k v c).1.lru = s.lru.erase old := by
      by_cases hr : eo.refs - 1 = 0
      · rw [hcore, if_pos hr]
      · rw [hcore, if_neg hr]
    have hiU : (insertCore s k v c).1.inUse
        = s.inUse.erase old ++ [s.nextId] := by
      by_cases hr : eo.refs - 1 = 0
      · rw [hcore, if_pos hr]
      · rw [hcore, if_neg hr]
    have htb : (insertCore s k v c).1.table
        = s.nextId :: s.table.erase old := by
      by_cases hr : eo.refs - 1 = 0
      · rw [hcore, if_pos hr]
      · rw [hcore, if_neg hr]
    have hus : (insertCore s k v c).1.usage = s.usage + c - eo.charge := by
      by_cases hr : eo.refs - 1 = 0
      · rw [hcore, if_pos hr]
      · rw [hcore, if_neg hr]
    have hcap : (insertCore s k v c).1.capacity = s.capacity := by
      by_cases hr : eo.refs - 1 = 0
      · rw [hcore, if_pos hr]
      · rw [hcore, if_neg hr]
    have hhp : hget (insertCore s k v c).1.heap s.nextId
        = some (freshEntry k v c) := by
      by_cases hr : eo.refs - 1 = 0
      · rw [hcore, if_pos hr]
        show hget (hrem (hupd s.heap s.nextId (freshEntry k v c)) old)
          s.nextId = some (freshEntry k v c)
        rw [hget_hrem, if_neg (Ne.symm hoi), hget_hupd, if_pos rfl]
      · rw [hcore, if_neg hr]
        show hget (hupd (hupd s.heap s.nextId (freshEntry k v c)) old
          (Entry.mk eo.key eo.value eo.charge (eo.refs - 1) false))
          s.nextId = some (freshEntry k v c)
        rw [hget_hupd, if_neg (Ne.symm hoi), hget_hupd, if_pos rfl]
    have hnl : s.nextId ∉ (insertCore s k v c).1.lru := by
      rw [hlru]
      exact fun h => w.freshLru (List.mem_of_mem_erase h)
    have holdnl : old ∉ (insertCore s k v c).1.lru := by
      rw [hlru]
      exact fun h => (lruNodup.mem_erase_iff.mp h).1 rfl
    have h1 : (shardInsert s k v c).2 = s.nextId := by
      rw [hsi]; exact hsnd
    have hgetE : hget (shardInsert s k v c).1.heap s.nextId
        = some (freshEntry k v c) := by
      rw [hsi]
      show hget (evictPlain _ _).heap s.nextId = _
      rw [hfacts.2.2.1 s.nextId hnl, hhp]
    have h3 : (shardInsert s k v c).1.inUse.getLast? = some s.nextId := by
      rw [hsi]
      show (evictPlain _ _).inUse.getLast? = _
      rw [hfacts.1, hiU]
      exact List.getLast?_concat _
    have hmemT : s.nextId ∈ (shardInsert s k v c).1.table := by
      rw [hsi]
      exact hfacts.2.2.2.1 s.nextId
        (by rw [htb]; exact List.mem_cons_self _ _) hnl
    have hkey : keyAt (shardInsert s k v c).1.heap s.nextId = some k := by
      simp [keyAt, hgetE, freshEntry]
    have h4 : tblFind (shardInsert s k v c).1 k = some s.nextId := by
      show tFind (shardInsert s k v c).1.heap (shardInsert s k v c).1.table k
        = some s.nextId
      refine tFind_unique _ _ _ _ (fun j hj hjk => ?_) hmemT hkey
      exact wEv.tKeys j hj s.nextId hmemT (by rw [hjk, hkey])
    have h5 : tblFind s k = none → s.usage + c ≤ s.capacity →
        (shardInsert s k v c).1.usage = s.usage + c := by
      intro hn
      rw [hf] at hn
      exact absurd hn (by simp)
    refine ⟨h1, ⟨freshEntry k v c, hgetE, rfl, rfl, rfl, rfl, rfl⟩, h3, h4, h5,
      fun j hj => ?_⟩
    rw [hf, Option.some.injEq] at hj
    subst hj
    refine ⟨?_, ?_, ?_, ?_, ?_⟩
    · rw [hsi]
      refine hfacts.2.2.2.2.1 old ?_
      rw [htb]
      intro hm
      rcases List.mem_cons.mp hm with hm | hm
      · exact hoi hm
      · exact (w.tNodup.mem_erase_iff.mp hm).1 rfl
    · rw [hsi]
      exact hfacts.2.2.2.2.2 old holdnl
    · rw [hsi]
      show old ∉ (evictPlain _ _).inUse
      rw [hfacts.1, hiU]
      intro hm
      rcases List.mem_append.mp hm with hm | hm
      · exact (useNodup.mem_erase_iff.mp hm).1 rfl
      · exact hoi (List.mem_singleton.mp hm)
    · intro e' he' h2le
      rw [heo, Option.some.injEq] at he'
      subst he'
      have hrne : ¬ eo.refs - 1 = 0 := by omega
      have hcold : hget (insertCore s k v c).1.heap old
          = some (Entry.mk eo.key eo.value eo.charge (eo.refs - 1) false) := by
        rw [hcore, if_neg hrne]
        show hget (hupd (hupd s.heap s.nextId (freshEntry k v c)) old
          (Entry.mk eo.key eo.value eo.charge (eo.refs - 1) false)) old = _
        rw [hget_hupd, if_pos rfl]
      rw [hsi]
      show hget (evictPlain _ _).heap old = _
      rw [hfacts.2.2.1 old holdnl, hcold]
    · intro hle
      have hch : chargeAt s.heap old = eo.charge := by
        simp [chargeAt, heo]
      rw [hch] at hle ⊢
      have hnoev : ¬ (insertCore s k v c).1.capacity
          < (insertCore s k v c).1.usage := by
        rw [hcap, hus]; omega
      rw [hsi]
      show (evictPlain _ _).usage = _
      rw [evictPlain_noop _ _ hnoev, hus]

/-- Witness for the amended C5 theorem: inserting key 1, value 10,
charge 2 into a fresh shard of capacity 5 satisfies every clause of
`InsertSpec`. -/
theorem C5_insert_spec_witness :
    WF (initShard 5) ∧ 0 < (initShard 5).capacity ∧
    InsertSpec (initShard 5) 1 10 2 :=
  ⟨WF_initShard 5, by decide,
   C5_insert_spec (initShard 5) 1 10 2 (WF_initShard 5) (by decide)⟩

/-- One destructor step on an entry with a single reference: clearing
`in_cache` and dropping the cache reference invokes the deleter,
recorded with the entry's key and value. -/
theorem teardownStep_del (s : Shard) (a : Nat) (e : Entry)
    (he : hget s.heap a = some e) (hr : e.refs = 1) :
    teardownStep s a = { s with heap := hrem s.heap a,
                                dels := s.dels ++ [(a, e.key, e.value)] } := by
  simp only [teardownStep, he, shardUnref, hget_hupd, if_pos rfl, if_true]
  rw [if_pos (show e.refs - 1 = 0 by omega)]
  simp [hrem_hupd]

/-- Folding the destructor over a list of ids of single-reference
entries deletes exactly those ids, in order, recording each entry's key
and value, and touches neither `born` nor the allocation counter. -/
theorem teardown_fold (L : List Nat) : ∀ s : Shard,
    (∀ i ∈ L, ∃ e, hget s.heap i = some e ∧ e.refs = 1) → L.Nodup →
    (L.foldl teardownStep s).born = s.born ∧
    (L.foldl teardownStep s).nextId = s.nextId ∧
    delsIds (L.foldl teardownStep s) = delsIds s ++ L ∧
    (∀ d ∈ (L.foldl teardownStep s).dels,
       d ∈ s.dels ∨ ∃ e, hget s.heap d.1 = some e ∧
         d.2.1 = e.key ∧ d.2.2 = e.value) := by
  induction L with
  | nil =>
    intro s h hn
    exact ⟨rfl, rfl, (List.append_nil _).symm, fun d hd => Or.inl hd⟩
  | cons a L ih =>
    intro s h hn
    obtain ⟨e, he, hr⟩ := h a (List.mem_cons_self _ _)
    have hstep : teardownStep s a =
        { s with heap := hrem s.heap a,
                 dels := s.dels ++ [(a, e.key, e.value)] } :=
      teardownStep_del s a e he hr
    have haL : a ∉ L := (List.nodup_cons.mp hn).1
    rw [List.foldl_cons, hstep]
    have h' : ∀ i ∈ L,
        ∃ e', hget ({ s with heap := hrem s.heap a,
                             dels := s.dels ++ [(a, e.key, e.value)] } :
            Shard).heap i = some e' ∧ e'.refs = 1 := by
      intro i hi
      obtain ⟨e', he', hr'⟩ := h i (List.mem_cons_of_mem _ hi)
      have hia : i ≠ a := fun hia => haL (hia ▸ hi)
      refine ⟨e', ?_, hr'⟩
      show hget (hrem s.heap a) i = some e'
      rw [hget_hrem, if_neg hia]
      exact he'
    obtain ⟨b1, b2, b3, b4⟩ := ih _ h' (List.nodup_cons.mp hn).2
    refine ⟨b1, b2, ?_, ?_⟩
    · rw [b3]
      show (s.dels ++ [(a, e.key, e.value)]).map (·.1) ++ L
        = delsIds s ++ a :: L
      rw [List.map_append]
      simp [delsIds]
    · intro d hd
      rcases b4 d hd with hd' | ⟨e', he', hk, hv⟩
      · rcases List.mem_append.mp hd' with h1 | h2
        · exact Or.inl h1
        · have hde : d = (a, e.key, e.value) := List.mem_singleton.mp h2
          subst hde
          exact Or.inr ⟨e, he, rfl, rfl⟩
      · by_cases hda : d.1 = a
        · rw [show ({ s with heap := hrem s.heap a,
                             dels := s.dels ++ [(a, e.key, e.value)] } :
              Shard).heap = hrem s.heap a from rfl,
            hget_hrem, if_pos hda] at he'
          cases he'
        · rw [show ({ s with heap := hrem s.heap a,
                             dels := s.dels ++ [(a, e.key, e.value)] } :
              Shard).heap = hrem s.heap a from rfl,
            hget_hrem, if_neg hda] at he'
          exact Or.inr ⟨e', he', hk, hv⟩

/-- On a well-formed shard with no outstanding client handles, running
the destructor deletes every live entry exactly once; combined with the
deletion history this gives the exactly-once property for every id the
shard ever allocated. -/
theorem teardown_exactly_once (s : Shard) (w : WF s)
    (hout : s.outstanding = []) :
    (delsIds (teardown s)).Nodup ∧
    (∀ d ∈ (teardown s).dels,
       ∃ c, bget (teardown s).born d.1 = some (d.2.1, d.2.2, c)) ∧
    (∀ d ∈ s.dels, d.1 ∉ s.table) ∧
    (∀ i, i < s.nextId → (delsIds (teardown s)).count i = 1) := by
  have hlive : ∀ i ∈ s.lru, ∃ e, hget s.heap i = some e ∧ e.refs = 1 := by
    intro i hi
    obtain ⟨e, he, _⟩ := w.tLive i ((w.listsTbl i).mp (Or.inl hi))
    exact ⟨e, he, w.lruRefs i hi e he⟩
  have hn : s.lru.Nodup := (List.nodup_append.mp w.listsNodup).1
  obtain ⟨b1, b2, b3, b4⟩ := teardown_fold s.lru s hlive hn
  have heapLru : ∀ i ∈ heapIds s.heap, i ∈ s.lru := by
    intro i hi
    obtain ⟨p, hp, hpi⟩ := List.mem_map.mp hi
    subst hpi
    have hrefs := w.refsEq p hp
    rw [hout] at hrefs
    simp only [List.count_nil, Nat.add_zero] at hrefs
    have hpos := w.refsPos p hp
    have hin : p.2.inCache = true := by
      by_cases hic : p.2.inCache = true
      · exact hic
      · rw [if_neg hic] at hrefs; omega
    have hpt : p.1 ∈ s.table := w.cacheTbl p hp hin
    rcases (w.listsTbl p.1).mpr hpt with hl | hu
    · exact hl
    · obtain ⟨e, he, _⟩ := w.tLive p.1 hpt
      have h2 := w.useRefs p.1 hu e he
      have hpe : (p.1, e) ∈ s.heap := hget_mem _ _ _ he
      have he2 := w.refsEq (p.1, e) hpe
      rw [hout] at he2
      simp only [List.count_nil, Nat.add_zero] at he2
      by_cases hic : e.inCache = true
      · rw [if_pos hic] at he2; omega
      · rw [if_neg hic] at he2; omega
  have disj : ∀ i ∈ delsIds s, i ∉ s.lru := by
    intro i hi hil
    obtain ⟨d, hd, hd1⟩ := List.mem_map.mp hi
    exact w.dDisj d hd
      (hd1 ▸ w.tableSubHeap i ((w.listsTbl i).mp (Or.inl hil)))
  have hteq : teardown s = s.lru.foldl teardownStep s := rfl
  refine ⟨?_, ?_, ?_, ?_⟩
  · rw [hteq, b3]
    exact List.nodup_append.mpr ⟨w.dNodup, hn, disj⟩
  · intro d hd
    rw [hteq] at hd
    rcases b4 d hd with hold | ⟨e, he, hk, hv⟩
    · obtain ⟨c, hb⟩ := w.bDels d hold
      rw [hteq, b1]
      exact ⟨c, hb⟩
    · have hb := w.bHeap (d.1, e) (hget_mem _ _ _ he)
      rw [hteq, b1, hk, hv]
      exact ⟨e.charge, hb⟩
  · intro d hd hmem
    exact w.dDisj d hd (w.tableSubHeap _ hmem)
  · intro i hi
    rw [hteq, b3, List.count_append]
    rcases w.allocSplit i hi with hih | hid
    · have hil : i ∈ s.lru := heapLru i hih
      have hnd : i ∉ delsIds s := by
        intro hmem
        obtain ⟨d, hd, hd1⟩ := List.mem_map.mp hmem
        exact w.dDisj d hd (hd1 ▸ hih)
      rw [List.count_eq_zero.mpr hnd, List.count_eq_one_of_mem hn hil]
    · have hnl : i ∉ s.lru := disj i hid
      rw [List.count_eq_zero.mpr hnl, List.count_eq_one_of_mem w.dNodup hid]

/-- C6: over the whole lifecycle of a shard — any finite operation
sequence after which the client holds no handle, followed by the
destructor — the deleter of every entry ever created by `Insert` runs
exactly once (each allocated id appears exactly once in the deletion
history), it runs with the entry's key and value as recorded at
insertion, and it never runs while the entry is still reachable through
the hash table. -/
theorem C6_deleter_exactly_once (cap : Nat) (t : List Op)
    (hout : (runOps (initShard cap) t).outstanding = []) :
    (delsIds (teardown (runOps (initShard cap) t))).Nodup ∧
    (∀ d ∈ (teardown (runOps (initShard cap) t)).dels,
       ∃ c, bget (teardown (runOps (initShard cap) t)).born d.1
         = some (d.2.1, d.2.2, c)) ∧
    (∀ d ∈ (runOps (initShard cap) t).dels,
       d.1 ∉ (runOps (initShard cap) t).table) ∧
    (∀ i, i < (runOps (initShard cap) t).nextId →
       (delsIds (teardown (runOps (initShard cap) t))).count i = 1) :=
  teardown_exactly_once (runOps (initShard cap) t) (WF_runOps cap t) hout

/-- Witness for the C6 theorem: a capacity-1 shard, two unit-charge
inserts with both handles released (the second insert evicts the
first); both deleters run exactly once. -/
theorem C6_deleter_exactly_once_witness :
    (runOps (initShard 1) c6ops).outstanding = [] ∧
    ((delsIds (teardown (runOps (initShard 1) c6ops))).Nodup ∧
    (∀ d ∈ (teardown (runOps (initShard 1) c6ops)).dels,
       ∃ c, bget (teardown (runOps (initShard 1) c6ops)).born d.1
         = some (d.2.1, d.2.2, c)) ∧
    (∀ d ∈ (runOps (initShard 1) c6ops).dels,
       d.1 ∉ (runOps (initShard 1) c6ops).table) ∧
    (∀ i, i < (runOps (initShard 1) c6ops).nextId →
       (delsIds (teardown (runOps (initShard 1) c6ops))).count i = 1)) :=
  ⟨by decide, C6_deleter_exactly_once 1 c6ops (by decide)⟩

theorem mem_hrem_imp (h : List (Nat × Entry)) (i : Nat) (p : Nat × Entry)
    (hp : p ∈ hrem h i) : p ∈ h := (hrem_sublist h i).subset hp

theorem ChargeOne_shardUnref (s : Shard) (i : Nat) (hc : ChargeOne s) :
    ChargeOne (shardUnref s i) := by
  intro p hp
  cases hh : hget s.heap i with
  | none => simp only [shardUnref, hh] at hp; exact hc p hp
  | some e =>
    simp only [shardUnref, hh] at hp
    by_cases h0 : e.refs - 1 = 0
    · rw [if_pos h0] at hp
      exact hc p (mem_hrem_imp _ _ _ hp)
    · rw [if_neg h0] at hp
      by_cases h1 : e.inCache = true ∧ e.refs - 1 = 1
      · rw [if_pos h1] at hp
        replace hp : p ∈ (i, { e with refs := e.refs - 1 }) :: hrem s.heap i := hp
        rcases List.mem_cons.mp hp with h2 | h2
        · rw [h2]; exact hc (i, e) (hget_mem _ _ _ hh)
        · exact hc p (mem_hrem_imp _ _ _ h2)
      · rw [if_neg h1] at hp
        replace hp : p ∈ (i, { e with refs := e.refs - 1 }) :: hrem s.heap i := hp
        rcases List.mem_cons.mp hp with h2 | h2
        · rw [h2]; exact hc (i, e) (hget_mem _ _ _ hh)
        · exact hc p (mem_hrem_imp _ _ _ h2)

theorem ChargeOne_shardRef (s : Shard) (i : Nat) (hc : ChargeOne s) :
    ChargeOne (shardRef s i) := by
  intro p hp
  cases hh : hget s.heap i with
  | none => simp only [shardRef, hh] at hp; exact hc p hp
  | some e =>
    simp only [shardRef, hh] at hp
    by_cases h1 : e.refs = 1 ∧ e.inCache = true
    · rw [if_pos h1] at hp
      replace hp : p ∈ (i, { e with refs := e.refs + 1 }) :: hrem s.heap i := hp
      rcases List.mem_cons.mp hp with h2 | h2
      · rw [h2]; exact hc (i, e) (hget_mem _ _ _ hh)
      · exact hc p (mem_hrem_imp _ _ _ h2)
    · rw [if_neg h1] at hp
      replace hp : p ∈ (i, { e with refs := e.refs + 1 }) :: hrem s.heap i := hp
      rcases List.mem_cons.mp hp with h2 | h2
      · rw [h2]; exact hc (i, e) (hget_mem _ _ _ hh)
      · exact hc p (mem_hrem_imp _ _ _ h2)

theorem ChargeOne_shardFinishErase (s : Shard) (o : Option Nat)
    (hc : ChargeOne s) : ChargeOne (shardFinishErase s o) := by
  cases o with
  | none => exact hc
  | some i =>
    cases hh : hget s.heap i with
    | none =>
      intro p hp
      simp only [shardFinishErase, hh] at hp
      exact hc p hp
    | some e =>
      have hmid : ChargeOne ({ listsRemove s i with
          heap := hupd (listsRemove s i).heap i { e with inCache := false },
          usage := (listsRemove s i).usage - e.charge } : Shard) := by
        intro p hp
        replace hp : p ∈ (i, { e with inCache := false }) :: hrem s.heap i := hp
        rcases List.mem_cons.mp hp with h2 | h2
        · rw [h2]; exact hc (i, e) (hget_mem _ _ _ hh)
        · exact hc p (mem_hrem_imp _ _ _ h2)
      intro p hp
      simp only [shardFinishErase, hh] at hp
      exact ChargeOne_shardUnref _ i hmid p hp

theorem ChargeOne_shardErase (s : Shard) (k : Key) (hc : ChargeOne s) :
    ChargeOne (shardErase s k) := by
  intro p hp
  simp only [shardErase] at hp
  refine ChargeOne_shardFinishErase _ _ ?_ p hp
  intro q hq
  exact hc q hq

theorem ChargeOne_shardLookup (s : Shard) (k : Key) (hc : ChargeOne s) :
    ChargeOne (shardLookup s k).1 := by
  cases hf : tblFind s k with
  | none =>
    intro p hp
    simp only [shardLookup, hf] at hp
    exact hc p hp
  | some i =>
    intro p hp
    simp only [shardLookup, hf] at hp
    exact ChargeOne_shardRef s i hc p hp

theorem ChargeOne_shardRelease (s : Shard) (i : Nat) (hc : ChargeOne s) :
    ChargeOne (shardRelease s i) := by
  by_cases hm : i ∈ s.outstanding
  · intro p hp
    simp only [shardRelease, if_pos hm] at hp
    refine ChargeOne_shardUnref _ i ?_ p hp
    intro q hq
    exact hc q hq
  · intro p hp
    simp only [shardRelease, if_neg hm] at hp
    exact hc p hp

theorem ChargeOne_insertCore1 (s : Shard) (k : Key) (v : Val)
    (hc : ChargeOne s) : ChargeOne (insertCore s k v 1).1 := by
  by_cases hcap : 0 < s.capacity
  · intro p hp
    simp only [insertCore, if_pos hcap] at hp
    refine ChargeOne_shardFinishErase _ _ ?_ p hp
    intro q hq
    replace hq : q ∈ (s.nextId,
        ({ key := k, value := v, charge := 1, refs := 2, inCache := true } :
          Entry)) :: hrem s.heap s.nextId := hq
    rcases List.mem_cons.mp hq with h2 | h2
    · rw [h2]
    · exact hc q (mem_hrem_imp _ _ _ h2)
  · intro p hp
    simp only [insertCore, if_neg hcap] at hp
    replace hp : p ∈ (s.nextId,
        ({ key := k, value := v, charge := 1, refs := 1, inCache := false } :
          Entry)) :: hrem s.heap s.nextId := hp
    rcases List.mem_cons.mp hp with h2 | h2
    · rw [h2]
    · exact hc p (mem_hrem_imp _ _ _ h2)

theorem ChargeOne_evictPlain (n : Nat) : ∀ s : Shard, ChargeOne s →
    ChargeOne (evictPlain n s) := by
  induction n with
  | zero => intro s hc; exact hc
  | succ n ih =>
    intro s hc
    by_cases hcu : s.capacity < s.usage
    · cases hl : s.lru with
      | nil =>
        have hid : evictPlain (n + 1) s = s := by
          rw [evictPlain, if_pos hcu, hl]
        rw [hid]; exact hc
      | cons old rest =>
        cases hk : keyAt s.heap old with
        | none =>
          have hid : evictPlain (n + 1) s = s := by
            rw [evictPlain, if_pos hcu, hl]
            show (match keyAt s.heap old with
              | none => s
              | some k => evictPlain n (shardErase s k)) = s
            rw [hk]
          rw [hid]; exact hc
        | some k =>
          have hid : evictPlain (n + 1) s = evictPlain n (shardErase s k) := by
            rw [evictPlain, if_pos hcu, hl]
            show (match keyAt s.heap old with
              | none => s
              | some k => evictPlain n (shardErase s k)) =
              evictPlain n (shardErase s k)
            rw [hk]
          rw [hid]
          exact ih _ (ChargeOne_shardErase s k hc)
    · rw [evictPlain_noop (n + 1) s hcu]
      exact hc

theorem ChargeOne_shardInsert1 (s : Shard) (k : Key) (v : Val)
    (hc : ChargeOne s) : ChargeOne (shardInsert s k v 1).1 :=
  ChargeOne_evictPlain _ _ (ChargeOne_insertCore1 s k v hc)

theorem ChargeOne_initShard (cap : Nat) : ChargeOne (initShard cap) := by
  intro p hp
  cases hp

theorem ChargeOne_getShard (sc : Sharded) (idx : Nat)
    (hc : AllChargeOne sc) : ChargeOne (getShard sc idx) := by
  unfold getShard
  by_cases h : idx < sc.shards.length
  · rw [List.getD_eq_getElem _ _ h]
    exact hc _ (List.getElem_mem h)
  · rw [List.getD_eq_default _ _ (Nat.le_of_not_lt h)]
    exact ChargeOne_initShard 0

theorem AllChargeOne_setShard (sc : Sharded) (idx : Nat) (s : Shard)
    (hc : AllChargeOne sc) (hs : ChargeOne s) :
    AllChargeOne (setShard sc idx s) := by
  intro s' hs'
  rcases List.mem_or_eq_of_mem_set hs' with hm | hm
  · exact hc s' hm
  · exact hm ▸ hs

theorem AllChargeOne_shardedInsert1 (H : Key → Nat) (sc : Sharded) (k : Key)
    (v : Val) (hc : AllChargeOne sc) :
    AllChargeOne (shardedInsert H sc k v 1).1 :=
  AllChargeOne_setShard _ _ _ hc
    (ChargeOne_shardInsert1 _ k v (ChargeOne_getShard _ _ hc))

theorem AllChargeOne_shardedLookup (H : Key → Nat) (sc : Sharded) (k : Key)
    (hc : AllChargeOne sc) : AllChargeOne (shardedLookup H sc k).1 :=
  AllChargeOne_setShard _ _ _ hc
    (ChargeOne_shardLookup _ k (ChargeOne_getShard _ _ hc))

theorem AllChargeOne_shardedRelease (sc : Sharded) (h : Handle)
    (hc : AllChargeOne sc) : AllChargeOne (shardedRelease sc h) :=
  AllChargeOne_setShard _ _ _ hc
    (ChargeOne_shardRelease _ h.2 (ChargeOne_getShard _ _ hc))

theorem AllChargeOne_shardedAdjustCapacity (sc : Sharded) (d : Int)
    (hc : AllChargeOne sc) : AllChargeOne (shardedAdjustCapacity sc d) := by
  unfold shardedAdjustCapacity
  by_cases hcond : d < 0 ∧ sc.capacity < 2097152
  · rw [if_pos hcond]; exact hc
  · rw [if_neg hcond]
    intro s hs
    obtain ⟨s0, hs0, hset⟩ := List.mem_map.mp hs
    intro p hp
    rw [← hset] at hp
    exact hc s0 hs0 p hp

theorem AllChargeOne_newSharded (cap : Nat) :
    AllChargeOne (newSharded cap) := by
  intro s hs
  rw [List.eq_of_mem_replicate hs]
  exact ChargeOne_initShard _

/-- AdjustCapacity touches only shard capacities, so it preserves
well-formedness of every shard. -/
theorem ShardedWF_shardedAdjustCapacity (sc : Sharded) (d : Int)
    (hw : ShardedWF sc) : ShardedWF (shardedAdjustCapacity sc d) := by
  unfold shardedAdjustCapacity
  by_cases hcond : d < 0 ∧ sc.capacity < 2097152
  · rw [if_pos hcond]; exact hw
  · rw [if_neg hcond]
    intro s hs
    obtain ⟨s0, hs0, hset⟩ := List.mem_map.mp hs
    rw [← hset]
    exact WF_shardAdjustCapacity _ _ (hw s0 hs0)

/-- AdaptiveCache::Lookup on a real-cache hit: the real handle is
returned and `ghostHit` is left alone. -/
theorem adaptiveLookup_real_hit (H : Key → Nat) (a : Adaptive) (k : Key)
    (g : Int) (hd : Handle) (hp : (shardedLookup H a.real k).2 = some hd) :
    adaptiveLookup H a k g =
      (some hd, { a with real := (shardedLookup H a.real k).1 }, g) := by
  simp only [adaptiveLookup, hp]

/-- AdaptiveCache::Lookup on a real miss and ghost hit: null is
returned, `ghostHit` receives the integer stored in the ghost entry and
the ghost handle is released. -/
theorem adaptiveLookup_ghost_hit (H : Key → Nat) (a : Adaptive) (k : Key)
    (g : Int) (hd : Handle) (hp : (shardedLookup H a.real k).2 = none)
    (hq : (shardedLookup H a.ghost k).2 = some hd) :
    adaptiveLookup H a k g =
      (none,
       { a with real := (shardedLookup H a.real k).1,
                ghost := shardedRelease (shardedLookup H a.ghost k).1 hd },
       shardedValue (shardedLookup H a.ghost k).1 hd) := by
  simp only [adaptiveLookup, hp, hq]

/-- AdaptiveCache::Lookup on a miss in both caches: null is returned
and `ghostHit` is left alone. -/
theorem adaptiveLookup_miss (H : Key → Nat) (a : Adaptive) (k : Key)
    (g : Int) (hp : (shardedLookup H a.real k).2 = none)
    (hq : (shardedLookup H a.ghost k).2 = none) :
    adaptiveLookup H a k g =
      (none,
       { a with real := (shardedLookup H a.real k).1,
                ghost := (shardedLookup H a.ghost k).1 }, g) := by
  simp only [adaptiveLookup, hp, hq]

/-- The ghost-aware eviction loop keeps the ghost cache well formed with
every entry at charge 1: each iteration inserts one charge-1 record and
releases its handle. -/
theorem evictGhost_ghost (H : Key → Nat) (n : Nat) : ∀ (s : Shard)
    (g : Sharded), ShardedWF g → AllChargeOne g →
    ShardedWF (evictGhost H n s g).2 ∧ AllChargeOne (evictGhost H n s g).2 := by
  induction n with
  | zero => intro s g hw hc; exact ⟨hw, hc⟩
  | succ n ih =>
    intro s g hw hc
    by_cases hcu : s.capacity < s.usage
    · cases hl : s.lru with
      | nil =>
        have hid : evictGhost H (n + 1) s g = (s, g) := by
          rw [evictGhost, if_pos hcu, hl]
        rw [hid]; exact ⟨hw, hc⟩
      | cons old rest =>
        cases hh : hget s.heap old with
        | none =>
          have hid : evictGhost H (n + 1) s g = (s, g) := by
            rw [evictGhost, if_pos hcu, hl]
            show (match hget s.heap old with
              | none => (s, g)
              | some e =>
                let p := shardedInsert H g e.key (e.charge : Int) 1
                let g2 := shardedRelease p.1 p.2
                evictGhost H n (shardErase s e.key) g2) = (s, g)
            rw [hh]
          rw [hid]; exact ⟨hw, hc⟩
        | some e =>
          have hid : evictGhost H (n + 1) s g =
              evictGhost H n (shardErase s e.key)
                (shardedRelease (shardedInsert H g e.key (e.charge : Int) 1).1
                  (shardedInsert H g e.key (e.charge : Int) 1).2) := by
            rw [evictGhost, if_pos hcu, hl]
            show (match hget s.heap old with
              | none => (s, g)
              | some e =>
                let p := shardedInsert H g e.key (e.charge : Int) 1
                let g2 := shardedRelease p.1 p.2
                evictGhost H n (shardErase s e.key) g2) = _
            rw [hh]
          rw [hid]
          have hw1 : ShardedWF (shardedInsert H g e.key (e.charge : Int) 1).1 :=
            ShardedWF_setShard _ _ _ hw
              (WF_shardInsert _ _ _ _ (WF_getShard _ _ hw))
          have hc1 : AllChargeOne (shardedInsert H g e.key (e.charge : Int) 1).1 :=
            AllChargeOne_shardedInsert1 H g _ _ hc
          exact ih _ _
            (ShardedWF_setShard _ _ _ hw1
              (WF_shardRelease _ _ (WF_getShard _ _ hw1)))
            (AllChargeOne_shardedRelease _ _ hc1)
    · have hid : evictGhost H (n + 1) s g = (s, g) := by
        rw [evictGhost, if_neg hcu]
      rw [hid]; exact ⟨hw, hc⟩

/-- Every adaptive operation keeps the ghost cache well formed with all
charges 1. -/
theorem ghost_stepAOp (H : Key → Nat) (a : Adaptive) (op : AOp)
    (hw : ShardedWF a.ghost) (hc : AllChargeOne a.ghost) :
    ShardedWF (stepAOp H a op).ghost ∧ AllChargeOne (stepAOp H a op).ghost := by
  cases op with
  | insert k v c => exact evictGhost_ghost H _ _ _ hw hc
  | lookup k =>
    cases hp : (shardedLookup H a.real k).2 with
    | some hd =>
      have hid := adaptiveLookup_real_hit H a k 0 hd hp
      show ShardedWF (adaptiveLookup H a k 0).2.1.ghost ∧
        AllChargeOne (adaptiveLookup H a k 0).2.1.ghost
      rw [hid]
      exact ⟨hw, hc⟩
    | none =>
      cases hq : (shardedLookup H a.ghost k).2 with
      | some hd =>
        have hid := adaptiveLookup_ghost_hit H a k 0 hd hp hq
        show ShardedWF (adaptiveLookup H a k 0).2.1.ghost ∧
        AllChargeOne (adaptiveLookup H a k 0).2.1.ghost
        rw [hid]
        have hw1 : ShardedWF (shardedLookup H a.ghost k).1 :=
          ShardedWF_setShard _ _ _ hw (WF_shardLookup _ _ (WF_getShard _ _ hw))
        have hc1 : AllChargeOne (shardedLookup H a.ghost k).1 :=
          AllChargeOne_shardedLookup H _ _ hc
        exact ⟨ShardedWF_setShard _ _ _ hw1
            (WF_shardRelease _ _ (WF_getShard _ _ hw1)),
          AllChargeOne_shardedRelease _ _ hc1⟩
      | none =>
        have hid := adaptiveLookup_miss H a k 0 hp hq
        show ShardedWF (adaptiveLookup H a k 0).2.1.ghost ∧
        AllChargeOne (adaptiveLookup H a k 0).2.1.ghost
        rw [hid]
        exact ⟨ShardedWF_setShard _ _ _ hw
            (WF_shardLookup _ _ (WF_getShard _ _ hw)),
          AllChargeOne_shardedLookup H _ _ hc⟩
  | release h => exact ⟨hw, hc⟩
  | adjust d =>
    show ShardedWF ((adaptiveAdjustCapacity a d).getD a).ghost ∧
        AllChargeOne ((adaptiveAdjustCapacity a d).getD a).ghost
    unfold adaptiveAdjustCapacity
    by_cases hacc : 4096 < a.accum + d ∨ a.accum + d < -4096
    · rw [if_pos hacc]
      by_cases hr : shardedTotalCharge a.real = 0
      · rw [if_pos hr]
        exact ⟨hw, hc⟩
      · rw [if_neg hr]
        exact ⟨ShardedWF_shardedAdjustCapacity _ _ hw,
          AllChargeOne_shardedAdjustCapacity _ _ hc⟩
    · rw [if_neg hacc]
      exact ⟨hw, hc⟩

/-- Any sequence of adaptive operations keeps the ghost cache well
formed with all charges 1. -/
theorem ghost_runAOps (H : Key → Nat) (t : List AOp) : ∀ a : Adaptive,
    ShardedWF a.ghost → AllChargeOne a.ghost →
    ShardedWF (runAOps H a t).ghost ∧ AllChargeOne (runAOps H a t).ghost := by
  induction t with
  | nil => intro a hw hc; exact ⟨hw, hc⟩
  | cons op t ih =>
    intro a hw hc
    obtain ⟨hw1, hc1⟩ := ghost_stepAOp H a op hw hc
    exact ih _ hw1 hc1

theorem sum_map_one {α : Type} (t : List α) (f : α → Nat)
    (h : ∀ x ∈ t, f x = 1) : (t.map f).sum = t.length := by
  induction t with
  | nil => rfl
  | cons a t ih =>
    rw [List.map_cons, List.sum_cons, h a (List.mem_cons_self _ _),
      ih (fun x hx => h x (List.mem_cons_of_mem _ hx)), List.length_cons]
    omega

/-- A well-formed sharded cache whose entries all have charge 1 has its
total charge equal to its number of resident keys. -/
theorem ghostCharge_resident (g : Sharded) (hw : ShardedWF g)
    (hc : AllChargeOne g) : shardedTotalCharge g = residentKeys g := by
  unfold shardedTotalCharge residentKeys
  refine congrArg List.sum (List.map_congr_left (fun s hs => ?_))
  have w := hw s hs
  rw [w.usageEq]
  unfold listCharge
  refine sum_map_one _ _ (fun i hi => ?_)
  obtain ⟨e, he, _⟩ := w.tLive i hi
  have h1 : e.charge = 1 := hc s hs (i, e) (hget_mem _ _ _ he)
  simp [chargeAt, he, h1]

/-- C9: every eviction performed by the ghost-aware `Insert` puts the
evicted key into the ghost cache with charge exactly 1 — the evicted
entry's original charge travels only as the stored integer value — so
after every finite sequence of adaptive operations the ghost cache's
TotalCharge equals the number of keys currently resident in the ghost
cache, independent of the evicted entries' original charges. -/
theorem C9_ghost_total_charge (H : Key → Nat) (capR capG : Nat)
    (t : List AOp) :
    adaptiveGhostCharge (runAOps H (newAdaptive capR capG) t)
      = residentKeys (runAOps H (newAdaptive capR capG) t).ghost := by
  obtain ⟨hw, hc⟩ := ghost_runAOps H t (newAdaptive capR capG)
    (ShardedWF_newSharded capG) (AllChargeOne_newSharded capG)
  exact ghostCharge_resident _ hw hc

theorem shardLookup_snd (s : Shard) (k : Key) :
    (shardLookup s k).2 = tblFind s k := by
  cases hf : tblFind s k with
  | none => simp [shardLookup, hf]
  | some i => simp [shardLookup, hf]

theorem shardLookup_miss (s : Shard) (k : Key) (hf : tblFind s k = none) :
    shardLookup s k = (s, none) := by
  simp [shardLookup, hf]

theorem shardedLookup_snd (H : Key → Nat) (sc : Sharded) (k : Key) :
    (shardedLookup H sc k).2
      = (tblFind (getShard sc (shardIdx H k)) k).map
          (fun i => (shardIdx H k, i)) := by
  show ((shardLookup (getShard sc (shardIdx H k)) k).2.map
    (fun i => (shardIdx H k, i))) = _
  rw [shardLookup_snd]

theorem shardUnref_outstanding (s : Shard) (i : Nat) :
    (shardUnref s i).outstanding = s.outstanding := by
  cases hh : hget s.heap i with
  | none => simp [shardUnref, hh]
  | some e =>
    simp only [shardUnref, hh]
    by_cases h0 : e.refs - 1 = 0
    · rw [if_pos h0]
    · rw [if_neg h0]
      split <;> rfl

theorem set_self_eq {α : Type} : ∀ (l : List α) (i : Nat) (a : α),
    (∀ h : i < l.length, l.get ⟨i, h⟩ = a) → l.set i a = l := by
  intro l
  induction l with
  | nil => intro i a _; rfl
  | cons b t ih =>
    intro i a h
    cases i with
    | zero =>
      have hb : b = a := h (Nat.succ_pos _)
      rw [List.set_cons_zero, hb]
    | succ n =>
      rw [List.set_cons_succ,
        ih n a (fun hh => h (Nat.succ_lt_succ hh))]

theorem getShard_setShard (sc : Sharded) (idx : Nat) (s : Shard)
    (h : idx < sc.shards.length) : getShard (setShard sc idx s) idx = s := by
  show (sc.shards.set idx s).getD idx (initShard 0) = s
  rw [List.getD_eq_getElem _ _ (by simpa using h), List.getElem_set_self]

theorem setShard_setShard (sc : Sharded) (idx : Nat) (s1 s2 : Shard) :
    setShard (setShard sc idx s1) idx s2 = setShard sc idx s2 := by
  simp [setShard, List.set_set]

theorem map_setShard {β : Type} (sc : Sharded) (idx : Nat) (s : Shard)
    (f : Shard → β) (hs : f s = f (getShard sc idx)) :
    (setShard sc idx s).shards.map f = sc.shards.map f := by
  show (sc.shards.set idx s).map f = _
  rw [List.map_set]
  by_cases h : idx < sc.shards.length
  · refine set_self_eq _ _ _ (fun hh => ?_)
    rw [hs, getShard, List.getD_eq_getElem _ _ h]
    simp
  · rw [List.set_eq_of_length_le (by simpa using Nat.le_of_not_lt h)]

theorem lt_of_tblFind_some (sc : Sharded) (idx : Nat) (k : Key) (i : Nat)
    (hf : tblFind (getShard sc idx) k = some i) :
    idx < sc.shards.length := by
  by_contra hge
  simp only [getShard, List.getD_eq_default _ _ (Nat.le_of_not_lt hge)] at hf
  simp [tblFind, tFind, initShard] at hf

theorem entry_of_tblFind (s : Shard) (k : Key) (i : Nat)
    (hf : tblFind s k = some i) : ∃ e, hget s.heap i = some e := by
  obtain ⟨_, hkey⟩ := tFind_eq_some _ _ _ _ hf
  rcases hh : hget s.heap i with _ | e
  · simp [keyAt, hh] at hkey
  · exact ⟨e, rfl⟩

/-- The value a ghost hit reads out of the post-`Ref` state is the value
stored in the ghost entry before the lookup. -/
theorem shardedValue_after_lookup (H : Key → Nat) (sc : Sharded) (k : Key)
    (i : Nat) (hf : tblFind (getShard sc (shardIdx H k)) k = some i) :
    shardedValue (shardedLookup H sc k).1 (shardIdx H k, i)
      = ((hget (getShard sc (shardIdx H k)).heap i).map (·.value)).getD 0 := by
  have hlt := lt_of_tblFind_some _ _ _ _ hf
  obtain ⟨e, he⟩ := entry_of_tblFind _ _ _ hf
  have hget1 : getShard (shardedLookup H sc k).1 (shardIdx H k)
      = (shardLookup (getShard sc (shardIdx H k)) k).1 :=
    getShard_setShard _ _ _ hlt
  show ((hget (getShard (shardedLookup H sc k).1 (shardIdx H k)).heap i).map
    (·.value)).getD 0 = _
  rw [hget1, shardLookup_hit _ _ i e hf he]
  by_cases hcond : e.refs = 1 ∧ e.inCache = true
  · rw [if_pos hcond]
    show ((hget (hupd (getShard sc (shardIdx H k)).heap i
      (Entry.mk e.key e.value e.charge (e.refs + 1) e.inCache)) i).map
        (·.value)).getD 0 = _
    rw [hget_hupd, if_pos rfl, he]
    rfl
  · rw [if_neg hcond]
    show ((hget (hupd (getShard sc (shardIdx H k)).heap i
      (Entry.mk e.key e.value e.charge (e.refs + 1) e.inCache)) i).map
        (·.value)).getD 0 = _
    rw [hget_hupd, if_pos rfl, he]
    rfl

/-- Releasing the ghost handle a ghost hit took restores every ghost
shard's outstanding-handle list. -/
theorem shardedRelease_after_lookup_outstanding (H : Key → Nat)
    (sc : Sharded) (k : Key) (i : Nat)
    (hg : tblFind (getShard sc (shardIdx H k)) k = some i) :
    (shardedRelease (shardedLookup H sc k).1 (shardIdx H k, i)).shards.map
        (fun s => s.outstanding)
      = sc.shards.map (fun s => s.outstanding) := by
  have hlt := lt_of_tblFind_some _ _ _ _ hg
  obtain ⟨e, he⟩ := entry_of_tblFind _ _ _ hg
  have hget1 : getShard (shardedLookup H sc k).1 (shardIdx H k)
      = (shardLookup (getShard sc (shardIdx H k)) k).1 :=
    getShard_setShard _ _ _ hlt
  have hrel : shardedRelease (shardedLookup H sc k).1 (shardIdx H k, i)
      = setShard sc (shardIdx H k)
          (shardRelease (shardLookup (getShard sc (shardIdx H k)) k).1 i) := by
    show setShard (shardedLookup H sc k).1 (shardIdx H k)
        (shardRelease (getShard (shardedLookup H sc k).1 (shardIdx H k)) i) = _
    rw [hget1]
    exact setShard_setShard sc (shardIdx H k) _ _
  rw [hrel]
  refine map_setShard _ _ _ _ ?_
  have hout1 : (shardLookup (getShard sc (shardIdx H k)) k).1.outstanding
      = i :: (getShard sc (shardIdx H k)).outstanding := by
    rw [shardLookup_hit _ _ i e hg he]
    by_cases hcond : e.refs = 1 ∧ e.inCache = true
    · rw [if_pos hcond]
    · rw [if_neg hcond]
  show (shardRelease (shardLookup (getShard sc (shardIdx H k)) k).1
    i).outstanding = (getShard sc (shardIdx H k)).outstanding
  unfold shardRelease
  rw [if_pos (by rw [hout1]; exact List.mem_cons_self _ _),
    shardUnref_outstanding]
  show ((shardLookup (getShard sc (shardIdx H k)) k).1.outstanding).erase i
    = _
  rw [hout1, List.erase_cons_head]

/-- C1: `AdaptiveCache::Lookup(key, ghostHit)` returns the real handle
and leaves `ghostHit` alone when the real cache holds the key; on a real
miss with a ghost hit it returns null, stores the integer recorded in
the ghost entry (the charge the key had when it was evicted from the
real cache) into `ghostHit`, and releases the ghost handle (the ghost
outstanding-handle lists end as they began); on a double miss it returns
null and leaves `ghostHit` alone.  In the concrete S4 scenario — real
capacity 2, insert key 1 with charge 5, release, insert key 2 evicting
key 1 into the ghost — `Lookup(1, g)` returns null with `g = 5`. -/
theorem C1_adaptive_lookup (H : Key → Nat) (a : Adaptive) (k : Key)
    (g : Int) :
    ((adaptiveLookup H a k g).1
      = if realHas H a k then some (realHandleOf H a k) else none) ∧
    ((adaptiveLookup H a k g).2.2
      = if realHas H a k then g
        else if ghostHas H a k then ghostStored H a k else g) ∧
    ((adaptiveLookup H a k g).2.1.ghost.shards.map (fun s => s.outstanding)
      = a.ghost.shards.map (fun s => s.outstanding)) ∧
    ((adaptiveLookup H0 c1state 1 0).1 = none ∧
     (adaptiveLookup H0 c1state 1 0).2.2 = 5) := by
  have hreal := shardedLookup_snd H a.real k
  have hghost := shardedLookup_snd H a.ghost k
  cases hf : tblFind (getShard a.real (shardIdx H k)) k with
  | some i =>
    have hp : (shardedLookup H a.real k).2 = some (shardIdx H k, i) := by
      rw [hreal, hf]; rfl
    have hid := adaptiveLookup_real_hit H a k g _ hp
    refine ⟨?_, ?_, ?_, by decide, by decide⟩
    · rw [hid]; simp [realHas, realHandleOf, hf]
    · rw [hid]; simp [realHas, hf]
    · rw [hid]
  | none =>
    have hp : (shardedLookup H a.real k).2 = none := by
      rw [hreal, hf]; rfl
    have hrh : realHas H a k = false := by simp [realHas, hf]
    cases hg : tblFind (getShard a.ghost (shardIdx H k)) k with
    | none =>
      have hq : (shardedLookup H a.ghost k).2 = none := by
        rw [hghost, hg]; rfl
      have hid := adaptiveLookup_miss H a k g hp hq
      have hgh : ghostHas H a k = false := by simp [ghostHas, hg]
      refine ⟨?_, ?_, ?_, by decide, by decide⟩
      · rw [hid]; simp [hrh]
      · rw [hid]; simp [hrh, hgh]
      · rw [hid]
        show ((shardedLookup H a.ghost k).1).shards.map
          (fun s => s.outstanding) = _
        rw [show (shardedLookup H a.ghost k).1
            = setShard a.ghost (shardIdx H k)
                (shardLookup (getShard a.ghost (shardIdx H k)) k).1 from rfl,
          shardLookup_miss _ _ hg]
        exact map_setShard _ _ _ _ rfl
    | some i =>
      have hq : (shardedLookup H a.ghost k).2 = some (shardIdx H k, i) := by
        rw [hghost, hg]; rfl
      have hid := adaptiveLookup_ghost_hit H a k g _ hp hq
      have hgh : ghostHas H a k = true := by simp [ghostHas, hg]
      refine ⟨?_, ?_, ?_, by decide, by decide⟩
      · rw [hid]; simp [hrh]
      · rw [hid]
        show shardedValue (shardedLookup H a.ghost k).1 (shardIdx H k, i)
          = _
        rw [shardedValue_after_lookup H a.ghost k i hg, hrh, hgh]
        simp [ghostStored, hg]
      · rw [hid]
        exact shardedRelease_after_lookup_outstanding H a.ghost k i hg

/-- Truncation toward zero stays within one of its argument. -/
theorem truncQ_close (q : ℚ) :
    q - 1 < (truncQ q : ℚ) ∧ (truncQ q : ℚ) < q + 1 := by
  unfold truncQ
  by_cases h : 0 ≤ q
  · rw [if_pos h]
    constructor
    · exact_mod_cast Int.sub_one_lt_floor q
    · have := Int.floor_le q
      linarith
  · rw [if_neg h]
    constructor
    · have := Int.le_ceil q
      linarith
    · exact_mod_cast Int.ceil_lt_add_one q

/-- The explicit form of a threshold-crossing `AdjustCapacity` call
with nonzero real charge. -/
theorem adjustCross (a : Adaptive) (d : Int)
    (hcross : 4096 < a.accum + d ∨ a.accum + d < -4096)
    (hr : shardedTotalCharge a.real ≠ 0) :
    adaptiveAdjustCapacity a d
      = some { real := shardedAdjustCapacity a.real
                 (truncQ ((d : ℚ) / ((shardedTotalCharge a.ghost : ℚ) /
                    (shardedTotalCharge a.real : ℚ) + 1))),
               ghost := shardedAdjustCapacity a.ghost
                 (truncQ ((d : ℚ) * ((shardedTotalCharge a.ghost : ℚ) /
                    (shardedTotalCharge a.real : ℚ)) /
                    ((shardedTotalCharge a.ghost : ℚ) /
                      (shardedTotalCharge a.real : ℚ) + 1))),
               accum := 0 } := by
  simp only [adaptiveAdjustCapacity, if_pos hcross, if_neg hr]

/-- C3 counterexample: on an AdaptiveCache whose real cache holds
charge 10 with tracked capacities 100 (real) and 50 (ghost), the single
call `AdjustCapacity(-5000)` crosses the threshold and resets the
accumulator, yet neither capacity changes: the sum of applied capacity
changes is 0, not the flushed -5000, because both shares are negative
and `ShardedLRUCache::AdjustCapacity` ignores negative adjustments while
its tracked capacity is below `8 << 18`. -/
theorem C3_counterexample :
    c3state.real.capacity = 100 ∧ c3state.ghost.capacity = 50 ∧
    (adaptiveAdjustCapacity c3state (-5000)).map
        (fun a2 => (a2.real.capacity, a2.ghost.capacity, a2.accum))
      = some (100, 50, 0) := by
  refine ⟨by decide, by decide, ?_⟩
  have h1 : 4096 < c3state.accum + (-5000) ∨
      c3state.accum + (-5000) < -4096 := by decide
  have h2 : shardedTotalCharge c3state.real ≠ 0 := by decide
  have heq := adjustCross c3state (-5000) h1 h2
  have hg0 : shardedTotalCharge c3state.ghost = 0 := by decide
  have hr10 : shardedTotalCharge c3state.real = 10 := by decide
  rw [hg0, hr10] at heq
  have hdr : truncQ (((-5000 : Int) : ℚ) /
      (((0 : Nat) : ℚ) / ((10 : Nat) : ℚ) + 1)) = -5000 := by
    norm_num [truncQ]
    rw [show ((-5000 : ℚ)) = ((-5000 : Int) : ℚ) by norm_num]
    exact Int.ceil_intCast _
  have hdg : truncQ (((-5000 : Int) : ℚ) *
      (((0 : Nat) : ℚ) / ((10 : Nat) : ℚ)) /
      (((0 : Nat) : ℚ) / ((10 : Nat) : ℚ) + 1)) = 0 := by
    norm_num [truncQ]
  rw [hdr, hdg] at heq
  rw [heq]
  decide

/-- C3 (amended): when a call crosses the ±4096 threshold and the real
cache's total charge is nonzero, the accumulator resets to zero and the
call passes to the real cache the adjustment `trunc(d / (rt + 1))` and
to the ghost cache `trunc(d * rt / (rt + 1))` where
`rt = ghost_charge / real_charge` in exact rational arithmetic; the two
passed adjustments sum to this call's delta within the two integer
truncations (strictly between `d - 2` and `d + 2`).  The capacity
changes actually applied may still be nullified by the `8 << 18` floor
guard of the sharded cache (see the counterexample).  Calls that do not
cross the threshold only accumulate. -/
theorem C3_adjust_split (a : Adaptive) (d : Int)
    (hcross : 4096 < a.accum + d ∨ a.accum + d < -4096)
    (hr : shardedTotalCharge a.real ≠ 0) :
    (adaptiveAdjustCapacity a d
      = some { real := shardedAdjustCapacity a.real
                 (truncQ ((d : ℚ) / ((shardedTotalCharge a.ghost : ℚ) /
                    (shardedTotalCharge a.real : ℚ) + 1))),
               ghost := shardedAdjustCapacity a.ghost
                 (truncQ ((d : ℚ) * ((shardedTotalCharge a.ghost : ℚ) /
                    (shardedTotalCharge a.real : ℚ)) /
                    ((shardedTotalCharge a.ghost : ℚ) /
                      (shardedTotalCharge a.real : ℚ) + 1))),
               accum := 0 }) ∧
    (d - 2 < truncQ ((d : ℚ) / ((shardedTotalCharge a.ghost : ℚ) /
         (shardedTotalCharge a.real : ℚ) + 1))
       + truncQ ((d : ℚ) * ((shardedTotalCharge a.ghost : ℚ) /
           (shardedTotalCharge a.real : ℚ)) /
           ((shardedTotalCharge a.ghost : ℚ) /
             (shardedTotalCharge a.real : ℚ) + 1)) ∧
     truncQ ((d : ℚ) / ((shardedTotalCharge a.ghost : ℚ) /
         (shardedTotalCharge a.real : ℚ) + 1))
       + truncQ ((d : ℚ) * ((shardedTotalCharge a.ghost : ℚ) /
           (shardedTotalCharge a.real : ℚ)) /
           ((shardedTotalCharge a.ghost : ℚ) /
             (shardedTotalCharge a.real : ℚ) + 1)) < d + 2) ∧
    (∀ d2 : Int, ¬ (4096 < a.accum + d2 ∨ a.accum + d2 < -4096) →
       adaptiveAdjustCapacity a d2 = some { a with accum := a.accum + d2 }) := by
  have hrq : (0 : ℚ) < (shardedTotalCharge a.real : ℚ) := by
    have : 0 < shardedTotalCharge a.real := Nat.pos_of_ne_zero hr
    exact_mod_cast this
  have hgq : (0 : ℚ) ≤ (shardedTotalCharge a.ghost : ℚ) := by positivity
  have hrt0 : (0 : ℚ) ≤ (shardedTotalCharge a.ghost : ℚ) /
      (shardedTotalCharge a.real : ℚ) := by positivity
  have hrt1 : (0 : ℚ) < (shardedTotalCharge a.ghost : ℚ) /
      (shardedTotalCharge a.real : ℚ) + 1 := by linarith
  refine ⟨?_, ?_, ?_⟩
  · exact adjustCross a d hcross hr
  · have hsum : (d : ℚ) / ((shardedTotalCharge a.ghost : ℚ) /
        (shardedTotalCharge a.real : ℚ) + 1)
        + (d : ℚ) * ((shardedTotalCharge a.ghost : ℚ) /
            (shardedTotalCharge a.real : ℚ)) /
            ((shardedTotalCharge a.ghost : ℚ) /
              (shardedTotalCharge a.real : ℚ) + 1) = (d : ℚ) := by
      field_simp
      ring
    obtain ⟨hx1, hx2⟩ := truncQ_close ((d : ℚ) /
      ((shardedTotalCharge a.ghost : ℚ) /
        (shardedTotalCharge a.real : ℚ) + 1))
    obtain ⟨hy1, hy2⟩ := truncQ_close ((d : ℚ) *
      ((shardedTotalCharge a.ghost : ℚ) /
        (shardedTotalCharge a.real : ℚ)) /
      ((shardedTotalCharge a.ghost : ℚ) /
        (shardedTotalCharge a.real : ℚ) + 1))
    constructor
    · have : ((d : ℚ)) - 2 < ((truncQ ((d : ℚ) /
          ((shardedTotalCharge a.ghost : ℚ) /
            (shardedTotalCharge a.real : ℚ) + 1)) : ℚ))
          + ((truncQ ((d : ℚ) * ((shardedTotalCharge a.ghost : ℚ) /
              (shardedTotalCharge a.real : ℚ)) /
              ((shardedTotalCharge a.ghost : ℚ) /
                (shardedTotalCharge a.real : ℚ) + 1)) : ℚ)) := by
        linarith
      exact_mod_cast this
    · have : ((truncQ ((d : ℚ) /
          ((shardedTotalCharge a.ghost : ℚ) /
            (shardedTotalCharge a.real : ℚ) + 1)) : ℚ))
          + ((truncQ ((d : ℚ) * ((shardedTotalCharge a.ghost : ℚ) /
              (shardedTotalCharge a.real : ℚ)) /
              ((shardedTotalCharge a.ghost : ℚ) /
                (shardedTotalCharge a.real : ℚ) + 1)) : ℚ)) < (d : ℚ) + 2 := by
        linarith
      exact_mod_cast this
  · intro d2 hnc
    simp only [adaptiveAdjustCapacity, if_neg hnc]

/-- Witness for the amended C3 theorem: `AdjustCapacity(5000)` on the
concrete state with real charge 10 crosses the threshold with nonzero
real charge; the accumulator resets to zero. -/
theorem C3_adjust_split_witness :
    (4096 < c3state.accum + 5000 ∨ c3state.accum + 5000 < -4096) ∧
    shardedTotalCharge c3state.real ≠ 0 ∧
    (adaptiveAdjustCapacity c3state 5000).map (fun a2 => a2.accum)
      = some 0 := by
  have h1 : 4096 < c3state.accum + 5000 ∨ c3state.accum + 5000 < -4096 := by
    decide
  have h2 : shardedTotalCharge c3state.real ≠ 0 := by decide
  refine ⟨h1, h2, ?_⟩
  rw [(C3_adjust_split c3state 5000 h1 h2).1]
  rfl

/-- C4: the code does not handle `real_charge == 0`.  A
threshold-crossing `AdjustCapacity` call while the real cache's total
charge is zero reaches `ghost_charge / real_charge` with a zero
divisor; the C++ double division by zero followed by
`static_cast<int>` of the result is undefined, which the model reflects
by producing no result state — in particular the full delta is not
applied to the real cache as the specification requires. -/
theorem C4_div_by_zero :
    shardedTotalCharge (newAdaptive 8 8).real = 0 ∧
    (4096 < (newAdaptive 8 8).accum + 5000 ∨
      (newAdaptive 8 8).accum + 5000 < -4096) ∧
    adaptiveAdjustCapacity (newAdaptive 8 8) 5000 = none := by decide

/-- C8: `LRUCache::AdjustCapacity` adds the signed delta to the
`size_t` field `capacity_`; a negative adjustment whose magnitude
exceeds the current capacity wraps around 2^64 instead of clamping near
zero: the capacity becomes 2^64 − 4900, and subsequent inserts far
beyond the nominal budget evict nothing (usage 10000 against the
original capacity 100, empty deleter history). -/
theorem C8_adjust_underflow :
    c8shard.capacity = 18446744073709546716 ∧
    2 ^ 64 - 4900 = 18446744073709546716 ∧
    (runOps c8shard c8ops).dels = [] ∧
    (runOps c8shard c8ops).usage = 10000 ∧
    tblFind (runOps c8shard c8ops) 1 = some 0 := by decide

end LCache
